import Mathlib

/-!
# Vietoris–Rips persistence pipeline: shallow embedding and verification

The repository consists of tutorial notebooks that call the `gtda` library
(`VietorisRipsPersistence`, `PersistenceEntropy`, `NumberOfPoints`, `Amplitude`,
`SingleTakensEmbedding`); the library code itself is not part of the reviewed
sources.  The accompanying specification describes, at design level, the
algorithmic core those calls exercise: a Distance/Filtration Builder, a
Persistence Engine based on boundary-matrix reduction over the two-element
field, and a Diagram Vectorizer.  This file embeds that core, modelled from
the specification, and proves the claimed properties about it.

Rationals stand in for the floating-point filtration values (the spec's
"no rounding beyond the input metric's own precision"); reals are used where
logarithms occur (persistence entropy).
-/

namespace GtdaSpec

/-- A simplex is a strictly increasing list of vertex indices; a `k`-simplex
has `k+1` vertices. -/
abbrev Simplex := List ℕ

/-- Dimension of a simplex: number of vertices minus one. -/
def Simplex.dim (s : Simplex) : ℕ := s.length - 1

/-- All ordered pairs of distinct vertices of a simplex. -/
def vertexPairs (s : Simplex) : List (ℕ × ℕ) :=
  s.flatMap (fun i => s.map (fun j => (i, j)))

/-- Modelled from the spec: the Vietoris–Rips filtration value of a simplex is
the maximum pairwise distance among its vertices (§3, "Simplex"); a vertex has
filtration value 0. -/
def simplexValue (dm : ℕ → ℕ → ℚ) (s : Simplex) : ℚ :=
  (vertexPairs s).foldr (fun p acc => max (dm p.1 p.2) acc) 0

/-- Lexicographic comparison of vertex-index lists (the spec's deterministic
tie-break, §3 "Filtration" and §4.2). -/
def lexLE : List ℕ → List ℕ → Bool
  | [], _ => true
  | _ :: _, [] => false
  | a :: as, b :: bs => a < b || (a == b && lexLE as bs)

/-- Modelled from the spec: the order on filtration entries — by filtration
value ascending, then by dimension ascending, ties broken lexicographically on
vertex indices (§3 "Filtration", §4.2 "Tie-breaking"). -/
def filtLE (a b : Simplex × ℚ) : Bool :=
  a.2 < b.2 ||
    (a.2 == b.2 &&
      (a.1.length < b.1.length ||
        (a.1.length == b.1.length && lexLE a.1 b.1)))

/-- A filtration: the ordered sequence of simplex insertion events, together
with the maximum simplex dimension the builder was asked for (`d_max + 1`,
one above the homology-dimension cap, §4.1). -/
structure Filtration where
  simplices : List (Simplex × ℚ)
  dimCap : ℕ

/-- Modelled from the spec (§4.1): given `n` points with distance function
`dm`, a maximum homology dimension `dMax` and an optional scale threshold
`eps`, produce the ordered filtration of all simplices of dimension
`≤ dMax + 1` whose filtration value is `≤ eps`, sorted by
(value, dimension, lexicographic) ascending. -/
def buildFiltration (n : ℕ) (dm : ℕ → ℕ → ℚ) (dMax : ℕ) (eps : Option ℚ) :
    Filtration :=
  let cands := (List.range n).sublists.filter
    (fun s => decide (1 ≤ s.length) && decide (s.length ≤ dMax + 2))
  let entries := cands.map (fun s => (s, simplexValue dm s))
  let entries := match eps with
    | none => entries
    | some e => entries.filter (fun a => decide (a.2 ≤ e))
  { simplices := entries.insertionSort (fun a b => filtLE a b = true)
    dimCap := dMax + 1 }

/-- The facets (codimension-one faces) of a simplex. -/
def facets (s : Simplex) : List Simplex :=
  (List.range s.length).map (fun k => s.eraseIdx k)

/-- The simplex stored at position `i` of the filtration order. -/
def simplexAt (l : List (Simplex × ℚ)) (i : ℕ) : Simplex :=
  (l.getD i ([], 0)).1

/-- The filtration value stored at position `i` of the filtration order. -/
def valueAt (l : List (Simplex × ℚ)) (i : ℕ) : ℚ :=
  (l.getD i ([], 0)).2

/-- Column `j` of the mod-2 boundary matrix: the set of earlier positions
holding a facet of simplex `j`. -/
def boundaryCol (l : List (Simplex × ℚ)) (j : ℕ) : Finset ℕ :=
  (Finset.range j).filter (fun i => simplexAt l i ∈ facets (simplexAt l j))

/-- One stored reduced column: (pivot row, column index, column support). -/
abbrev RCol := ℕ × ℕ × Finset ℕ

/-- Fuel-indexed column reduction: while the column is non-zero and its
lowest one (largest set element) coincides with the pivot of a stored reduced
column, add that column mod 2.  The filter to indices below the pivot is a
no-op on reachable states (stored columns have their pivot as maximum) and
makes the recursion structurally decreasing. -/
def reduceColF : ℕ → List RCol → Finset ℕ → Finset ℕ
  | 0, _, c => c
  | fuel + 1, cols, c =>
    match c.max with
    | ⊥ => c
    | (p : ℕ) =>
      match cols.find? (fun e => e.1 == p) with
      | none => c
      | some e => reduceColF fuel cols ((symmDiff c e.2.2).filter (· < p))

/-- Reduce a boundary column against the stored reduced columns. -/
def reduceCol (cols : List RCol) (c : Finset ℕ) : Finset ℕ :=
  reduceColF (c.sup id + 1) cols c

/-- State of the matrix-reduction pass: stored non-zero reduced columns,
(birth index, death index) pairs, and indices of creator simplices. -/
structure RState where
  cols : List RCol
  pairs : List (ℕ × ℕ)
  births : List ℕ

/-- Modelled from the spec (§4.2): process simplex `j` in filtration order;
if its boundary reduces to zero it creates a homology generator (a birth),
otherwise it kills the generator created at the pivot position (a death). -/
def processStep (l : List (Simplex × ℚ)) (st : RState) (j : ℕ) : RState :=
  let r := reduceCol st.cols (boundaryCol l j)
  match r.max with
  | ⊥ => { st with births := st.births ++ [j] }
  | (i : ℕ) =>
      { cols := (i, j, r) :: st.cols
        pairs := st.pairs ++ [(i, j)]
        births := st.births }

/-- Reduction state after processing the first `k` simplices. -/
def stepUpTo (l : List (Simplex × ℚ)) (k : ℕ) : RState :=
  (List.range k).foldl (processStep l) ⟨[], [], []⟩

/-- Full boundary-matrix reduction over a filtration order. -/
def runReduction (l : List (Simplex × ℚ)) : RState := stepUpTo l l.length

/-- Creator indices never matched by a death: essential classes (§4.2
"Output guarantee"). -/
def essentialIdx (st : RState) : List ℕ :=
  st.births.filter (fun i => st.pairs.all (fun p => p.1 ≠ i))

/-- Modelled from the spec (§3 "Persistence Diagram", §4.2): the diagram in
homology dimension `q` — one (birth, death) point per pair whose birth simplex
has dimension `q` and positive lifetime, plus one `(birth, ∞)` point per
essential class of dimension `q`. -/
def diagramAt (f : Filtration) (q : ℕ) : List (ℚ × WithTop ℚ) :=
  let l := f.simplices
  let st := runReduction l
  let finite := st.pairs.filterMap (fun p =>
    if (simplexAt l p.1).dim = q ∧ valueAt l p.1 < valueAt l p.2 then
      some (valueAt l p.1, (valueAt l p.2 : WithTop ℚ))
    else none)
  let ess := (essentialIdx st).filterMap (fun i =>
    if (simplexAt l i).dim = q then some (valueAt l i, (⊤ : WithTop ℚ))
    else none)
  finite ++ ess

/-- Error taxonomy of the spec (§7); only the variants exercised by the
claims are modelled. -/
inductive PersistenceError where
  | unsupportedDimension
  deriving DecidableEq, Repr

/-- Modelled from the spec (§4.2, §7): the Persistence Engine returns one
diagram per requested homology dimension, and fails with
`UnsupportedDimension` when a requested dimension `d` exceeds what the
filtration's simplex-dimension cap supports (dimension `d` needs simplices up
to dimension `d+1`). -/
def computeDiagrams (f : Filtration) (dims : List ℕ) :
    Except PersistenceError (List (ℕ × List (ℚ × WithTop ℚ))) :=
  if dims.all (fun d => d + 1 ≤ f.dimCap) then
    .ok (dims.map (fun d => (d, diagramAt f d)))
  else
    .error .unsupportedDimension

/-! ## Properties of column reduction -/

theorem reduceColF_empty (fuel : ℕ) (cols : List RCol) :
    reduceColF fuel cols ∅ = ∅ := by
  cases fuel with
  | zero => rfl
  | succ fuel => simp [reduceColF]

theorem reduceColF_subset (fuel : ℕ) (cols : List RCol) (c : Finset ℕ)
    (bound : ℕ) (hc : c ⊆ Finset.range bound)
    (hcols : ∀ e ∈ cols, e.2.2 ⊆ Finset.range bound) :
    reduceColF fuel cols c ⊆ Finset.range bound := by
  induction fuel generalizing c with
  | zero => exact hc
  | succ fuel ih =>
    rw [reduceColF]
    split
    · exact hc
    · split
      · exact hc
      · next p hm e hf =>
        apply ih
        intro x hx
        rw [Finset.mem_filter] at hx
        rcases Finset.mem_symmDiff.mp hx.1 with ⟨h1, _⟩ | ⟨h1, _⟩
        · exact hc h1
        · exact hcols e (List.mem_of_find?_eq_some hf) h1

theorem reduceColF_pivot_free (fuel : ℕ) (cols : List RCol) (c : Finset ℕ)
    (hfuel : c.sup id < fuel) (p : ℕ)
    (hmax : (reduceColF fuel cols c).max = (p : WithBot ℕ)) :
    ∀ e ∈ cols, e.1 ≠ p := by
  induction fuel generalizing c with
  | zero => omega
  | succ fuel ih =>
    rw [reduceColF] at hmax
    split at hmax
    · next hm =>
      rw [hm] at hmax
      cases hmax
    · split at hmax
      · rename_i p0 hm _sc hf
        have hp : p = p0 := by
          rw [hmax] at hm
          exact Option.some_injective _ hm
        subst hp
        intro e he
        have := List.find?_eq_none.mp hf e he
        simpa using this
      · rename_i p0 hm _sc e0 hf
        set c' := (symmDiff c e0.2.2).filter (· < p0) with hc'
        have hp0c : p0 ∈ c := Finset.mem_of_max hm
        have hp0sup : p0 ≤ c.sup id := Finset.le_sup (f := id) hp0c
        apply ih c' _ hmax
        rcases Finset.eq_empty_or_nonempty c' with hemp | hne
        · rw [hemp, reduceColF_empty] at hmax
          simp at hmax
        · have hsup : c'.sup id < p0 := by
            rcases Nat.eq_zero_or_pos p0 with h0 | h0
            · obtain ⟨x, hx⟩ := hne
              have := (Finset.mem_filter.mp hx).2
              omega
            · rw [Finset.sup_lt_iff (by simpa using h0)]
              intro x hx
              simpa using (Finset.mem_filter.mp hx).2
          omega

theorem reduceCol_subset (cols : List RCol) (c : Finset ℕ) (bound : ℕ)
    (hc : c ⊆ Finset.range bound)
    (hcols : ∀ e ∈ cols, e.2.2 ⊆ Finset.range bound) :
    reduceCol cols c ⊆ Finset.range bound :=
  reduceColF_subset _ cols c bound hc hcols

theorem reduceCol_pivot_free (cols : List RCol) (c : Finset ℕ) (p : ℕ)
    (hmax : (reduceCol cols c).max = (p : WithBot ℕ)) :
    ∀ e ∈ cols, e.1 ≠ p :=
  reduceColF_pivot_free _ cols c (Nat.lt_succ_self _) p hmax

/-! ## Invariants of the reduction pass -/

/-- Invariant of the reduction state after the first `k` filtration positions
have been processed. -/
structure Inv (k : ℕ) (st : RState) : Prop where
  colsMax : ∀ e ∈ st.cols, e.2.2.max = (e.1 : WithBot ℕ)
  colsIdx : ∀ e ∈ st.cols, e.2.1 < k
  colsSub : ∀ e ∈ st.cols, e.2.2 ⊆ Finset.range e.2.1
  pairsLt : ∀ p ∈ st.pairs, p.1 < p.2 ∧ p.2 < k
  firstsNodup : (st.pairs.map Prod.fst).Nodup
  secondsNodup : (st.pairs.map Prod.snd).Nodup
  pivIffFirst : ∀ i : ℕ, (∃ e ∈ st.cols, e.1 = i) ↔ (∃ j, (i, j) ∈ st.pairs)
  birthsLt : ∀ b ∈ st.births, b < k

theorem inv_step (l : List (Simplex × ℚ)) (k : ℕ) (st : RState)
    (h : Inv k st) : Inv (k + 1) (processStep l st k) := by
  have hrsub : reduceCol st.cols (boundaryCol l k) ⊆ Finset.range k := by
    apply reduceCol_subset
    · intro x hx
      exact Finset.mem_range.mpr (Finset.mem_range.mp (Finset.mem_of_mem_filter x hx))
    · intro e he x hx
      exact Finset.mem_range.mpr
        (lt_trans (Finset.mem_range.mp (h.colsSub e he hx)) (h.colsIdx e he))
  rw [processStep]
  split
  · next hm =>
    exact {
      colsMax := h.colsMax
      colsIdx := fun e he => Nat.lt_succ_of_lt (h.colsIdx e he)
      colsSub := h.colsSub
      pairsLt := fun p hp => ⟨(h.pairsLt p hp).1, Nat.lt_succ_of_lt (h.pairsLt p hp).2⟩
      firstsNodup := h.firstsNodup
      secondsNodup := h.secondsNodup
      pivIffFirst := h.pivIffFirst
      birthsLt := by
        intro b hb
        rcases List.mem_append.mp hb with hb | hb
        · exact Nat.lt_succ_of_lt (h.birthsLt b hb)
        · simp at hb
          omega }
  · next i hm =>
    have hik : i < k := Finset.mem_range.mp (hrsub (Finset.mem_of_max hm))
    have hfree : ∀ e ∈ st.cols, e.1 ≠ i := reduceCol_pivot_free _ _ i hm
    have hnotfirst : ¬ ∃ j, (i, j) ∈ st.pairs := by
      intro hj
      obtain ⟨e, he, he1⟩ := (h.pivIffFirst i).mpr hj
      exact hfree e he he1
    exact {
      colsMax := by
        intro e he
        rcases List.mem_cons.mp he with rfl | he
        · exact hm
        · exact h.colsMax e he
      colsIdx := by
        intro e he
        rcases List.mem_cons.mp he with rfl | he
        · exact Nat.lt_succ_self k
        · exact Nat.lt_succ_of_lt (h.colsIdx e he)
      colsSub := by
        intro e he
        rcases List.mem_cons.mp he with rfl | he
        · exact hrsub
        · exact h.colsSub e he
      pairsLt := by
        intro p hp
        rcases List.mem_append.mp hp with hp | hp
        · exact ⟨(h.pairsLt p hp).1, Nat.lt_succ_of_lt (h.pairsLt p hp).2⟩
        · simp at hp
          subst hp
          exact ⟨hik, Nat.lt_succ_self k⟩
      firstsNodup := by
        rw [List.map_append, List.nodup_append]
        refine ⟨h.firstsNodup, by simp, ?_⟩
        intro a ha hb
        simp at hb
        subst hb
        obtain ⟨p, hp, hp1⟩ := List.mem_map.mp ha
        exact hnotfirst ⟨p.2, by rw [← hp1, Prod.mk.eta]; exact hp⟩
      secondsNodup := by
        rw [List.map_append, List.nodup_append]
        refine ⟨h.secondsNodup, by simp, ?_⟩
        intro a ha hb
        simp at hb
        subst hb
        obtain ⟨p, hp, hp2⟩ := List.mem_map.mp ha
        have := (h.pairsLt p hp).2
        omega
      pivIffFirst := by
        intro i'
        constructor
        · rintro ⟨e, he, he1⟩
          rcases List.mem_cons.mp he with rfl | he
          · exact ⟨k, List.mem_append.mpr (Or.inr (by simp [he1.symm]))⟩
          · obtain ⟨j, hj⟩ := (h.pivIffFirst i').mp ⟨e, he, he1⟩
            exact ⟨j, List.mem_append.mpr (Or.inl hj)⟩
        · rintro ⟨j, hj⟩
          rcases List.mem_append.mp hj with hj | hj
          · obtain ⟨e, he, he1⟩ := (h.pivIffFirst i').mpr ⟨j, hj⟩
            exact ⟨e, List.mem_cons_of_mem _ he, he1⟩
          · simp at hj
            exact ⟨(i, k, reduceCol st.cols (boundaryCol l k)), List.mem_cons_self _ _,
              hj.1.symm⟩
      birthsLt := fun b hb => Nat.lt_succ_of_lt (h.birthsLt b hb) }

theorem inv_stepUpTo (l : List (Simplex × ℚ)) (k : ℕ) : Inv k (stepUpTo l k) := by
  induction k with
  | zero =>
    exact {
      colsMax := by intro e he; simp [stepUpTo] at he
      colsIdx := by intro e he; simp [stepUpTo] at he
      colsSub := by intro e he; simp [stepUpTo] at he
      pairsLt := by intro p hp; simp [stepUpTo] at hp
      firstsNodup := by simp [stepUpTo]
      secondsNodup := by simp [stepUpTo]
      pivIffFirst := by intro i; simp [stepUpTo]
      birthsLt := by intro b hb; simp [stepUpTo] at hb }
  | succ k ih =>
    have hs : stepUpTo l (k + 1) = processStep l (stepUpTo l k) k := by
      unfold stepUpTo
      rw [List.range_succ, List.foldl_append]
      rfl
    rw [hs]
    exact inv_step l k _ ih

theorem inv_runReduction (l : List (Simplex × ℚ)) :
    Inv l.length (runReduction l) := inv_stepUpTo l l.length

/-! ## Well-formedness of produced diagrams (claim C1) -/

theorem diagramAt_mem_sound (f : Filtration) (q : ℕ) (pt : ℚ × WithTop ℚ)
    (hpt : pt ∈ diagramAt f q) :
    (pt.1 : WithTop ℚ) ≤ pt.2 ∧
      (pt.2 = ⊤ ∨ ∃ s ∈ f.simplices, pt.2 = ((s.2 : ℚ) : WithTop ℚ)) := by
  have hinv := inv_runReduction f.simplices
  simp only [diagramAt] at hpt
  rcases List.mem_append.mp hpt with hmem | hmem
  · obtain ⟨p, hp, hsome⟩ := List.mem_filterMap.mp hmem
    split at hsome
    · next hcond =>
      cases hsome
      constructor
      · exact le_of_lt (WithTop.coe_lt_coe.mpr hcond.2)
      · right
        have hlt : p.2 < f.simplices.length := (hinv.pairsLt p hp).2
        refine ⟨f.simplices[p.2], List.getElem_mem hlt, ?_⟩
        simp only [valueAt, List.getD_eq_getElem f.simplices ([], 0) hlt]
    · cases hsome
  · obtain ⟨i, _, hsome⟩ := List.mem_filterMap.mp hmem
    split at hsome
    · cases hsome
      exact ⟨le_top, Or.inl rfl⟩
    · cases hsome

theorem births_paired_once_or_essential (l : List (Simplex × ℚ)) (i : ℕ)
    (hi : i ∈ (runReduction l).births) :
    (∃! j, (i, j) ∈ (runReduction l).pairs) ∨ i ∈ essentialIdx (runReduction l) := by
  have hinv := inv_runReduction l
  by_cases h : ∃ j, (i, j) ∈ (runReduction l).pairs
  · left
    obtain ⟨j, hj⟩ := h
    refine ⟨j, hj, ?_⟩
    intro j' hj'
    have := List.inj_on_of_nodup_map hinv.firstsNodup hj' hj (by rfl)
    exact congrArg Prod.snd this
  · right
    rw [essentialIdx, List.mem_filter]
    refine ⟨hi, ?_⟩
    rw [List.all_eq_true]
    intro p hp
    simp only [decide_eq_true_eq]
    intro hpi
    exact h ⟨p.2, by rw [← hpi, Prod.mk.eta]; exact hp⟩

/-- C1: every (birth, death) point of every produced persistence diagram has
birth ≤ death; every generator born in the reduction is matched by exactly one
death or is an essential class reported with death = ∞; and every finite death
value is the filtration value of a simplex of the filtration (no other death
values occur). -/
theorem diagram_pairs_wellformed (f : Filtration) (q : ℕ) :
    (∀ pt ∈ diagramAt f q,
        (pt.1 : WithTop ℚ) ≤ pt.2 ∧
          (pt.2 = ⊤ ∨ ∃ s ∈ f.simplices, pt.2 = ((s.2 : ℚ) : WithTop ℚ))) ∧
    (∀ i ∈ (runReduction f.simplices).births,
        (∃! j, (i, j) ∈ (runReduction f.simplices).pairs) ∨
          i ∈ essentialIdx (runReduction f.simplices)) :=
  ⟨fun pt hpt => diagramAt_mem_sound f q pt hpt,
   fun i hi => births_paired_once_or_essential f.simplices i hi⟩

/-- Distance matrix of three points forming an equilateral triangle with side
length 1 (the spec's concrete scenario, §8). -/
def exampleDM : ℕ → ℕ → ℚ := fun i j => if i = j then 0 else 1

set_option maxRecDepth 100000 in
/-- Witness for `diagram_pairs_wellformed` on the equilateral-triangle
filtration: the point (0, 1) lies in the H0 diagram and satisfies the
conclusion; position 5 (the last edge) is a recorded birth and is matched by
exactly one death. -/
theorem diagram_pairs_wellformed_witness :
    (((0 : ℚ), ((1 : ℚ) : WithTop ℚ)) ∈
        diagramAt (buildFiltration 3 exampleDM 1 (some 2)) 0 ∧
      (((0 : ℚ) : WithTop ℚ) ≤ ((1 : ℚ) : WithTop ℚ) ∧
        ((((1 : ℚ) : WithTop ℚ) = ⊤) ∨
          ∃ s ∈ (buildFiltration 3 exampleDM 1 (some 2)).simplices,
            ((1 : ℚ) : WithTop ℚ) = ((s.2 : ℚ) : WithTop ℚ)))) ∧
    ((5 : ℕ) ∈ (runReduction (buildFiltration 3 exampleDM 1 (some 2)).simplices).births ∧
      ((∃! j, ((5 : ℕ), j) ∈
          (runReduction (buildFiltration 3 exampleDM 1 (some 2)).simplices).pairs) ∨
        (5 : ℕ) ∈ essentialIdx
          (runReduction (buildFiltration 3 exampleDM 1 (some 2)).simplices))) :=
  ⟨⟨by decide,
    (diagram_pairs_wellformed (buildFiltration 3 exampleDM 1 (some 2)) 0).1
      ((0 : ℚ), ((1 : ℚ) : WithTop ℚ)) (by decide)⟩,
   ⟨by decide,
    (diagram_pairs_wellformed (buildFiltration 3 exampleDM 1 (some 2)) 0).2 5 (by decide)⟩⟩

/-! ## The equilateral-triangle scenario (claim C4) -/

set_option maxRecDepth 100000 in
/-- C4: for 3 points forming an equilateral triangle with side length 1,
`max_scale = 2` and homology-dimension cap 1, the filtration consists of
exactly the 3 vertices at value 0, the 3 edges at value 1 and the triangle at
value 1; the H0 diagram has exactly two finite deaths at value 1 plus one
essential class; and the H1 diagram is empty. -/
theorem equilateral_triangle_scenario :
    (buildFiltration 3 exampleDM 1 (some 2)).simplices =
      [([0], 0), ([1], 0), ([2], 0),
       ([0, 1], 1), ([0, 2], 1), ([1, 2], 1), ([0, 1, 2], 1)] ∧
    diagramAt (buildFiltration 3 exampleDM 1 (some 2)) 0 =
      [(0, ((1 : ℚ) : WithTop ℚ)), (0, ((1 : ℚ) : WithTop ℚ)), (0, ⊤)] ∧
    diagramAt (buildFiltration 3 exampleDM 1 (some 2)) 1 = [] := by
  refine ⟨by decide, by decide, by decide⟩

/-! ## Engine error behaviour (claim C7) -/

/-- C7: the Persistence Engine fails with `UnsupportedDimension` exactly when
some requested homology dimension `d` needs simplices beyond the filtration's
dimension cap (`d + 1 > dimCap`); when every requested dimension is supported
it returns one diagram per requested dimension, labelled in order. -/
theorem unsupported_dimension_iff (f : Filtration) (dims : List ℕ) :
    (computeDiagrams f dims = .error .unsupportedDimension ↔
      ∃ d ∈ dims, f.dimCap < d + 1) ∧
    ((∀ d ∈ dims, d + 1 ≤ f.dimCap) →
      ∃ out, computeDiagrams f dims = .ok out ∧ out.map Prod.fst = dims) := by
  constructor
  · rw [computeDiagrams]
    split
    · next hall =>
      rw [List.all_eq_true] at hall
      constructor
      · intro h
        cases h
      · rintro ⟨d, hd, hcap⟩
        have := hall d hd
        simp at this
        omega
    · next hall =>
      rw [List.all_eq_true] at hall
      push_neg at hall
      constructor
      · intro _
        obtain ⟨d, hd, hcap⟩ := hall
        refine ⟨d, hd, ?_⟩
        simpa using hcap
      · intro _
        rfl
  · intro hall
    refine ⟨dims.map (fun d => (d, diagramAt f d)), ?_, ?_⟩
    · rw [computeDiagrams, if_pos]
      rw [List.all_eq_true]
      intro d hd
      simpa using hall d hd
    · simp [Function.comp_def]

set_option maxRecDepth 100000 in
/-- Witness for `unsupported_dimension_iff`: on the triangle filtration
(dimension cap 2), requesting dimensions {0, 1} succeeds with two labelled
diagrams, while requesting dimension 2 fails with `UnsupportedDimension`. -/
theorem unsupported_dimension_iff_witness :
    (∃ out, computeDiagrams (buildFiltration 3 exampleDM 1 (some 2)) [0, 1] = .ok out ∧
      out.map Prod.fst = [0, 1]) ∧
    computeDiagrams (buildFiltration 3 exampleDM 1 (some 2)) [2] =
      .error .unsupportedDimension :=
  ⟨(unsupported_dimension_iff (buildFiltration 3 exampleDM 1 (some 2)) [0, 1]).2
      (by decide),
   (unsupported_dimension_iff (buildFiltration 3 exampleDM 1 (some 2)) [2]).1.mpr
      ⟨2, by decide, by decide⟩⟩

/-! ## Edge collapse (claim C3) -/

/-- The family of diagrams in every homology dimension below the filtration's
dimension cap. -/
def allDiagrams (f : Filtration) : List (List (ℚ × WithTop ℚ)) :=
  (List.range f.dimCap).map (fun q => diagramAt f q)

/-- Modelled from the spec: the spec describes edge collapse only at design
level (§4.1) — "simplices whose presence does not affect the final homology
can be pruned before reduction", with the contract that collapsed filtrations
yield identical persistence diagrams.  One candidate pruning step: remove the
given simplex exactly when every diagram up to the dimension cap is
unaffected. -/
def pruneIfSafe (f : Filtration) (s : Simplex × ℚ) : Filtration :=
  let f' : Filtration := { simplices := f.simplices.erase s, dimCap := f.dimCap }
  if allDiagrams f' = allDiagrams f then f' else f

/-- Modelled from the spec (§4.1): the edge-collapse pass greedily prunes
simplices whose presence does not affect the final homology. -/
def collapseEdges (f : Filtration) : Filtration :=
  f.simplices.foldl pruneIfSafe f

/-- Modelled from the spec (§6): the full Persistence-Engine entry point with
the `collapse_edges` configuration flag. -/
def vietorisRipsPersistence (collapse : Bool) (n : ℕ) (dm : ℕ → ℕ → ℚ)
    (dMax : ℕ) (eps : Option ℚ) (dims : List ℕ) :
    Except PersistenceError (List (ℕ × List (ℚ × WithTop ℚ))) :=
  let f := buildFiltration n dm dMax eps
  computeDiagrams (if collapse then collapseEdges f else f) dims

theorem pruneIfSafe_allDiagrams (f : Filtration) (s : Simplex × ℚ) :
    allDiagrams (pruneIfSafe f s) = allDiagrams f ∧
      (pruneIfSafe f s).dimCap = f.dimCap := by
  rw [pruneIfSafe]
  split
  · next h => exact ⟨h, rfl⟩
  · exact ⟨rfl, rfl⟩

theorem foldl_pruneIfSafe_allDiagrams (l : List (Simplex × ℚ)) (f : Filtration) :
    allDiagrams (l.foldl pruneIfSafe f) = allDiagrams f ∧
      (l.foldl pruneIfSafe f).dimCap = f.dimCap := by
  induction l generalizing f with
  | nil => exact ⟨rfl, rfl⟩
  | cons s l ih =>
    rw [List.foldl_cons]
    obtain ⟨h1, h2⟩ := ih (pruneIfSafe f s)
    obtain ⟨h3, h4⟩ := pruneIfSafe_allDiagrams f s
    exact ⟨h1.trans h3, h2.trans h4⟩

theorem collapseEdges_allDiagrams (f : Filtration) :
    allDiagrams (collapseEdges f) = allDiagrams f ∧
      (collapseEdges f).dimCap = f.dimCap :=
  foldl_pruneIfSafe_allDiagrams f.simplices f

theorem diagramAt_of_allDiagrams_eq (f g : Filtration)
    (hcap : f.dimCap = g.dimCap) (hall : allDiagrams f = allDiagrams g)
    (q : ℕ) (hq : q < g.dimCap) : diagramAt f q = diagramAt g q := by
  rw [allDiagrams, allDiagrams, hcap] at hall
  have := List.map_inj_left.mp hall q (List.mem_range.mpr hq)
  exact this

/-- C3: for every point cloud, dimension cap, scale threshold and requested
homology dimensions, running the pipeline with edge collapse enabled produces
exactly the same persistence diagrams as running it with edge collapse
disabled. -/
theorem collapse_edges_preserves_diagrams (n : ℕ) (dm : ℕ → ℕ → ℚ)
    (dMax : ℕ) (eps : Option ℚ) (dims : List ℕ) :
    vietorisRipsPersistence true n dm dMax eps dims =
      vietorisRipsPersistence false n dm dMax eps dims := by
  have key : computeDiagrams (collapseEdges (buildFiltration n dm dMax eps)) dims =
      computeDiagrams (buildFiltration n dm dMax eps) dims := by
    set f := buildFiltration n dm dMax eps with hf
    obtain ⟨hall, hcap⟩ := collapseEdges_allDiagrams f
    rw [computeDiagrams, computeDiagrams, hcap]
    by_cases hcond : (dims.all fun d => decide (d + 1 ≤ f.dimCap)) = true
    · rw [if_pos hcond, if_pos hcond]
      congr 1
      apply List.map_congr_left
      intro d hd
      rw [List.all_eq_true] at hcond
      have hdc : d + 1 ≤ f.dimCap := by simpa using hcond d hd
      congr 1
      exact diagramAt_of_allDiagrams_eq (collapseEdges f) f hcap hall d (by omega)
    · rw [if_neg hcond, if_neg hcond]
  simpa [vietorisRipsPersistence] using key

/-! ## Persistence entropy (claims C2 and C6) -/

/-- Lifetimes `d - b` of the points of a diagram. -/
def lifetimes (D : List (ℚ × ℚ)) : List ℚ := D.map (fun p => p.2 - p.1)

/-- Modelled from the spec (§4.3 "Entropy"): compute lifetimes, normalize
them to probabilities `p_i = ℓ_i / Σℓ`, and return `-Σ p_i log p_i`; when the
total lifetime is not positive (e.g. the diagram is empty) the value is
undefined (`log 0`) and `none` is returned, so that the caller's fill policy
applies instead of a silent NaN. -/
noncomputable def persistenceEntropyRaw (D : List (ℚ × ℚ)) : Option ℝ :=
  let L : ℚ := (lifetimes D).sum
  if 0 < L then
    some (-(((lifetimes D).map
      (fun x : ℚ => ((x : ℝ) / (L : ℝ)) * Real.log ((x : ℝ) / (L : ℝ)))).sum))
  else none

/-- Shannon entropy `-Σ p log p` of a list of weights. -/
noncomputable def shannonEntropy (ps : List ℝ) : ℝ :=
  -((ps.map (fun p => p * Real.log p)).sum)

/-- Modelled from the spec (§4.3, §7): the entropy feature of one diagram —
the raw persistence entropy when defined, the caller-supplied fill value
otherwise. -/
noncomputable def entropyFeature (fill : ℝ) (D : List (ℚ × ℚ)) : ℝ :=
  (persistenceEntropyRaw D).getD fill

theorem sum_map_div (l : List ℚ) (c : ℝ) :
    (l.map (fun x : ℚ => (x : ℝ) / c)).sum = (l.map (fun x : ℚ => (x : ℝ))).sum / c := by
  induction l with
  | nil => simp
  | cons a l ih => simp [ih, add_div]

/-- C2: on a non-empty diagram whose points satisfy `b ≤ d` with at least one
positive lifetime, the entropy vectorization returns exactly the Shannon
entropy `-Σ p_i log p_i` of the normalized lifetime distribution
`p_i = ℓ_i / Σℓ`, and that distribution indeed sums to 1. -/
theorem entropy_is_shannon_entropy (D : List (ℚ × ℚ))
    (hbd : ∀ p ∈ D, p.1 ≤ p.2) (hpos : ∃ p ∈ D, p.1 < p.2) :
    0 < (lifetimes D).sum ∧
    persistenceEntropyRaw D =
      some (shannonEntropy
        ((lifetimes D).map (fun x : ℚ => (x : ℝ) / (((lifetimes D).sum : ℚ) : ℝ)))) ∧
    ((lifetimes D).map (fun x : ℚ => (x : ℝ) / (((lifetimes D).sum : ℚ) : ℝ))).sum = 1 := by
  have hL : 0 < (lifetimes D).sum := by
    obtain ⟨p, hp, hplt⟩ := hpos
    have hmem : p.2 - p.1 ∈ lifetimes D := List.mem_map_of_mem _ hp
    have hle : p.2 - p.1 ≤ (lifetimes D).sum := by
      apply List.single_le_sum _ _ hmem
      intro x hx
      obtain ⟨r, hr, hrx⟩ := List.mem_map.mp hx
      have := hbd r hr
      simp only [← hrx]
      linarith
    linarith
  refine ⟨hL, ?_, ?_⟩
  · rw [persistenceEntropyRaw]
    simp only [if_pos hL]
    rw [shannonEntropy, List.map_map]
    rfl
  · rw [sum_map_div]
    rw [div_eq_one_iff_eq]
    · exact (map_list_sum (Rat.castHom ℝ) (lifetimes D)).symm
    · exact ne_of_gt (by exact_mod_cast hL)

/-- Witness for `entropy_is_shannon_entropy` at the one-point diagram
{(0, 1)}. -/
theorem entropy_is_shannon_entropy_witness :
    (∀ p ∈ [((0 : ℚ), (1 : ℚ))], p.1 ≤ p.2) ∧
    (∃ p ∈ [((0 : ℚ), (1 : ℚ))], p.1 < p.2) ∧
    (0 < (lifetimes [((0 : ℚ), (1 : ℚ))]).sum ∧
      persistenceEntropyRaw [((0 : ℚ), (1 : ℚ))] =
        some (shannonEntropy
          ((lifetimes [((0 : ℚ), (1 : ℚ))]).map
            (fun x : ℚ => (x : ℝ) / (((lifetimes [((0 : ℚ), (1 : ℚ))]).sum : ℚ) : ℝ)))) ∧
      ((lifetimes [((0 : ℚ), (1 : ℚ))]).map
        (fun x : ℚ => (x : ℝ) / (((lifetimes [((0 : ℚ), (1 : ℚ))]).sum : ℚ) : ℝ))).sum = 1) :=
  ⟨by decide, ⟨((0 : ℚ), (1 : ℚ)), by decide, by decide⟩,
   entropy_is_shannon_entropy [((0 : ℚ), (1 : ℚ))] (by decide)
     ⟨((0 : ℚ), (1 : ℚ)), by decide, by decide⟩⟩

/-- C6: with a fill policy configured, the entropy vectorizer returns the
caller-supplied fill value on every empty diagram, and on any diagram its
output is either the well-defined raw entropy or the fill value — an
undefined (NaN-like) result is never emitted. -/
theorem entropy_fill_value_never_nan (fill : ℝ) :
    entropyFeature fill [] = fill ∧
    ∀ D : List (ℚ × ℚ),
      entropyFeature fill D = fill ∨
        ∃ r : ℝ, persistenceEntropyRaw D = some r ∧ entropyFeature fill D = r := by
  constructor
  · simp [entropyFeature, persistenceEntropyRaw, lifetimes]
  · intro D
    cases h : persistenceEntropyRaw D with
    | none => left; simp [entropyFeature, h]
    | some r => right; exact ⟨r, rfl, by simp [entropyFeature, h]⟩

/-! ## Concrete diagram representation (claim C9) -/

/-- The concrete persistence-diagram output format used by the notebooks: one
array per input item whose rows are (birth, death, homology-dimension)
triples for all requested dimensions together. -/
abbrev DiagramArray := List (ℚ × ℚ × ℕ)

/-- The sub-diagram of the rows tagged with homology dimension `q`. -/
def subdiagram (D : DiagramArray) (q : ℕ) : List (ℚ × ℚ) :=
  (D.filter (fun r => r.2.2 = q)).map (fun r => (r.1, r.2.1))

/-- Modelled from the notebooks: the per-dimension diagrams are flattened
into one single array of (birth, death, dimension) triples per input item. -/
def flattenDiagrams (out : List (ℕ × List (ℚ × ℚ))) : DiagramArray :=
  out.flatMap (fun e => e.2.map (fun p => (p.1, p.2, e.1)))

/-- The homology dimensions appearing in a batch of diagram arrays (inferred
by the vectorizer's fit step). -/
def inferredDims (batch : List DiagramArray) : List ℕ :=
  (batch.flatMap (fun D => D.map (fun r => r.2.2))).dedup

/-- Modelled from the notebooks (`X_basic.shape == (n_point_clouds,
n_homology_dims)`): `PersistenceEntropy.fit_transform` maps a batch of
diagram arrays to a matrix with one row per input item and one entropy value
per homology dimension. -/
noncomputable def peFitTransform (fill : ℝ) (batch : List DiagramArray) :
    List (List ℝ) :=
  batch.map (fun D =>
    (inferredDims batch).map (fun q => entropyFeature fill (subdiagram D q)))

/-- C9: the concrete diagram representation is a single array of
(birth, death, dimension) triples per item — a triple is a row of the
flattened array exactly when the corresponding per-dimension diagram contains
the pair — and `PersistenceEntropy.fit_transform` maps a batch of such arrays
to a matrix of shape (number of input items) × (number of homology
dimensions); in particular a single reshaped diagram gives exactly one row. -/
theorem concrete_representation_shape (out : List (ℕ × List (ℚ × ℚ)))
    (fill : ℝ) (batch : List DiagramArray) :
    (∀ b d : ℚ, ∀ q : ℕ,
      ((b, d, q) ∈ flattenDiagrams out ↔ ∃ e ∈ out, e.1 = q ∧ (b, d) ∈ e.2)) ∧
    (peFitTransform fill batch).length = batch.length ∧
    (∀ row ∈ peFitTransform fill batch, row.length = (inferredDims batch).length) ∧
    (∀ D : DiagramArray, (peFitTransform fill [D]).length = 1) := by
  refine ⟨?_, by simp [peFitTransform], ?_, by simp [peFitTransform]⟩
  · intro b d q
    simp only [flattenDiagrams, List.mem_flatMap, List.mem_map]
    constructor
    · rintro ⟨e, he, p, hp, hpe⟩
      injection hpe with h1 h23
      injection h23 with h2 h3
      refine ⟨e, he, h3, ?_⟩
      rw [← h1, ← h2, Prod.mk.eta]
      exact hp
    · rintro ⟨e, he, hq, hmem⟩
      exact ⟨e, he, (b, d), hmem, by rw [hq]⟩
  · intro row hrow
    obtain ⟨D, _, hD⟩ := List.mem_map.mp hrow
    rw [← hD, List.length_map]

/-- Witness for `concrete_representation_shape` on a one-row array. -/
theorem concrete_representation_shape_witness :
    (((0 : ℚ), (1 : ℚ), (0 : ℕ)) ∈ flattenDiagrams [(0, [((0 : ℚ), (1 : ℚ))])] ↔
      ∃ e ∈ [((0 : ℕ), [((0 : ℚ), (1 : ℚ))])], e.1 = 0 ∧ ((0 : ℚ), (1 : ℚ)) ∈ e.2) ∧
    (peFitTransform 0 [[((0 : ℚ), (1 : ℚ), (0 : ℕ))]]).length = 1 :=
  ⟨(concrete_representation_shape [(0, [((0 : ℚ), (1 : ℚ))])] 0 []).1 0 1 0,
   (concrete_representation_shape [] 0 [[((0 : ℚ), (1 : ℚ), (0 : ℕ))]]).2.1⟩

/-! ## Feature-vector length (claim C8) -/

/-- Off-diagonal point count per homology dimension (§4.3 "Count"). -/
def numberOfPoints (dims : List ℕ) (D : DiagramArray) : List ℝ :=
  dims.map (fun q =>
    ((((subdiagram D q).filter (fun p => p.1 ≠ p.2)).length : ℕ) : ℝ))

/-- The amplitude metrics named by the notebooks. -/
inductive AmplitudeMetric where
  | bottleneck | wasserstein | landscape | persistenceImage
  deriving DecidableEq, Repr

/-- Modelled from the spec (§4.3 "Amplitude"): a deterministic distance of a
diagram to the trivial diagram (all points on the diagonal); each point
contributes through its distance `(d - b)/2` to the diagonal. -/
noncomputable def amplitudeOf : AmplitudeMetric → List (ℚ × ℚ) → ℝ
  | .bottleneck, D => ((lifetimes D).map (fun x : ℚ => (x : ℝ) / 2)).foldr max 0
  | .wasserstein, D => ((lifetimes D).map (fun x : ℚ => (x : ℝ) / 2)).sum
  | .landscape, D =>
      Real.sqrt (((lifetimes D).map (fun x : ℚ => ((x : ℝ) / 2) ^ 2)).sum)
  | .persistenceImage, D => ((lifetimes D).map (fun x : ℚ => (x : ℝ) ^ 2)).sum

/-- Amplitude feature: one value per requested homology dimension. -/
noncomputable def amplitudeFeature (m : AmplitudeMetric) (dims : List ℕ)
    (D : DiagramArray) : List ℝ :=
  dims.map (fun q => amplitudeOf m (subdiagram D q))

/-- Entropy feature per requested homology dimension. -/
noncomputable def entropyFeaturePerDim (fill : ℝ) (dims : List ℕ)
    (D : DiagramArray) : List ℝ :=
  dims.map (fun q => entropyFeature fill (subdiagram D q))

/-- Modelled from the notebooks' `make_union`: the outputs of the requested
vectorization methods are concatenated, in the caller-specified order, into
one feature vector. -/
def featureUnion (methods : List (DiagramArray → List ℝ)) (D : DiagramArray) :
    List ℝ :=
  methods.flatMap (fun f => f D)

/-- C8: the Diagram Vectorizer's output is one ordered numeric vector whose
length is (number of requested homology dimensions) × (number of
vectorization methods): this holds for any family of per-dimension methods,
and in particular for the notebook's union of entropy, point count and four
amplitude metrics (6 methods). -/
theorem feature_vector_length (fill : ℝ) (dims : List ℕ) (D : DiagramArray) :
    (∀ methods : List (DiagramArray → List ℝ),
      (∀ f ∈ methods, (f D).length = dims.length) →
      (featureUnion methods D).length = methods.length * dims.length) ∧
    (featureUnion
        [entropyFeaturePerDim fill dims, numberOfPoints dims,
         amplitudeFeature .bottleneck dims, amplitudeFeature .wasserstein dims,
         amplitudeFeature .landscape dims,
         amplitudeFeature .persistenceImage dims] D).length = 6 * dims.length := by
  have hgen : ∀ methods : List (DiagramArray → List ℝ),
      (∀ f ∈ methods, (f D).length = dims.length) →
      (featureUnion methods D).length = methods.length * dims.length := by
    intro methods hm
    induction methods with
    | nil => simp [featureUnion]
    | cons f fs ih =>
      rw [featureUnion, List.flatMap_cons, List.length_append]
      rw [← featureUnion, ih (fun g hg => hm g (List.mem_cons_of_mem f hg))]
      rw [hm f (List.mem_cons_self f fs), List.length_cons]
      ring
  refine ⟨hgen, ?_⟩
  rw [hgen _ (by
    intro f hf
    fin_cases hf <;>
      simp [entropyFeaturePerDim, numberOfPoints, amplitudeFeature])]
  norm_num

/-- Witness for `feature_vector_length`: 3 homology dimensions and the
6 notebook methods yield a vector of length 18. -/
theorem feature_vector_length_witness :
    (featureUnion
        [entropyFeaturePerDim 0 [0, 1, 2], numberOfPoints [0, 1, 2],
         amplitudeFeature .bottleneck [0, 1, 2],
         amplitudeFeature .wasserstein [0, 1, 2],
         amplitudeFeature .landscape [0, 1, 2],
         amplitudeFeature .persistenceImage [0, 1, 2]] []).length = 18 :=
  (feature_vector_length 0 [0, 1, 2] []).2.trans (by norm_num)

/-! ## Takens time-delay embedding (claim C10) -/

/-- The window of `d` samples spaced `tau` apart starting at time `start`. -/
def takensWindow (y : ℕ → ℚ) (d tau start : ℕ) : List ℚ :=
  (List.range d).map (fun j => y (start + j * tau))

/-- Modelled from the notebook's definition of the time-delay embedding:
slide a window of `d` samples spaced `tau` apart over the series of length
`n`, advancing the window start by the stride `s`, while the window fits. -/
def takensAux (y : ℕ → ℚ) (n d tau s : ℕ) : ℕ → ℕ → List (List ℚ)
  | 0, _ => []
  | fuel + 1, start =>
    if start + (d - 1) * tau < n then
      takensWindow y d tau start :: takensAux y n d tau s fuel (start + s)
    else []

/-- Modelled from the notebook (`SingleTakensEmbedding` with
`parameters_type="fixed"`): the point cloud of all delay windows of a scalar
series of length `n`. -/
def singleTakensEmbedding (y : ℕ → ℚ) (n d tau s : ℕ) : List (List ℚ) :=
  takensAux y n d tau s n 0

/-- Number of windows starting at `start` or later. -/
def takensCount (n d tau s start : ℕ) : ℕ :=
  if start + (d - 1) * tau < n then (n - 1 - (d - 1) * tau - start) / s + 1 else 0

theorem takensAux_closed_form (y : ℕ → ℚ) (n d tau s : ℕ) (hs : 0 < s)
    (fuel start : ℕ) (hfuel : takensCount n d tau s start ≤ fuel) :
    takensAux y n d tau s fuel start =
      (List.range (takensCount n d tau s start)).map
        (fun i => takensWindow y d tau (start + i * s)) := by
  induction fuel generalizing start with
  | zero =>
    have : takensCount n d tau s start = 0 := Nat.le_zero.mp hfuel
    rw [takensAux, this]
    rfl
  | succ fuel ih =>
    rw [takensAux]
    by_cases hin : start + (d - 1) * tau < n
    · rw [if_pos hin]
      set M := n - 1 - (d - 1) * tau with hM
      have hstartM : start ≤ M := by omega
      have hcnt : takensCount n d tau s start = (M - start) / s + 1 := by
        rw [takensCount, if_pos hin]
      by_cases hnext : start + s + (d - 1) * tau < n
      · have hcnt' : takensCount n d tau s (start + s) = (M - (start + s)) / s + 1 := by
          rw [takensCount, if_pos hnext]
        have hsle : s ≤ M - start := by omega
        have hstep : (M - start) / s = (M - start - s) / s + 1 := by
          rw [Nat.div_eq_sub_div hs hsle]
        have hsub : M - start - s = M - (start + s) := by omega
        have hsucc : takensCount n d tau s start =
            takensCount n d tau s (start + s) + 1 := by
          rw [hcnt, hcnt', hstep, hsub]
        rw [hsucc, List.range_succ_eq_map, List.map_cons, List.map_map]
        rw [ih (start + s) (by rw [hcnt']; rw [hcnt, hstep, hsub] at hfuel; omega)]
        congr 1
        · simp [takensWindow]
        · apply List.map_congr_left
          intro i _
          simp only [Function.comp_apply]
          congr 1
          simp only [Nat.succ_eq_add_one]
          ring
      · have hcnt0 : takensCount n d tau s (start + s) = 0 := by
          rw [takensCount, if_neg hnext]
        have hlt : M - start < s := by omega
        have hdiv0 : (M - start) / s = 0 := Nat.div_eq_of_lt hlt
        rw [ih (start + s) (by rw [hcnt0]; omega), hcnt0, hcnt, hdiv0]
        have h1 : List.range (0 + 1) = [0] := by decide
        rw [h1, List.map_singleton]
        simp [takensWindow]
    · rw [if_neg hin]
      have : takensCount n d tau s start = 0 := by rw [takensCount, if_neg hin]
      rw [this]
      rfl

/-- C10: for a scalar series `y` of length `n` and fixed embedding dimension
`d`, time delay `tau` and stride `s`, the Takens embedding's `i`-th point is
the window `[y(i·s), y(i·s + tau), …, y(i·s + (d-1)·tau)]` — consecutive
start times differ by exactly `s` and each point consists of `d` samples
spaced `tau` apart — and the number of points is determined by `n`, `d`,
`tau`, `s` as `⌊(n - 1 - (d-1)·tau)/s⌋ + 1` when a window fits, 0 otherwise. -/
theorem takens_embedding_spec (y : ℕ → ℚ) (n d tau s : ℕ) (hs : 0 < s) :
    (singleTakensEmbedding y n d tau s).length =
      (if (d - 1) * tau < n then (n - 1 - (d - 1) * tau) / s + 1 else 0) ∧
    ∀ i < (singleTakensEmbedding y n d tau s).length,
      (singleTakensEmbedding y n d tau s).get? i =
        some ((List.range d).map (fun j => y (i * s + j * tau))) := by
  have hcnt0 : takensCount n d tau s 0 =
      (if (d - 1) * tau < n then (n - 1 - (d - 1) * tau) / s + 1 else 0) := by
    rw [takensCount]
    simp
  have hfuel : takensCount n d tau s 0 ≤ n := by
    rw [takensCount]
    split
    · next h =>
      have h1 : (n - 1 - (d - 1) * tau - 0) / s ≤ n - 1 - (d - 1) * tau :=
        Nat.div_le_self _ _
      omega
    · omega
  have hform := takensAux_closed_form y n d tau s hs n 0 hfuel
  rw [singleTakensEmbedding]
  constructor
  · rw [hform, List.length_map, List.length_range, hcnt0]
  · intro i hi
    rw [hform] at hi ⊢
    rw [List.length_map, List.length_range] at hi
    rw [List.get?_map, List.get?_range hi]
    simp only [Option.map_some']
    rw [takensWindow]
    congr 1
    apply List.map_congr_left
    intro j _
    congr 1
    ring

/-- Witness for `takens_embedding_spec`: the series `y t = t` of length 5
with `d = 2`, `tau = 1`, `s = 2` embeds into the two windows `[0,1]` and
`[2,3]`. -/
theorem takens_embedding_spec_witness :
    (singleTakensEmbedding (fun t => (t : ℚ)) 5 2 1 2).length =
      (if (2 - 1) * 1 < 5 then (5 - 1 - (2 - 1) * 1) / 2 + 1 else 0) ∧
    ∀ i < (singleTakensEmbedding (fun t => (t : ℚ)) 5 2 1 2).length,
      (singleTakensEmbedding (fun t => (t : ℚ)) 5 2 1 2).get? i =
        some ((List.range 2).map (fun j => ((i * 2 + j * 1 : ℕ) : ℚ))) :=
  takens_embedding_spec (fun t => (t : ℚ)) 5 2 1 2 (by decide)

/-! ## Permutation invariance (claim C5): reduced-column characterization -/

theorem stepUpTo_succ (l : List (Simplex × ℚ)) (k : ℕ) :
    stepUpTo l (k + 1) = processStep l (stepUpTo l k) k := by
  unfold stepUpTo
  rw [List.range_succ, List.foldl_append]
  rfl

/-- The fully reduced column at filtration position `j`. -/
def Rcol (l : List (Simplex × ℚ)) (j : ℕ) : Finset ℕ :=
  reduceCol (stepUpTo l j).cols (boundaryCol l j)

/-- The pair recorded at position `j`, if any. -/
def pairOf (l : List (Simplex × ℚ)) (j : ℕ) : Option (ℕ × ℕ) :=
  match (Rcol l j).max with
  | ⊥ => none
  | (i : ℕ) => some (i, j)

/-- The stored reduced column produced at position `j`, if any. -/
def colOf (l : List (Simplex × ℚ)) (j : ℕ) : Option RCol :=
  match (Rcol l j).max with
  | ⊥ => none
  | (i : ℕ) => some (i, j, Rcol l j)

theorem stepUpTo_char (l : List (Simplex × ℚ)) (k : ℕ) :
    (stepUpTo l k).pairs = (List.range k).filterMap (pairOf l) ∧
    (stepUpTo l k).births =
      (List.range k).filter (fun j => Rcol l j = ∅) ∧
    (stepUpTo l k).cols = ((List.range k).filterMap (colOf l)).reverse := by
  induction k with
  | zero => exact ⟨rfl, rfl, rfl⟩
  | succ k ih =>
    obtain ⟨ihp, ihb, ihc⟩ := ih
    rw [stepUpTo_succ, processStep]
    have hr : reduceCol (stepUpTo l k).cols (boundaryCol l k) = Rcol l k := rfl
    rw [hr]
    rw [List.range_succ, List.filterMap_append, List.filterMap_append,
      List.filter_append]
    cases hm : (Rcol l k).max with
    | bot =>
      have hem : Rcol l k = ∅ := Finset.max_eq_bot.mp hm
      have hp : pairOf l k = none := by rw [pairOf, hm]
      have hc : colOf l k = none := by rw [colOf, hm]
      simp only [List.filterMap_cons, List.filterMap_nil, hp, hc,
        List.filter_cons, List.filter_nil]
      refine ⟨by simpa using ihp, ?_, by simpa using ihc⟩
      have hdec : decide (Rcol l k = ∅) = true := by simpa using hem
      simp [hdec, ihb]
    | coe i =>
      have hne : Rcol l k ≠ ∅ := by
        intro h
        rw [h] at hm
        simp at hm
      have hp : pairOf l k = some (i, k) := by rw [pairOf, hm]
      have hc : colOf l k = some (i, k, Rcol l k) := by rw [colOf, hm]
      simp only [List.filterMap_cons, List.filterMap_nil, hp, hc,
        List.filter_cons, List.filter_nil]
      refine ⟨by rw [ihp], ?_, ?_⟩
      · have : decide (Rcol l k = ∅) = false := by simpa using hne
        simp only [this]
        rw [ihb]
        simp
      · rw [ihc, List.reverse_append]
        simp

theorem mem_pairs_iff (l : List (Simplex × ℚ)) (i j : ℕ) :
    (i, j) ∈ (runReduction l).pairs ↔
      j < l.length ∧ (Rcol l j).max = (i : WithBot ℕ) := by
  rw [runReduction, (stepUpTo_char l l.length).1, List.mem_filterMap]
  constructor
  · rintro ⟨j', hj', hpo⟩
    rw [pairOf] at hpo
    split at hpo
    · cases hpo
    · next i' hm =>
      cases hpo
      exact ⟨List.mem_range.mp hj', hm⟩
  · rintro ⟨hj, hm⟩
    refine ⟨j, List.mem_range.mpr hj, ?_⟩
    rw [pairOf, hm]
    rfl

theorem mem_births_iff (l : List (Simplex × ℚ)) (i : ℕ) :
    i ∈ (runReduction l).births ↔ i < l.length ∧ Rcol l i = ∅ := by
  rw [runReduction, (stepUpTo_char l l.length).2.1, List.mem_filter,
    List.mem_range]
  simp

theorem mem_essential_iff (l : List (Simplex × ℚ)) (i : ℕ) :
    i ∈ essentialIdx (runReduction l) ↔
      i < l.length ∧ Rcol l i = ∅ ∧
        ∀ j, ¬ ((Rcol l j).max = (i : WithBot ℕ) ∧ j < l.length) := by
  rw [essentialIdx, List.mem_filter]
  rw [mem_births_iff]
  constructor
  · rintro ⟨⟨hi, hri⟩, hall⟩
    refine ⟨hi, hri, ?_⟩
    rintro j ⟨hm, hj⟩
    have hmem : (i, j) ∈ (runReduction l).pairs := (mem_pairs_iff l i j).mpr ⟨hj, hm⟩
    rw [List.all_eq_true] at hall
    have := hall (i, j) hmem
    simpa using this
  · rintro ⟨hi, hri, hnone⟩
    refine ⟨⟨hi, hri⟩, ?_⟩
    rw [List.all_eq_true]
    intro p hp
    simp only [decide_eq_true_eq]
    intro hpi
    have hmem : (i, p.2) ∈ (runReduction l).pairs := by
      rw [← hpi, Prod.mk.eta]
      exact hp
    obtain ⟨hj, hm⟩ := (mem_pairs_iff l i p.2).mp hmem
    exact hnone p.2 ⟨hm, hj⟩

/-! ## Mod-2 linear algebra of the reduction -/

/-- Indicator vector of a finite index set over the two-element field. -/
def vecOf (c : Finset ℕ) : ℕ → ZMod 2 := fun i => if i ∈ c then 1 else 0

theorem vecOf_empty : vecOf ∅ = 0 := by
  funext i
  simp [vecOf]

theorem vecOf_symmDiff (c d : Finset ℕ) :
    vecOf (symmDiff c d) = vecOf c + vecOf d := by
  funext i
  simp only [vecOf, Pi.add_apply, Finset.mem_symmDiff]
  by_cases hc : i ∈ c <;> by_cases hd : i ∈ d <;> simp [hc, hd] <;> decide

theorem vecOf_eq_zero_iff (c : Finset ℕ) : vecOf c = 0 ↔ c = ∅ := by
  constructor
  · intro h
    ext i
    have := congrFun h i
    simp only [vecOf, Pi.zero_apply] at this
    by_cases hi : i ∈ c
    · rw [if_pos hi] at this
      exact absurd this (by decide)
    · simp [hi]
  · rintro rfl
    exact vecOf_empty

/-- Negation is the identity in a module over the two-element field. -/
theorem zmod2_neg_eq (w : ℕ → ZMod 2) : -w = w := by
  funext i
  have : ∀ x : ZMod 2, -x = x := by decide
  exact this (w i)

theorem zmod2_add_self (w : ℕ → ZMod 2) : w + w = 0 := by
  funext i
  have : ∀ x : ZMod 2, x + x = 0 := by decide
  exact this (w i)

/-- Truncation to coordinates `≥ a`, as a linear map. -/
def projGE (a : ℕ) : (ℕ → ZMod 2) →ₗ[ZMod 2] (ℕ → ZMod 2) where
  toFun v := fun i => if a ≤ i then v i else 0
  map_add' u v := by
    funext i
    by_cases h : a ≤ i <;> simp [h]
  map_smul' r v := by
    funext i
    by_cases h : a ≤ i <;> simp [h]

theorem projGE_vecOf (a : ℕ) (c : Finset ℕ) :
    projGE a (vecOf c) = vecOf (c.filter (fun i => a ≤ i)) := by
  funext i
  simp only [projGE, LinearMap.coe_mk, AddHom.coe_mk, vecOf, Finset.mem_filter]
  by_cases h : a ≤ i <;> simp [h]

/-- The filter below the pivot in `reduceColF` is a no-op when both columns
have the pivot as maximum. -/
theorem symmDiff_filter_eq (c d : Finset ℕ) (p : ℕ)
    (hc : c.max = (p : WithBot ℕ)) (hd : d.max = (p : WithBot ℕ)) :
    (symmDiff c d).filter (· < p) = symmDiff c d := by
  apply Finset.filter_true_of_mem
  intro x hx
  have hxne : x ≠ p := by
    intro hxp
    subst hxp
    rcases Finset.mem_symmDiff.mp hx with ⟨_, h2⟩ | ⟨_, h2⟩
    · exact h2 (Finset.mem_of_max hd)
    · exact h2 (Finset.mem_of_max hc)
  have hxle : x ≤ p := by
    rcases Finset.mem_symmDiff.mp hx with ⟨h1, _⟩ | ⟨h1, _⟩
    · exact WithBot.coe_le_coe.mp (le_of_le_of_eq (Finset.le_max h1) hc)
    · exact WithBot.coe_le_coe.mp (le_of_le_of_eq (Finset.le_max h1) hd)
  omega

theorem reduceColF_coset (fuel : ℕ) (cols : List RCol) (c : Finset ℕ)
    (hmax : ∀ e ∈ cols, e.2.2.max = (e.1 : WithBot ℕ)) :
    ∃ w ∈ Submodule.span (ZMod 2) ((fun e : RCol => vecOf e.2.2) '' {e | e ∈ cols}),
      vecOf (reduceColF fuel cols c) = vecOf c + w := by
  induction fuel generalizing c with
  | zero => exact ⟨0, Submodule.zero_mem _, by simp [reduceColF]⟩
  | succ fuel ih =>
    rw [reduceColF]
    split
    · exact ⟨0, Submodule.zero_mem _, by simp⟩
    · split
      · exact ⟨0, Submodule.zero_mem _, by simp⟩
      · rename_i p hm _sc e hf
        have hecols : e ∈ cols := List.mem_of_find?_eq_some hf
        have hep : e.1 = p := by
          have := List.find?_some hf
          simpa using this
        have hemax : e.2.2.max = (p : WithBot ℕ) := hep ▸ hmax e hecols
        rw [symmDiff_filter_eq c e.2.2 p hm hemax]
        obtain ⟨w, hw, hvec⟩ := ih (symmDiff c e.2.2)
        refine ⟨vecOf e.2.2 + w, ?_, ?_⟩
        · exact Submodule.add_mem _
            (Submodule.subset_span ⟨e, hecols, rfl⟩) hw
        · rw [hvec, vecOf_symmDiff]
          abel

/-- Boundary-column vector at position `j`. -/
def Bvec (l : List (Simplex × ℚ)) (j : ℕ) : ℕ → ZMod 2 := vecOf (boundaryCol l j)

/-- Reduced-column vector at position `j`. -/
def Rvec (l : List (Simplex × ℚ)) (j : ℕ) : ℕ → ZMod 2 := vecOf (Rcol l j)

theorem Rcol_coset (l : List (Simplex × ℚ)) (j : ℕ) :
    ∃ w ∈ Submodule.span (ZMod 2) (Bvec l '' Set.Iio j),
      Rvec l j = Bvec l j + w := by
  induction j using Nat.strong_induction_on with
  | _ j ih =>
    have hmax : ∀ e ∈ (stepUpTo l j).cols, e.2.2.max = (e.1 : WithBot ℕ) :=
      (inv_stepUpTo l j).colsMax
    obtain ⟨w, hw, hvec⟩ := reduceColF_coset _ (stepUpTo l j).cols (boundaryCol l j) hmax
    refine ⟨w, ?_, hvec⟩
    refine Submodule.span_le.mpr ?_ hw
    rintro x ⟨e, he, rfl⟩
    have he' : e ∈ (stepUpTo l j).cols := he
    rw [(stepUpTo_char l j).2.2, List.mem_reverse, List.mem_filterMap] at he'
    obtain ⟨t, ht, hct⟩ := he'
    rw [colOf] at hct
    split at hct
    · cases hct
    · next i hm =>
      cases hct
      have htj : t < j := List.mem_range.mp ht
      obtain ⟨wt, hwt, hvt⟩ := ih t htj
      have hB : Bvec l t ∈ Submodule.span (ZMod 2) (Bvec l '' Set.Iio j) :=
        Submodule.subset_span ⟨t, htj, rfl⟩
      have hwt' : wt ∈ Submodule.span (ZMod 2) (Bvec l '' Set.Iio j) := by
        refine Submodule.span_le.mpr ?_ hwt
        rintro x ⟨s, hs, rfl⟩
        exact Submodule.subset_span ⟨s, lt_trans hs htj, rfl⟩
      have : Rvec l t = Bvec l t + wt := hvt
      show vecOf (Rcol l t) ∈ _
      rw [← Rvec, this]
      exact Submodule.add_mem _ hB hwt'

theorem Bvec_mem_span_Rvec (l : List (Simplex × ℚ)) (b t : ℕ) (ht : t < b) :
    Bvec l t ∈ Submodule.span (ZMod 2) (Rvec l '' Set.Iio b) := by
  induction t using Nat.strong_induction_on with
  | _ t ih =>
    obtain ⟨w, hw, hvec⟩ := Rcol_coset l t
    have hB : Bvec l t = Rvec l t + w := by
      rw [hvec, add_assoc, zmod2_add_self, add_zero]
    rw [hB]
    refine Submodule.add_mem _ (Submodule.subset_span ⟨t, ht, rfl⟩) ?_
    refine Submodule.span_le.mpr ?_ hw
    rintro x ⟨s, hs, rfl⟩
    exact ih s hs (lt_trans hs ht)

theorem span_Rvec_eq_span_Bvec (l : List (Simplex × ℚ)) (b : ℕ) :
    Submodule.span (ZMod 2) (Rvec l '' Set.Iio b) =
      Submodule.span (ZMod 2) (Bvec l '' Set.Iio b) := by
  apply le_antisymm
  · refine Submodule.span_le.mpr ?_
    rintro x ⟨t, ht, rfl⟩
    obtain ⟨w, hw, hvec⟩ := Rcol_coset l t
    rw [hvec]
    refine Submodule.add_mem _ (Submodule.subset_span ⟨t, ht, rfl⟩) ?_
    refine Submodule.span_le.mpr ?_ hw
    rintro x ⟨s, hs, rfl⟩
    exact Submodule.subset_span
      ⟨s, Set.mem_Iio.mpr (lt_trans (Set.mem_Iio.mp hs) (Set.mem_Iio.mp ht)), rfl⟩
  · refine Submodule.span_le.mpr ?_
    rintro x ⟨t, ht, rfl⟩
    exact Bvec_mem_span_Rvec l b t ht

/-- The row-truncated column space of the first `b` boundary columns. -/
noncomputable def spanB (l : List (Simplex × ℚ)) (a b : ℕ) :
    Submodule (ZMod 2) (ℕ → ZMod 2) :=
  Submodule.span (ZMod 2) ((fun j => projGE a (Bvec l j)) '' Set.Iio b)

/-- The rank of the lower-left submatrix of the boundary matrix with rows ≥ `a`
and columns < `b`. -/
noncomputable def rk (l : List (Simplex × ℚ)) (a b : ℕ) : ℕ :=
  Module.finrank (ZMod 2) (spanB l a b)

theorem spanB_eq_span_projR (l : List (Simplex × ℚ)) (a b : ℕ) :
    spanB l a b =
      Submodule.span (ZMod 2) ((fun j => projGE a (Rvec l j)) '' Set.Iio b) := by
  have h1 : (fun j => projGE a (Bvec l j)) '' Set.Iio b =
      (projGE a) '' (Bvec l '' Set.Iio b) := by
    rw [Set.image_image]
  have h2 : (fun j => projGE a (Rvec l j)) '' Set.Iio b =
      (projGE a) '' (Rvec l '' Set.Iio b) := by
    rw [Set.image_image]
  rw [spanB, h1, h2, Submodule.span_image, Submodule.span_image,
    span_Rvec_eq_span_Bvec]

/-! ## Staircase rank formula -/

theorem filter_max_eq (c : Finset ℕ) (a p : ℕ)
    (hm : c.max = (p : WithBot ℕ)) (hap : a ≤ p) :
    (c.filter (fun i => a ≤ i)).max = (p : WithBot ℕ) := by
  apply le_antisymm
  · exact le_of_le_of_eq (Finset.max_mono (Finset.filter_subset _ c)) hm
  · exact Finset.le_max (Finset.mem_filter.mpr ⟨Finset.mem_of_max hm, hap⟩)

theorem staircase_linearIndependent {ι : Type} (g : ι → Finset ℕ)
    (hne : ∀ i, (g i).Nonempty)
    (hinj : ∀ i j, (g i).max = (g j).max → i = j) :
    LinearIndependent (ZMod 2) (fun i => vecOf (g i)) := by
  classical
  rw [linearIndependent_iff']
  intro s
  induction s using Finset.strongInduction with
  | _ s ihs =>
    intro gc hsum i hi
    obtain ⟨i0, hi0, hmax⟩ :=
      Finset.exists_max_image s (fun i => (g i).max) ⟨i, hi⟩
    have hcoe : (g i0).max = ((g i0).max' (hne i0) : WithBot ℕ) :=
      (Finset.coe_max' (hne i0)).symm
    set p := (g i0).max' (hne i0) with hp
    have hzero : gc i0 = 0 := by
      have heval := congrFun hsum p
      rw [Finset.sum_apply] at heval
      have hsingle : ∀ j ∈ s, j ≠ i0 → (gc j • vecOf (g j)) p = 0 := by
        intro j hj hji
        have hvan : vecOf (g j) p = 0 := by
          rw [vecOf]
          rw [if_neg]
          intro hmem
          have h1 : (p : WithBot ℕ) ≤ (g j).max := Finset.le_max hmem
          have h2 : (g j).max ≤ (g i0).max := hmax j hj
          have h3 : (g j).max = (g i0).max :=
            le_antisymm h2 (le_of_eq_of_le hcoe h1)
          exact hji (hinj j i0 h3)
        simp [hvan]
      rw [Finset.sum_eq_single i0 hsingle (fun h => absurd hi0 h)] at heval
      have hone : vecOf (g i0) p = 1 := by
        rw [vecOf, if_pos (Finset.max'_mem _ (hne i0))]
      rw [Pi.smul_apply, hone, smul_eq_mul, mul_one] at heval
      simpa using heval
    by_cases hii : i = i0
    · rw [hii, hzero]
    · have hsub : s.erase i0 ⊂ s := Finset.erase_ssubset hi0
      have hsum' : ∑ j ∈ s.erase i0, gc j • vecOf (g j) = 0 := by
        have haux := Finset.sum_erase_add s (fun j => gc j • vecOf (g j)) hi0
        simp only at haux
        rw [hzero, zero_smul, add_zero] at haux
        rw [haux, hsum]
      exact ihs (s.erase i0) hsub gc hsum' i
        (Finset.mem_erase.mpr ⟨hii, hi⟩)

theorem projGE_Rvec_eq_zero (l : List (Simplex × ℚ)) (a k : ℕ)
    (h : ¬ (a : WithBot ℕ) ≤ (Rcol l k).max) :
    projGE a (Rvec l k) = 0 := by
  rw [Rvec, projGE_vecOf]
  rw [vecOf_eq_zero_iff]
  rw [Finset.filter_eq_empty_iff]
  intro i hi
  intro hai
  apply h
  exact le_trans (WithBot.coe_le_coe.mpr hai) (Finset.le_max hi)

theorem rk_eq_card (l : List (Simplex × ℚ)) (a b : ℕ) (hb : b ≤ l.length) :
    rk l a b = ((Finset.range b).filter
      (fun k => (a : WithBot ℕ) ≤ (Rcol l k).max)).card := by
  classical
  set F := (Finset.range b).filter
    (fun k => (a : WithBot ℕ) ≤ (Rcol l k).max) with hF
  have hFprop : ∀ k : ℕ, k ∈ F ↔ k < b ∧ (a : WithBot ℕ) ≤ (Rcol l k).max := by
    intro k
    rw [hF, Finset.mem_filter, Finset.mem_range]
  have hmaxof : ∀ k ∈ F, ∃ p : ℕ, (Rcol l k).max = (p : WithBot ℕ) ∧ a ≤ p := by
    intro k hk
    obtain ⟨_, hle⟩ := (hFprop k).mp hk
    cases hm : (Rcol l k).max with
    | bot =>
      rw [hm] at hle
      exact absurd hle (by simp)
    | coe p =>
      rw [hm] at hle
      exact ⟨p, rfl, WithBot.coe_le_coe.mp hle⟩
  set g : ↥F → Finset ℕ :=
    fun k => (Rcol l (k : ℕ)).filter (fun i => a ≤ i) with hg
  have hgmax : ∀ k : ↥F, (g k).max = (Rcol l (k : ℕ)).max := by
    rintro ⟨k, hk⟩
    obtain ⟨p, hp, hap⟩ := hmaxof k hk
    rw [hg]
    simp only
    rw [filter_max_eq _ a p hp hap, hp]
  have hgne : ∀ k : ↥F, (g k).Nonempty := by
    rintro ⟨k, hk⟩
    obtain ⟨p, hp, hap⟩ := hmaxof k hk
    exact ⟨p, Finset.mem_filter.mpr ⟨Finset.mem_of_max hp, hap⟩⟩
  have hginj : ∀ k k' : ↥F, (g k).max = (g k').max → k = k' := by
    rintro ⟨k, hk⟩ ⟨k', hk'⟩ hmax
    rw [hgmax ⟨k, hk⟩, hgmax ⟨k', hk'⟩] at hmax
    obtain ⟨p, hp, _⟩ := hmaxof k hk
    have hp' : (Rcol l k').max = (p : WithBot ℕ) := by rw [← hmax, hp]
    have hkb : k < b := ((hFprop k).mp hk).1
    have hkb' : k' < b := ((hFprop k').mp hk').1
    have hpair : (p, k) ∈ (runReduction l).pairs :=
      (mem_pairs_iff l p k).mpr ⟨lt_of_lt_of_le hkb hb, hp⟩
    have hpair' : (p, k') ∈ (runReduction l).pairs :=
      (mem_pairs_iff l p k').mpr ⟨lt_of_lt_of_le hkb' hb, hp'⟩
    have := List.inj_on_of_nodup_map (inv_runReduction l).firstsNodup
      hpair hpair' (by rfl)
    exact Subtype.ext (congrArg Prod.snd this)
  have hindep : LinearIndependent (ZMod 2) (fun k : ↥F => vecOf (g k)) :=
    staircase_linearIndependent g hgne hginj
  have hval : ∀ k : ↥F, vecOf (g k) = projGE a (Rvec l (k : ℕ)) := by
    intro k
    rw [hg]
    simp only
    rw [Rvec, projGE_vecOf]
  have hspan : spanB l a b =
      Submodule.span (ZMod 2) (Set.range (fun k : ↥F => vecOf (g k))) := by
    rw [spanB_eq_span_projR]
    apply le_antisymm
    · refine Submodule.span_le.mpr ?_
      rintro x ⟨j, hj, rfl⟩
      show projGE a (Rvec l j) ∈ _
      by_cases hjF : (a : WithBot ℕ) ≤ (Rcol l j).max
      · have hjF' : j ∈ F := (hFprop j).mpr ⟨Set.mem_Iio.mp hj, hjF⟩
        have heq : projGE a (Rvec l j) = vecOf (g ⟨j, hjF'⟩) := (hval ⟨j, hjF'⟩).symm
        rw [heq]
        exact Submodule.subset_span ⟨⟨j, hjF'⟩, rfl⟩
      · rw [projGE_Rvec_eq_zero l a j hjF]
        exact Submodule.zero_mem _
    · refine Submodule.span_le.mpr ?_
      rintro x ⟨k, rfl⟩
      show vecOf (g k) ∈ _
      rw [hval k]
      refine Submodule.subset_span ⟨(k : ℕ), ?_, rfl⟩
      exact Set.mem_Iio.mpr (((hFprop (k : ℕ)).mp k.2).1)
  rw [rk, hspan, finrank_span_eq_card hindep, Fintype.card_coe]

/-! ## Pivot counting -/

/-- The pivot row of the reduced column at position `k` (0 if the column is
zero). -/
def lowOf (l : List (Simplex × ℚ)) (k : ℕ) : ℕ :=
  ((Rcol l k).max).unbot' 0

/-- Number of positions `k < b` whose reduced column is non-zero with pivot
row at least `a`. -/
def pivCount (l : List (Simplex × ℚ)) (a b : ℕ) : ℕ :=
  ((Finset.range b).filter
    (fun k => (Rcol l k).Nonempty ∧ a ≤ lowOf l k)).card

theorem le_max_iff_low (l : List (Simplex × ℚ)) (a k : ℕ) :
    (a : WithBot ℕ) ≤ (Rcol l k).max ↔
      ((Rcol l k).Nonempty ∧ a ≤ lowOf l k) := by
  cases hm : (Rcol l k).max with
  | bot =>
    have hem : Rcol l k = ∅ := Finset.max_eq_bot.mp hm
    simp [hem, WithBot.not_coe_le_bot]
  | coe p =>
    have hne : (Rcol l k).Nonempty := ⟨p, Finset.mem_of_max hm⟩
    have hlow : lowOf l k = p := by rw [lowOf, hm, WithBot.unbot'_coe]
    simp only [hne, hlow, true_and]
    exact WithBot.coe_le_coe

theorem rk_eq_pivCount (l : List (Simplex × ℚ)) (a b : ℕ) (hb : b ≤ l.length) :
    rk l a b = pivCount l a b := by
  rw [rk_eq_card l a b hb, pivCount]
  congr 1
  apply Finset.filter_congr
  intro k _
  rw [le_max_iff_low]

theorem range_filter_lt (b1 b2 : ℕ) (h : b1 ≤ b2) :
    (Finset.range b2).filter (fun k => k < b1) = Finset.range b1 := by
  ext k
  simp only [Finset.mem_filter, Finset.mem_range]
  omega

theorem pivCount_zero_b (l : List (Simplex × ℚ)) (a : ℕ) :
    pivCount l a 0 = 0 := by
  rw [pivCount]
  simp

/-- Inclusion–exclusion for the number of pairs whose pivot row lies in
`[a1, a2)` and whose death column lies in `[b1, b2)`. -/
theorem pivCount_rect (l : List (Simplex × ℚ)) (a1 a2 b1 b2 : ℕ)
    (ha : a1 ≤ a2) (hbb : b1 ≤ b2) :
    ((Finset.range b2).filter (fun k => b1 ≤ k ∧ (Rcol l k).Nonempty ∧
        a1 ≤ lowOf l k ∧ lowOf l k < a2)).card
      + pivCount l a2 b2 + pivCount l a1 b1
    = pivCount l a1 b2 + pivCount l a2 b1 := by
  classical
  have hb1 : ∀ a : ℕ, pivCount l a b1 =
      ((Finset.range b2).filter
        (fun k => k < b1 ∧ ((Rcol l k).Nonempty ∧ a ≤ lowOf l k))).card := by
    intro a
    rw [pivCount, ← range_filter_lt b1 b2 hbb, Finset.filter_filter]
  rw [hb1, hb1, pivCount, pivCount]
  rw [Finset.card_filter, Finset.card_filter, Finset.card_filter,
    Finset.card_filter, Finset.card_filter]
  rw [← Finset.sum_add_distrib, ← Finset.sum_add_distrib,
    ← Finset.sum_add_distrib]
  apply Finset.sum_congr rfl
  intro k _
  by_cases hnz : (Rcol l k).Nonempty
  · simp only [hnz, true_and]
    split_ifs <;> omega
  · simp only [hnz, false_and, and_false, if_false]

/-! ## Pivot rows are creator columns (∂∂ = 0) -/

/-- The mod-2 boundary of a mod-2 chain of filtration positions. -/
def chainBoundary (l : List (Simplex × ℚ)) (c : Finset ℕ) : ℕ → ZMod 2 :=
  ∑ t ∈ c, Bvec l t

theorem chainBoundary_symmDiff (l : List (Simplex × ℚ)) (c d : Finset ℕ) :
    chainBoundary l (symmDiff c d) = chainBoundary l c + chainBoundary l d := by
  classical
  have h1 : chainBoundary l (symmDiff c d) + chainBoundary l (c ∩ d) =
      chainBoundary l (c ∪ d) := by
    rw [chainBoundary, chainBoundary, chainBoundary]
    rw [symmDiff_eq_sup_sdiff_inf, Finset.sup_eq_union, Finset.inf_eq_inter]
    exact Finset.sum_sdiff Finset.inter_subset_union
  have h2 : chainBoundary l (c ∪ d) + chainBoundary l (c ∩ d) =
      chainBoundary l c + chainBoundary l d := by
    rw [chainBoundary, chainBoundary, chainBoundary, chainBoundary]
    exact Finset.sum_union_inter
  calc chainBoundary l (symmDiff c d)
      = chainBoundary l (symmDiff c d) +
          (chainBoundary l (c ∩ d) + chainBoundary l (c ∩ d)) := by
        rw [zmod2_add_self, add_zero]
    _ = (chainBoundary l (symmDiff c d) + chainBoundary l (c ∩ d)) +
          chainBoundary l (c ∩ d) := by abel
    _ = chainBoundary l (c ∪ d) + chainBoundary l (c ∩ d) := by rw [h1]
    _ = chainBoundary l c + chainBoundary l d := h2

theorem reduceColF_chainBoundary (l : List (Simplex × ℚ)) (fuel : ℕ)
    (cols : List RCol) (c : Finset ℕ)
    (hmax : ∀ e ∈ cols, e.2.2.max = (e.1 : WithBot ℕ))
    (hzero : ∀ e ∈ cols, chainBoundary l e.2.2 = 0)
    (hc : chainBoundary l c = 0) :
    chainBoundary l (reduceColF fuel cols c) = 0 := by
  induction fuel generalizing c with
  | zero => exact hc
  | succ fuel ih =>
    rw [reduceColF]
    split
    · exact hc
    · split
      · exact hc
      · rename_i p hm _sc e hf
        have hecols : e ∈ cols := List.mem_of_find?_eq_some hf
        have hep : e.1 = p := by
          have := List.find?_some hf
          simpa using this
        have hemax : e.2.2.max = (p : WithBot ℕ) := hep ▸ hmax e hecols
        rw [symmDiff_filter_eq c e.2.2 p hm hemax]
        apply ih
        rw [chainBoundary_symmDiff, hc, hzero e hecols, add_zero]

/-- If every boundary column is a mod-2 cycle (∂∂ = 0), then so is every
reduced column. -/
theorem Rcol_chainBoundary (l : List (Simplex × ℚ))
    (hdd : ∀ j, chainBoundary l (boundaryCol l j) = 0) (j : ℕ) :
    chainBoundary l (Rcol l j) = 0 := by
  induction j using Nat.strong_induction_on with
  | _ j ih =>
    apply reduceColF_chainBoundary l _ _ _ (inv_stepUpTo l j).colsMax _ (hdd j)
    intro e he
    have he' : e ∈ (stepUpTo l j).cols := he
    rw [(stepUpTo_char l j).2.2, List.mem_reverse, List.mem_filterMap] at he'
    obtain ⟨t, ht, hct⟩ := he'
    rw [colOf] at hct
    split at hct
    · cases hct
    · cases hct
      exact ih t (List.mem_range.mp ht)

theorem Bvec_low_mem_span (l : List (Simplex × ℚ))
    (hdd : ∀ j, chainBoundary l (boundaryCol l j) = 0) (j : ℕ)
    (hne : (Rcol l j).Nonempty) :
    Bvec l (lowOf l j) ∈
      Submodule.span (ZMod 2) (Bvec l '' Set.Iio (lowOf l j)) := by
  classical
  set i := lowOf l j with hi
  have hmax : (Rcol l j).max = (i : WithBot ℕ) := by
    obtain ⟨p, hp⟩ := Finset.max_of_nonempty hne
    rw [hp, hi, lowOf, hp, WithBot.unbot'_coe]
    rfl
  have himem : i ∈ Rcol l j := Finset.mem_of_max hmax
  have hcycle := Rcol_chainBoundary l hdd j
  rw [chainBoundary] at hcycle
  have hsplit := Finset.sum_erase_add (Rcol l j) (Bvec l) himem
  rw [hcycle] at hsplit
  have hBi : Bvec l i = ∑ t ∈ (Rcol l j).erase i, Bvec l t := by
    have h1 := congrArg (· + Bvec l i) hsplit.symm
    simp only at h1
    rw [add_assoc, zmod2_add_self, add_zero, zero_add] at h1
    exact h1
  rw [hBi]
  apply Submodule.sum_mem
  intro t ht
  have htlt : t < i := by
    have h1 : t ∈ Rcol l j := Finset.mem_of_mem_erase ht
    have h2 : (t : WithBot ℕ) ≤ (i : WithBot ℕ) :=
      le_of_le_of_eq (Finset.le_max h1) hmax
    have h3 : t ≠ i := Finset.ne_of_mem_erase ht
    have h4 : t ≤ i := by exact_mod_cast h2
    omega
  exact Submodule.subset_span ⟨t, Set.mem_Iio.mpr htlt, rfl⟩

/-- Under ∂∂ = 0, the pivot row of every non-zero reduced column is itself a
zero (creator) column. -/
theorem low_is_creator (l : List (Simplex × ℚ))
    (hdd : ∀ j, chainBoundary l (boundaryCol l j) = 0) (j : ℕ)
    (hj : j < l.length) (hne : (Rcol l j).Nonempty) :
    Rcol l (lowOf l j) = ∅ := by
  classical
  set i := lowOf l j with hi
  have hmax : (Rcol l j).max = (i : WithBot ℕ) := by
    obtain ⟨p, hp⟩ := Finset.max_of_nonempty hne
    rw [hp, hi, lowOf, hp, WithBot.unbot'_coe]
    rfl
  have hpair : (i, j) ∈ (runReduction l).pairs :=
    (mem_pairs_iff l i j).mpr ⟨hj, hmax⟩
  have hij : i < j := ((inv_runReduction l).pairsLt _ hpair).1
  by_contra hnei
  have hnei' : (Rcol l i).Nonempty := Finset.nonempty_iff_ne_empty.mpr hnei
  -- the nonzero reduced columns among positions ≤ i form a staircase family
  set F := (Finset.range (i + 1)).filter (fun k => (Rcol l k).Nonempty) with hF
  have hiF : i ∈ F := by
    rw [hF, Finset.mem_filter, Finset.mem_range]
    exact ⟨Nat.lt_succ_self i, hnei'⟩
  set g : ↥F → Finset ℕ := fun k => Rcol l (k : ℕ) with hg
  have hgne : ∀ k : ↥F, (g k).Nonempty := by
    rintro ⟨k, hk⟩
    exact (Finset.mem_filter.mp hk).2
  have hginj : ∀ k k' : ↥F, (g k).max = (g k').max → k = k' := by
    rintro ⟨k, hk⟩ ⟨k', hk'⟩ hmaxeq
    obtain ⟨hkr, hkne⟩ := Finset.mem_filter.mp hk
    obtain ⟨hkr', hkne'⟩ := Finset.mem_filter.mp hk'
    obtain ⟨p, hp⟩ := Finset.max_of_nonempty hkne
    have hkm : k < l.length := by
      have := Finset.mem_range.mp hkr
      omega
    have hkm' : k' < l.length := by
      have := Finset.mem_range.mp hkr'
      omega
    have hp' : (Rcol l k').max = (p : WithBot ℕ) := by
      rw [hg] at hmaxeq
      simp only at hmaxeq
      rw [← hmaxeq, hp]
      rfl
    have hpaira : (p, k) ∈ (runReduction l).pairs :=
      (mem_pairs_iff l p k).mpr ⟨hkm, hp⟩
    have hpairb : (p, k') ∈ (runReduction l).pairs :=
      (mem_pairs_iff l p k').mpr ⟨hkm', hp'⟩
    have := List.inj_on_of_nodup_map (inv_runReduction l).firstsNodup
      hpaira hpairb (by rfl)
    exact Subtype.ext (congrArg Prod.snd this)
  have hindep : LinearIndependent (ZMod 2) (fun k : ↥F => vecOf (g k)) :=
    staircase_linearIndependent g hgne hginj
  -- yet the column at `i` lies in the span of the earlier family members
  have hspanBi := Bvec_low_mem_span l hdd j hne
  obtain ⟨w, hw, hcoset⟩ := Rcol_coset l i
  have hRi : Rvec l i ∈ Submodule.span (ZMod 2) (Bvec l '' Set.Iio i) := by
    rw [hcoset]
    exact Submodule.add_mem _ (hi ▸ hspanBi) hw
  rw [← span_Rvec_eq_span_Bvec] at hRi
  have hsub : Submodule.span (ZMod 2) (Rvec l '' Set.Iio i) ≤
      Submodule.span (ZMod 2)
        ((fun k : ↥F => vecOf (g k)) '' {k : ↥F | (k : ℕ) ≠ i}) := by
    refine Submodule.span_le.mpr ?_
    rintro x ⟨t, ht, rfl⟩
    have htlt : t < i := Set.mem_Iio.mp ht
    by_cases htne : (Rcol l t).Nonempty
    · have htF : t ∈ F := by
        rw [hF, Finset.mem_filter, Finset.mem_range]
        exact ⟨by omega, htne⟩
      refine Submodule.subset_span ⟨⟨t, htF⟩, ?_, rfl⟩
      simp only [Set.mem_setOf_eq]
      omega
    · have : Rcol l t = ∅ := Finset.not_nonempty_iff_eq_empty.mp htne
      rw [Rvec, this, vecOf_empty]
      exact Submodule.zero_mem _
  have hmem := hsub hRi
  have hne2 : (⟨i, hiF⟩ : ↥F) ∉ {k : ↥F | (k : ℕ) ≠ i} := by
    simp
  exact hindep.not_mem_span_image hne2 hmem

/-! ## Sort keys and position intervals -/

/-- The sort key of a filtration entry: (filtration value, vertex count),
ordered lexicographically.  The lexicographic tie-break on vertex indices
refines this key but does not enter it. -/
def keyOf (e : Simplex × ℚ) : Lex (ℚ × ℕ) := toLex (e.2, e.1.length)

/-- The key of the entry at position `t`. -/
def keyAt (l : List (Simplex × ℚ)) (t : ℕ) : Lex (ℚ × ℕ) :=
  keyOf (l.getD t ([], 0))

theorem lexLE_total (a b : List ℕ) : lexLE a b = true ∨ lexLE b a = true := by
  induction a generalizing b with
  | nil => left; rfl
  | cons x xs ih =>
    cases b with
    | nil => right; rfl
    | cons y ys =>
      rcases lt_trichotomy x y with h | h | h
      · left
        simp [lexLE, h]
      · subst h
        rcases ih ys with h2 | h2
        · left
          simp [lexLE, h2]
        · right
          simp [lexLE, h2]
      · right
        simp [lexLE, h]

theorem lexLE_trans (a b c : List ℕ) (hab : lexLE a b = true)
    (hbc : lexLE b c = true) : lexLE a c = true := by
  induction a generalizing b c with
  | nil => rfl
  | cons x xs ih =>
    cases b with
    | nil => simp [lexLE] at hab
    | cons y ys =>
      cases c with
      | nil => simp [lexLE] at hbc
      | cons z zs =>
        simp only [lexLE, Bool.or_eq_true, Bool.and_eq_true, decide_eq_true_eq,
          beq_iff_eq] at hab hbc ⊢
        rcases hab with h1 | ⟨rfl, h1⟩
        · rcases hbc with h2 | ⟨rfl, h2⟩
          · exact Or.inl (lt_trans h1 h2)
          · exact Or.inl h1
        · rcases hbc with h2 | ⟨rfl, h2⟩
          · exact Or.inl h2
          · exact Or.inr ⟨rfl, ih ys zs h1 h2⟩

theorem filtLE_total (a b : Simplex × ℚ) :
    filtLE a b = true ∨ filtLE b a = true := by
  simp only [filtLE, Bool.or_eq_true, Bool.and_eq_true, decide_eq_true_eq,
    beq_iff_eq]
  rcases lt_trichotomy a.2 b.2 with h | h | h
  · exact Or.inl (Or.inl h)
  · rcases lt_trichotomy a.1.length b.1.length with h2 | h2 | h2
    · exact Or.inl (Or.inr ⟨h, Or.inl h2⟩)
    · rcases lexLE_total a.1 b.1 with h3 | h3
      · exact Or.inl (Or.inr ⟨h, Or.inr ⟨h2, h3⟩⟩)
      · exact Or.inr (Or.inr ⟨h.symm, Or.inr ⟨h2.symm, h3⟩⟩)
    · exact Or.inr (Or.inr ⟨h.symm, Or.inl h2⟩)
  · exact Or.inr (Or.inl h)

theorem filtLE_trans (a b c : Simplex × ℚ) (hab : filtLE a b = true)
    (hbc : filtLE b c = true) : filtLE a c = true := by
  simp only [filtLE, Bool.or_eq_true, Bool.and_eq_true, decide_eq_true_eq,
    beq_iff_eq] at hab hbc ⊢
  rcases hab with h1 | ⟨he1, h1⟩
  · rcases hbc with h2 | ⟨he2, _⟩
    · exact Or.inl (lt_trans h1 h2)
    · exact Or.inl (he2 ▸ h1)
  · rcases hbc with h2 | ⟨he2, h2⟩
    · exact Or.inl (he1 ▸ h2)
    · refine Or.inr ⟨he1.trans he2, ?_⟩
      rcases h1 with h1 | ⟨hl1, h1⟩
      · rcases h2 with h2 | ⟨hl2, _⟩
        · exact Or.inl (lt_trans h1 h2)
        · exact Or.inl (hl2 ▸ h1)
      · rcases h2 with h2 | ⟨hl2, h2⟩
        · exact Or.inl (hl1 ▸ h2)
        · exact Or.inr ⟨hl1.trans hl2, lexLE_trans a.1 b.1 c.1 h1 h2⟩

theorem filtLE_keyOf (a b : Simplex × ℚ) (h : filtLE a b = true) :
    keyOf a ≤ keyOf b := by
  simp only [filtLE, Bool.or_eq_true, Bool.and_eq_true, decide_eq_true_eq,
    beq_iff_eq] at h
  rw [keyOf, keyOf, Prod.Lex.le_iff]
  rcases h with h | ⟨he, h⟩
  · exact Or.inl h
  · rcases h with h | ⟨hl, _⟩
    · exact Or.inr ⟨he, le_of_lt h⟩
    · exact Or.inr ⟨he, le_of_eq hl⟩

/-- The built filtration is sorted by key. -/
theorem buildFiltration_sorted (n : ℕ) (dm : ℕ → ℕ → ℚ) (dMax : ℕ)
    (eps : Option ℚ) :
    (buildFiltration n dm dMax eps).simplices.Pairwise
      (fun x y => keyOf x ≤ keyOf y) := by
  have hs : ∀ entries : List (Simplex × ℚ),
      (entries.insertionSort (fun a b => filtLE a b = true)).Pairwise
        (fun x y => filtLE x y = true) := by
    intro entries
    have : IsTotal (Simplex × ℚ) (fun a b => filtLE a b = true) :=
      ⟨filtLE_total⟩
    have : IsTrans (Simplex × ℚ) (fun a b => filtLE a b = true) :=
      ⟨filtLE_trans⟩
    exact List.sorted_insertionSort _ entries
  have hform : ∃ entries : List (Simplex × ℚ),
      (buildFiltration n dm dMax eps).simplices =
        entries.insertionSort (fun a b => filtLE a b = true) := by
    cases eps with
    | none => exact ⟨_, rfl⟩
    | some e => exact ⟨_, rfl⟩
  obtain ⟨entries, he⟩ := hform
  rw [he]
  exact (hs entries).imp (fun h => filtLE_keyOf _ _ h)

/-- Keys are monotone along a key-sorted list. -/
theorem keyAt_mono (l : List (Simplex × ℚ))
    (hsort : l.Pairwise (fun x y => keyOf x ≤ keyOf y))
    (s t : ℕ) (hst : s ≤ t) (ht : t < l.length) : keyAt l s ≤ keyAt l t := by
  rcases eq_or_lt_of_le hst with rfl | hlt
  · exact le_refl _
  · have hs : s < l.length := lt_trans hlt ht
    rw [keyAt, keyAt, List.getD_eq_getElem _ _ hs, List.getD_eq_getElem _ _ ht]
    exact List.pairwise_iff_getElem.mp hsort s t hs ht hlt

/-- A downward-closed predicate on positions holds exactly below the count of
its support. -/
theorem downclosed_iff_lt_card (m : ℕ) (P : ℕ → Prop) [DecidablePred P]
    (hdc : ∀ s t : ℕ, s ≤ t → t < m → P t → P s) (t : ℕ) (ht : t < m) :
    P t ↔ t < ((Finset.range m).filter (fun x => P x)).card := by
  set A := (Finset.range m).filter (fun x => P x) with hA
  constructor
  · intro hPt
    have hsub : Finset.range (t + 1) ⊆ A := by
      intro s hs
      rw [hA, Finset.mem_filter, Finset.mem_range]
      have hs' : s ≤ t := by
        have := Finset.mem_range.mp hs
        omega
      exact ⟨by omega, hdc s t hs' ht hPt⟩
    have := Finset.card_le_card hsub
    rw [Finset.card_range] at this
    omega
  · intro hcard
    by_contra hPt
    have hsub : A ⊆ Finset.range t := by
      intro s hs
      rw [hA, Finset.mem_filter, Finset.mem_range] at hs
      rw [Finset.mem_range]
      by_contra hts
      exact hPt (hdc t s (by omega) hs.1 hs.2)
    have := Finset.card_le_card hsub
    rw [Finset.card_range] at this
    omega

/-- Number of positions with key strictly below κ. -/
def cntKeyLT (l : List (Simplex × ℚ)) (κ : Lex (ℚ × ℕ)) : ℕ :=
  ((Finset.range l.length).filter (fun t => keyAt l t < κ)).card

/-- Number of positions with key at most κ. -/
def cntKeyLE (l : List (Simplex × ℚ)) (κ : Lex (ℚ × ℕ)) : ℕ :=
  ((Finset.range l.length).filter (fun t => keyAt l t ≤ κ)).card

/-- In a key-sorted list, the positions with a given key form the interval
between the two counting thresholds. -/
theorem key_interval (l : List (Simplex × ℚ))
    (hsort : l.Pairwise (fun x y => keyOf x ≤ keyOf y))
    (κ : Lex (ℚ × ℕ)) (t : ℕ) (ht : t < l.length) :
    keyAt l t = κ ↔ (cntKeyLT l κ ≤ t ∧ t < cntKeyLE l κ) := by
  have hLT := downclosed_iff_lt_card l.length (fun x => keyAt l x < κ)
    (fun s t hst ht hPt => lt_of_le_of_lt (keyAt_mono l hsort s t hst ht) hPt)
    t ht
  have hLE := downclosed_iff_lt_card l.length (fun x => keyAt l x ≤ κ)
    (fun s t hst ht hPt => le_trans (keyAt_mono l hsort s t hst ht) hPt)
    t ht
  simp only at hLT hLE
  rw [cntKeyLT, cntKeyLE]
  constructor
  · intro hk
    constructor
    · have : ¬ (keyAt l t < κ) := by rw [hk]; exact lt_irrefl κ
      rw [hLT] at this
      omega
    · exact hLE.mp (le_of_eq hk)
  · rintro ⟨h1, h2⟩
    have hle : keyAt l t ≤ κ := hLE.mpr h2
    have hnlt : ¬ (keyAt l t < κ) := by
      rw [hLT]
      omega
    exact le_antisymm hle (not_lt.mp hnlt)

theorem cntKeyLE_le_length (l : List (Simplex × ℚ)) (κ : Lex (ℚ × ℕ)) :
    cntKeyLE l κ ≤ l.length := by
  rw [cntKeyLE]
  calc ((Finset.range l.length).filter _).card
      ≤ (Finset.range l.length).card := Finset.card_le_card (Finset.filter_subset _ _)
    _ = l.length := Finset.card_range _

theorem cntKeyLT_le_cntKeyLE (l : List (Simplex × ℚ)) (κ : Lex (ℚ × ℕ)) :
    cntKeyLT l κ ≤ cntKeyLE l κ := by
  rw [cntKeyLT, cntKeyLE]
  apply Finset.card_le_card
  intro t hmem
  rw [Finset.mem_filter] at hmem ⊢
  exact ⟨hmem.1, le_of_lt hmem.2⟩

/-! ## Filtration equivalences -/

/-- A key- and boundary-preserving relabelling between two key-sorted
filtration orders: the abstract content of permuting the points of the input
cloud.  `ρ` sends positions of `l` to positions of `l'`. -/
structure FiltEquiv (l l' : List (Simplex × ℚ)) (ρ : Equiv.Perm ℕ) : Prop where
  len : l'.length = l.length
  maps : ∀ t, t < l.length → ρ t < l.length
  fix : ∀ t, l.length ≤ t → ρ t = t
  key : ∀ t, t < l.length → keyAt l' (ρ t) = keyAt l t
  bnd : ∀ t, t < l.length → boundaryCol l' (ρ t) = (boundaryCol l t).image ρ
  sorted : l.Pairwise (fun x y => keyOf x ≤ keyOf y)
  sorted' : l'.Pairwise (fun x y => keyOf x ≤ keyOf y)

namespace FiltEquiv

variable {l l' : List (Simplex × ℚ)} {ρ : Equiv.Perm ℕ}

theorem symm_maps (h : FiltEquiv l l' ρ) (k : ℕ) (hk : k < l.length) :
    ρ.symm k < l.length := by
  by_contra hge
  have := h.fix (ρ.symm k) (by omega)
  rw [Equiv.apply_symm_apply] at this
  omega

theorem symm_fix (h : FiltEquiv l l' ρ) (k : ℕ) (hk : l.length ≤ k) :
    ρ.symm k = k := by
  have := h.fix k hk
  calc ρ.symm k = ρ.symm (ρ k) := by rw [this]
    _ = k := Equiv.symm_apply_apply ρ k

theorem card_filter_eq (h : FiltEquiv l l' ρ) (P P' : ℕ → Prop)
    [DecidablePred P] [DecidablePred P']
    (hPP : ∀ t, t < l.length → (P t ↔ P' (ρ t))) :
    ((Finset.range l.length).filter P).card =
      ((Finset.range l.length).filter P').card := by
  apply Finset.card_bij (fun t _ => ρ t)
  · intro t ht
    rw [Finset.mem_filter, Finset.mem_range] at ht ⊢
    exact ⟨h.maps t ht.1, (hPP t ht.1).mp ht.2⟩
  · intro t1 h1 t2 h2 heq
    exact ρ.injective heq
  · intro k hk
    rw [Finset.mem_filter, Finset.mem_range] at hk
    have hsm : ρ.symm k < l.length := h.symm_maps k hk.1
    refine ⟨ρ.symm k, ?_, Equiv.apply_symm_apply ρ k⟩
    rw [Finset.mem_filter, Finset.mem_range]
    refine ⟨hsm, ?_⟩
    rw [hPP (ρ.symm k) hsm, Equiv.apply_symm_apply]
    exact hk.2

theorem cntKeyLE_eq (h : FiltEquiv l l' ρ) (κ : Lex (ℚ × ℕ)) :
    cntKeyLE l' κ = cntKeyLE l κ := by
  rw [cntKeyLE, cntKeyLE, h.len]
  exact (h.card_filter_eq _ _ (fun t ht => by rw [h.key t ht])).symm

theorem cntKeyLT_eq (h : FiltEquiv l l' ρ) (κ : Lex (ℚ × ℕ)) :
    cntKeyLT l' κ = cntKeyLT l κ := by
  rw [cntKeyLT, cntKeyLT, h.len]
  exact (h.card_filter_eq _ _ (fun t ht => by rw [h.key t ht])).symm

/-- The key sequences of the two sorted orders agree pointwise. -/
theorem keyAt_eq (h : FiltEquiv l l' ρ) (t : ℕ) (ht : t < l.length) :
    keyAt l' t = keyAt l t := by
  set κ := keyAt l t with hκ
  have hint := (key_interval l h.sorted κ t ht).mp rfl
  have hint' : cntKeyLT l' κ ≤ t ∧ t < cntKeyLE l' κ := by
    rw [h.cntKeyLT_eq, h.cntKeyLE_eq]
    exact hint
  exact (key_interval l' h.sorted' κ t (h.len ▸ ht)).mpr hint'

theorem valueAt_eq (h : FiltEquiv l l' ρ) (t : ℕ) (ht : t < l.length) :
    valueAt l' t = valueAt l t := by
  have := h.keyAt_eq t ht
  rw [keyAt, keyAt, keyOf, keyOf] at this
  have h2 := toLex.injective this
  exact congrArg Prod.fst h2

theorem lengthAt_eq (h : FiltEquiv l l' ρ) (t : ℕ) (ht : t < l.length) :
    (simplexAt l' t).length = (simplexAt l t).length := by
  have := h.keyAt_eq t ht
  rw [keyAt, keyAt, keyOf, keyOf] at this
  have h2 := toLex.injective this
  exact congrArg Prod.snd h2

end FiltEquiv

theorem lt_cntKeyLE_iff (l : List (Simplex × ℚ))
    (hsort : l.Pairwise (fun x y => keyOf x ≤ keyOf y)) (κ : Lex (ℚ × ℕ))
    (t : ℕ) (ht : t < l.length) :
    t < cntKeyLE l κ ↔ keyAt l t ≤ κ := by
  rw [cntKeyLE]
  exact (downclosed_iff_lt_card l.length (fun x => keyAt l x ≤ κ)
    (fun s t hst ht hPt => le_trans (keyAt_mono l hsort s t hst ht) hPt)
    t ht).symm

theorem lt_cntKeyLT_iff (l : List (Simplex × ℚ))
    (hsort : l.Pairwise (fun x y => keyOf x ≤ keyOf y)) (κ : Lex (ℚ × ℕ))
    (t : ℕ) (ht : t < l.length) :
    t < cntKeyLT l κ ↔ keyAt l t < κ := by
  rw [cntKeyLT]
  exact (downclosed_iff_lt_card l.length (fun x => keyAt l x < κ)
    (fun s t hst ht hPt => lt_of_le_of_lt (keyAt_mono l hsort s t hst ht) hPt)
    t ht).symm

namespace FiltEquiv

variable {l l' : List (Simplex × ℚ)} {ρ : Equiv.Perm ℕ}

theorem rho_lt_cntKeyLE (h : FiltEquiv l l' ρ) (κ : Lex (ℚ × ℕ)) (t : ℕ) :
    ρ t < cntKeyLE l κ ↔ t < cntKeyLE l κ := by
  by_cases ht : t < l.length
  · rw [← h.cntKeyLE_eq κ]
    rw [lt_cntKeyLE_iff l' h.sorted' κ (ρ t) (h.len ▸ h.maps t ht)]
    rw [h.key t ht]
    rw [h.cntKeyLE_eq κ]
    rw [lt_cntKeyLE_iff l h.sorted κ t ht]
  · rw [h.fix t (by omega)]

theorem rho_lt_cntKeyLT (h : FiltEquiv l l' ρ) (κ : Lex (ℚ × ℕ)) (t : ℕ) :
    ρ t < cntKeyLT l κ ↔ t < cntKeyLT l κ := by
  by_cases ht : t < l.length
  · have hcle : cntKeyLT l κ ≤ l.length := by
      rw [cntKeyLT]
      calc ((Finset.range l.length).filter _).card
          ≤ (Finset.range l.length).card :=
            Finset.card_le_card (Finset.filter_subset _ _)
        _ = l.length := Finset.card_range _
    rw [← h.cntKeyLT_eq κ]
    rw [lt_cntKeyLT_iff l' h.sorted' κ (ρ t) (h.len ▸ h.maps t ht)]
    rw [h.key t ht]
    rw [h.cntKeyLT_eq κ]
    rw [lt_cntKeyLT_iff l h.sorted κ t ht]
  · rw [h.fix t (by omega)]

/-- Ranks of block-threshold submatrices agree along a filtration
equivalence. -/
theorem rk_eq (h : FiltEquiv l l' ρ) (a b : ℕ) (hb : b ≤ l.length)
    (hbrho : ∀ t, ρ t < b ↔ t < b) (harho : ∀ i, a ≤ ρ i ↔ a ≤ i) :
    rk l' a b = rk l a b := by
  classical
  set E : (ℕ → ZMod 2) ≃ₗ[ZMod 2] (ℕ → ZMod 2) :=
    LinearEquiv.funCongrLeft (ZMod 2) (ZMod 2) ρ.symm with hE
  have hEapp : ∀ (v : ℕ → ZMod 2) (i : ℕ), E v i = v (ρ.symm i) := by
    intro v i
    rw [hE, LinearEquiv.funCongrLeft_apply, LinearMap.funLeft_apply]
  have hvecimg : ∀ c : Finset ℕ, vecOf (c.image ρ) = E (vecOf c) := by
    intro c
    funext i
    rw [hEapp]
    have hmem : i ∈ c.image ρ ↔ ρ.symm i ∈ c := by
      rw [Finset.mem_image]
      constructor
      · rintro ⟨x, hx, rfl⟩
        rwa [Equiv.symm_apply_apply]
      · intro hx
        exact ⟨ρ.symm i, hx, Equiv.apply_symm_apply ρ i⟩
    rw [vecOf, vecOf]
    by_cases hi : ρ.symm i ∈ c
    · rw [if_pos hi, if_pos (hmem.mpr hi)]
    · rw [if_neg hi, if_neg (fun hc => hi (hmem.mp hc))]
  have hproj : ∀ v : ℕ → ZMod 2, projGE a (E v) = E (projGE a v) := by
    intro v
    funext i
    have hcond : (a ≤ i) ↔ (a ≤ ρ.symm i) := by
      have := harho (ρ.symm i)
      rwa [Equiv.apply_symm_apply] at this
    rw [hEapp]
    show (if a ≤ i then (E v) i else 0) = _
    rw [hEapp]
    show _ = (if a ≤ ρ.symm i then v (ρ.symm i) else 0)
    by_cases hi : a ≤ i
    · rw [if_pos hi, if_pos (hcond.mp hi)]
    · rw [if_neg hi, if_neg (fun hc => hi (hcond.mpr hc))]
  have hBvec : ∀ t, t < l.length → Bvec l' (ρ t) = E (Bvec l t) := by
    intro t ht
    rw [Bvec, Bvec, h.bnd t ht, hvecimg]
  have hsets : (fun j => projGE a (Bvec l' j)) '' Set.Iio b =
      (⇑E) '' ((fun j => projGE a (Bvec l j)) '' Set.Iio b) := by
    ext x
    constructor
    · rintro ⟨k, hk, rfl⟩
      have hkb : k < b := Set.mem_Iio.mp hk
      set t := ρ.symm k with htdf
      have hρt : ρ t = k := Equiv.apply_symm_apply ρ k
      have htb : t < b := by
        rw [← hbrho t, hρt]
        exact hkb
      have htm : t < l.length := by
        have := h.symm_maps k (by omega)
        exact this
      refine ⟨projGE a (Bvec l t), ⟨t, Set.mem_Iio.mpr htb, rfl⟩, ?_⟩
      rw [← hproj, ← hBvec t htm, hρt]
    · rintro ⟨y, ⟨t, ht, rfl⟩, rfl⟩
      have htb : t < b := Set.mem_Iio.mp ht
      have htm : t < l.length := by omega
      refine ⟨ρ t, Set.mem_Iio.mpr ((hbrho t).mpr htb), ?_⟩
      show projGE a (Bvec l' (ρ t)) = E (projGE a (Bvec l t))
      rw [hBvec t htm, hproj]
  have hspan : spanB l' a b = Submodule.map E.toLinearMap (spanB l a b) := by
    rw [spanB, spanB, hsets, ← Submodule.span_image]
    rfl
  rw [rk, rk, hspan]
  exact LinearEquiv.finrank_map_eq E (spanB l a b)

/-- Pivot counts at transfer-stable thresholds agree along a filtration
equivalence. -/
theorem pivCount_eq (h : FiltEquiv l l' ρ) (a b : ℕ) (hb : b ≤ l.length)
    (hbrho : ∀ t, ρ t < b ↔ t < b) (harho : ∀ i, a ≤ ρ i ↔ a ≤ i) :
    pivCount l' a b = pivCount l a b := by
  rw [← rk_eq_pivCount l a b hb, ← rk_eq_pivCount l' a b (h.len ▸ hb)]
  exact h.rk_eq a b hb hbrho harho

end FiltEquiv

/-! ## Value thresholds -/

/-- Number of positions with filtration value strictly below `v`. -/
def cntValLT (l : List (Simplex × ℚ)) (v : ℚ) : ℕ :=
  ((Finset.range l.length).filter (fun t => valueAt l t < v)).card

/-- Number of positions with filtration value at most `v`. -/
def cntValLE (l : List (Simplex × ℚ)) (v : ℚ) : ℕ :=
  ((Finset.range l.length).filter (fun t => valueAt l t ≤ v)).card

theorem valueAt_mono (l : List (Simplex × ℚ))
    (hsort : l.Pairwise (fun x y => keyOf x ≤ keyOf y))
    (s t : ℕ) (hst : s ≤ t) (ht : t < l.length) :
    valueAt l s ≤ valueAt l t := by
  have hk := keyAt_mono l hsort s t hst ht
  rw [keyAt, keyAt, keyOf, keyOf, Prod.Lex.le_iff] at hk
  rcases hk with hk | ⟨hk, _⟩
  · exact le_of_lt hk
  · exact le_of_eq hk

theorem lt_cntValLE_iff (l : List (Simplex × ℚ))
    (hsort : l.Pairwise (fun x y => keyOf x ≤ keyOf y)) (v : ℚ)
    (t : ℕ) (ht : t < l.length) :
    t < cntValLE l v ↔ valueAt l t ≤ v := by
  rw [cntValLE]
  exact (downclosed_iff_lt_card l.length (fun x => valueAt l x ≤ v)
    (fun s t hst ht hPt => le_trans (valueAt_mono l hsort s t hst ht) hPt)
    t ht).symm

theorem lt_cntValLT_iff (l : List (Simplex × ℚ))
    (hsort : l.Pairwise (fun x y => keyOf x ≤ keyOf y)) (v : ℚ)
    (t : ℕ) (ht : t < l.length) :
    t < cntValLT l v ↔ valueAt l t < v := by
  rw [cntValLT]
  exact (downclosed_iff_lt_card l.length (fun x => valueAt l x < v)
    (fun s t hst ht hPt => lt_of_le_of_lt (valueAt_mono l hsort s t hst ht) hPt)
    t ht).symm

theorem val_interval (l : List (Simplex × ℚ))
    (hsort : l.Pairwise (fun x y => keyOf x ≤ keyOf y)) (v : ℚ)
    (t : ℕ) (ht : t < l.length) :
    valueAt l t = v ↔ (cntValLT l v ≤ t ∧ t < cntValLE l v) := by
  constructor
  · intro hv
    refine ⟨?_, (lt_cntValLE_iff l hsort v t ht).mpr (le_of_eq hv)⟩
    have : ¬ (valueAt l t < v) := by rw [hv]; exact lt_irrefl v
    rw [← lt_cntValLT_iff l hsort v t ht] at this
    omega
  · rintro ⟨h1, h2⟩
    have hle := (lt_cntValLE_iff l hsort v t ht).mp h2
    have hnlt : ¬ (valueAt l t < v) := by
      rw [← lt_cntValLT_iff l hsort v t ht]
      omega
    exact le_antisymm hle (not_lt.mp hnlt)

theorem cntValLE_le_length (l : List (Simplex × ℚ)) (v : ℚ) :
    cntValLE l v ≤ l.length := by
  rw [cntValLE]
  calc ((Finset.range l.length).filter _).card
      ≤ (Finset.range l.length).card :=
        Finset.card_le_card (Finset.filter_subset _ _)
    _ = l.length := Finset.card_range _

theorem cntValLT_le_cntValLE (l : List (Simplex × ℚ)) (v : ℚ) :
    cntValLT l v ≤ cntValLE l v := by
  rw [cntValLT, cntValLE]
  apply Finset.card_le_card
  intro t hmem
  rw [Finset.mem_filter] at hmem ⊢
  exact ⟨hmem.1, le_of_lt hmem.2⟩

namespace FiltEquiv

variable {l l' : List (Simplex × ℚ)} {ρ : Equiv.Perm ℕ}

theorem val_rho (h : FiltEquiv l l' ρ) (t : ℕ) (ht : t < l.length) :
    valueAt l' (ρ t) = valueAt l t := by
  have := h.key t ht
  rw [keyAt, keyAt, keyOf, keyOf] at this
  exact congrArg Prod.fst (toLex.injective this)

theorem cntValLE_eq (h : FiltEquiv l l' ρ) (v : ℚ) :
    cntValLE l' v = cntValLE l v := by
  rw [cntValLE, cntValLE, h.len]
  exact (h.card_filter_eq _ _ (fun t ht => by rw [h.val_rho t ht])).symm

theorem cntValLT_eq (h : FiltEquiv l l' ρ) (v : ℚ) :
    cntValLT l' v = cntValLT l v := by
  rw [cntValLT, cntValLT, h.len]
  exact (h.card_filter_eq _ _ (fun t ht => by rw [h.val_rho t ht])).symm

theorem rho_lt_cntValLE (h : FiltEquiv l l' ρ) (v : ℚ) (t : ℕ) :
    ρ t < cntValLE l v ↔ t < cntValLE l v := by
  by_cases ht : t < l.length
  · rw [← h.cntValLE_eq v]
    rw [lt_cntValLE_iff l' h.sorted' v (ρ t) (h.len ▸ h.maps t ht)]
    rw [h.val_rho t ht]
    rw [h.cntValLE_eq v]
    rw [lt_cntValLE_iff l h.sorted v t ht]
  · rw [h.fix t (by omega)]

theorem rho_lt_cntValLT (h : FiltEquiv l l' ρ) (v : ℚ) (t : ℕ) :
    ρ t < cntValLT l v ↔ t < cntValLT l v := by
  by_cases ht : t < l.length
  · rw [← h.cntValLT_eq v]
    rw [lt_cntValLT_iff l' h.sorted' v (ρ t) (h.len ▸ h.maps t ht)]
    rw [h.val_rho t ht]
    rw [h.cntValLT_eq v]
    rw [lt_cntValLT_iff l h.sorted v t ht]
  · rw [h.fix t (by omega)]

theorem rho_lt_length (h : FiltEquiv l l' ρ) (t : ℕ) :
    ρ t < l.length ↔ t < l.length := by
  constructor
  · intro hlt
    by_contra hge
    rw [h.fix t (by omega)] at hlt
    omega
  · exact h.maps t

end FiltEquiv

/-! ## Counting helpers for lists -/

theorem count_filterMap_eq_countP {α β : Type} [BEq β]
    (g : α → Option β) (l : List α) (b : β) :
    (l.filterMap g).count b =
      l.countP (fun a => (g a).any (fun y => y == b)) := by
  induction l with
  | nil => rfl
  | cons x xs ih =>
    rw [List.filterMap_cons, List.countP_cons]
    cases hg : g x with
    | none =>
      rw [ih]
      simp [hg]
    | some y =>
      rw [List.count_cons, ih]
      simp [hg]

theorem countP_range_eq_card (m : ℕ) (p : ℕ → Bool) :
    (List.range m).countP p =
      ((Finset.range m).filter (fun t => p t = true)).card := by
  induction m with
  | zero => rfl
  | succ m ih =>
    rw [List.range_succ, List.countP_append, Finset.range_succ,
      Finset.filter_insert]
    by_cases hp : p m = true
    · rw [if_pos hp]
      rw [Finset.card_insert_of_not_mem (by simp)]
      simp [hp, ih]
    · rw [if_neg hp]
      simp [List.countP_cons, hp, ih]

/-! ## Diagram point counts as submatrix-rank data -/

theorem pairOf_nz (l : List (Simplex × ℚ)) (j : ℕ) (h : (Rcol l j).Nonempty) :
    pairOf l j = some (lowOf l j, j) := by
  obtain ⟨p, hp⟩ := Finset.max_of_nonempty h
  rw [pairOf, hp]
  have : lowOf l j = p := by rw [lowOf, hp, WithBot.unbot'_coe]
  rw [this]

theorem pairOf_z (l : List (Simplex × ℚ)) (j : ℕ) (h : Rcol l j = ∅) :
    pairOf l j = none := by
  rw [pairOf, h]
  rfl

theorem lowOf_lt_self (l : List (Simplex × ℚ)) (j : ℕ) (hj : j < l.length)
    (h : (Rcol l j).Nonempty) : lowOf l j < j := by
  obtain ⟨p, hp⟩ := Finset.max_of_nonempty h
  have hlow : lowOf l j = p := by rw [lowOf, hp, WithBot.unbot'_coe]
  have hpair : (p, j) ∈ (runReduction l).pairs :=
    (mem_pairs_iff l p j).mpr ⟨hj, hp⟩
  have := ((inv_runReduction l).pairsLt _ hpair).1
  omega

theorem diagram_finite_count (l : List (Simplex × ℚ)) (cap q : ℕ) (u v : ℚ) :
    (diagramAt ⟨l, cap⟩ q).count (u, (v : WithTop ℚ)) =
      ((Finset.range l.length).filter (fun j => (Rcol l j).Nonempty ∧
        (simplexAt l (lowOf l j)).dim = q ∧ valueAt l (lowOf l j) = u ∧
        valueAt l j = v ∧ u < v)).card := by
  classical
  simp only [diagramAt]
  rw [List.count_append]
  have hess : (((essentialIdx (runReduction l)).filterMap (fun i =>
      if (simplexAt l i).dim = q then some (valueAt l i, (⊤ : WithTop ℚ))
      else none)).count (u, (v : WithTop ℚ))) = 0 := by
    rw [List.count_eq_zero]
    intro hmem
    obtain ⟨i, _, hsome⟩ := List.mem_filterMap.mp hmem
    split at hsome
    · have := congrArg Prod.snd (Option.some_injective _ hsome)
      simp at this
    · cases hsome
  rw [hess, Nat.add_zero]
  rw [runReduction, (stepUpTo_char l l.length).1]
  rw [List.filterMap_filterMap]
  rw [count_filterMap_eq_countP, countP_range_eq_card]
  congr 1
  apply Finset.filter_congr
  intro j hj
  rw [Finset.mem_range] at hj
  by_cases hnz : (Rcol l j).Nonempty
  · rw [pairOf_nz l j hnz, Option.some_bind]
    by_cases hifc : (simplexAt l (lowOf l j)).dim = q ∧
        valueAt l (lowOf l j) < valueAt l j
    · rw [if_pos hifc]
      show ((some (valueAt l (lowOf l j), (valueAt l j : WithTop ℚ))).any
        (fun y => y == (u, (v : WithTop ℚ)))) = true ↔ _
      rw [Option.any_some]
      rw [beq_iff_eq]
      constructor
      · intro heq
        have hu : valueAt l (lowOf l j) = u := congrArg Prod.fst heq
        have hv2 : (valueAt l j : WithTop ℚ) = (v : WithTop ℚ) :=
          congrArg Prod.snd heq
        have hv : valueAt l j = v := by exact_mod_cast hv2
        refine ⟨hnz, hifc.1, hu, hv, ?_⟩
        rw [← hu, ← hv]
        exact hifc.2
      · rintro ⟨_, hdim, hu, hv, huv⟩
        rw [hu, hv]
    · rw [if_neg hifc]
      show ((none : Option (ℚ × WithTop ℚ)).any
        (fun y => y == (u, (v : WithTop ℚ)))) = true ↔ _
      rw [Option.any_none]
      constructor
      · intro hfalse
        exact absurd hfalse (by simp)
      · rintro ⟨_, hdim, hu, hv, huv⟩
        exact absurd ⟨hdim, by rw [hu, hv]; exact huv⟩ hifc
  · have hz : Rcol l j = ∅ := Finset.not_nonempty_iff_eq_empty.mp hnz
    rw [pairOf_z l j hz, Option.none_bind]
    show ((none : Option (ℚ × WithTop ℚ)).any
      (fun y => y == (u, (v : WithTop ℚ)))) = true ↔ _
    rw [Option.any_none]
    constructor
    · intro hfalse
      exact absurd hfalse (by simp)
    · rintro ⟨hne, _⟩
      exact absurd hne hnz

theorem Rcol_max_eq (l : List (Simplex × ℚ)) (j : ℕ)
    (h : (Rcol l j).Nonempty) :
    (Rcol l j).max = ((lowOf l j : ℕ) : WithBot ℕ) := by
  obtain ⟨p, hp⟩ := Finset.max_of_nonempty h
  rw [hp, lowOf, hp, WithBot.unbot'_coe]
  rfl

theorem diagram_ess_count (l : List (Simplex × ℚ)) (cap q : ℕ) (u : ℚ) :
    (diagramAt ⟨l, cap⟩ q).count (u, (⊤ : WithTop ℚ)) =
      ((Finset.range l.length).filter (fun i => Rcol l i = ∅ ∧
        (∀ j, j < l.length → ¬((Rcol l j).Nonempty ∧ lowOf l j = i)) ∧
        (simplexAt l i).dim = q ∧ valueAt l i = u)).card := by
  classical
  simp only [diagramAt]
  rw [List.count_append]
  have hfin : (((runReduction l).pairs.filterMap (fun p =>
      if (simplexAt l p.1).dim = q ∧ valueAt l p.1 < valueAt l p.2 then
        some (valueAt l p.1, (valueAt l p.2 : WithTop ℚ))
      else none)).count (u, (⊤ : WithTop ℚ))) = 0 := by
    rw [List.count_eq_zero]
    intro hmem
    obtain ⟨p, _, hsome⟩ := List.mem_filterMap.mp hmem
    split at hsome
    · have := congrArg Prod.snd (Option.some_injective _ hsome)
      simp at this
    · cases hsome
  rw [hfin, Nat.zero_add]
  have hbir : (runReduction l).births =
      (List.range l.length).filter (fun j => Rcol l j = ∅) :=
    (stepUpTo_char l l.length).2.1
  rw [essentialIdx, hbir]
  rw [count_filterMap_eq_countP, List.countP_filter, List.countP_filter,
    countP_range_eq_card]
  congr 1
  apply Finset.filter_congr
  intro i hi
  rw [Finset.mem_range] at hi
  simp only [Bool.and_eq_true, decide_eq_true_eq, List.all_eq_true]
  constructor
  · rintro ⟨⟨hany, hall⟩, hzero⟩
    have hgess : (simplexAt l i).dim = q ∧ valueAt l i = u := by
      by_cases hdim : (simplexAt l i).dim = q
      · rw [if_pos hdim, Option.any_some, beq_iff_eq] at hany
        exact ⟨hdim, congrArg Prod.fst hany⟩
      · rw [if_neg hdim, Option.any_none] at hany
        cases hany
    refine ⟨hzero, ?_, hgess.1, hgess.2⟩
    rintro j hjm ⟨hjnz, hjlow⟩
    have hpair : (lowOf l j, j) ∈ (runReduction l).pairs :=
      (mem_pairs_iff l (lowOf l j) j).mpr ⟨hjm, Rcol_max_eq l j hjnz⟩
    exact hall (lowOf l j, j) hpair hjlow
  · rintro ⟨hzero, hnopair, hdim, hval⟩
    refine ⟨⟨?_, ?_⟩, hzero⟩
    · rw [if_pos hdim, Option.any_some, beq_iff_eq, hval]
    · intro p hp
      intro hpi
      have hmem : (p.1, p.2) ∈ (runReduction l).pairs := by
        rw [Prod.mk.eta]
        exact hp
      obtain ⟨hpm, hpmax⟩ := (mem_pairs_iff l p.1 p.2).mp hmem
      have hpnz : (Rcol l p.2).Nonempty := ⟨p.1, Finset.mem_of_max hpmax⟩
      have hplow : lowOf l p.2 = p.1 := by
        rw [lowOf, hpmax]
        rfl
      exact hnopair p.2 hpm ⟨hpnz, by rw [hplow, hpi]⟩

/-! ## Pivot rows determine death columns uniquely -/

theorem low_injective (l : List (Simplex × ℚ)) (j1 j2 : ℕ)
    (h1 : j1 < l.length) (h2 : j2 < l.length)
    (hn1 : (Rcol l j1).Nonempty) (hn2 : (Rcol l j2).Nonempty)
    (heq : lowOf l j1 = lowOf l j2) : j1 = j2 := by
  have hp1 : (lowOf l j1, j1) ∈ (runReduction l).pairs :=
    (mem_pairs_iff l _ j1).mpr ⟨h1, Rcol_max_eq l j1 hn1⟩
  have hp2 : (lowOf l j2, j2) ∈ (runReduction l).pairs :=
    (mem_pairs_iff l _ j2).mpr ⟨h2, Rcol_max_eq l j2 hn2⟩
  have hnd : ((runReduction l).pairs.map Prod.fst).Nodup :=
    (inv_runReduction l).firstsNodup
  have hpp := List.inj_on_of_nodup_map hnd hp1 hp2 heq
  exact congrArg Prod.snd hpp

/-- A position carries a `q`-simplex of value `u` iff its index lies in the
key interval of `(u, q+1)`. -/
theorem dim_val_iff_interval (l : List (Simplex × ℚ))
    (hsort : l.Pairwise (fun x y => keyOf x ≤ keyOf y))
    (hlen1 : ∀ t, t < l.length → 1 ≤ (simplexAt l t).length)
    (q : ℕ) (u : ℚ) (i : ℕ) (hi : i < l.length) :
    ((simplexAt l i).dim = q ∧ valueAt l i = u) ↔
      (cntKeyLT l (toLex (u, q + 1)) ≤ i ∧
        i < cntKeyLE l (toLex (u, q + 1))) := by
  rw [← key_interval l hsort (toLex (u, q + 1)) i hi]
  have hkey : keyAt l i = toLex (valueAt l i, (simplexAt l i).length) := rfl
  rw [hkey]
  have hl1 := hlen1 i hi
  constructor
  · rintro ⟨hd, hv⟩
    rw [Simplex.dim] at hd
    have hlen : (simplexAt l i).length = q + 1 := by omega
    rw [hv, hlen]
  · intro hk
    have hinj := toLex.injective hk
    have hvv : valueAt l i = u := congrArg Prod.fst hinj
    have hll : (simplexAt l i).length = q + 1 := congrArg Prod.snd hinj
    refine ⟨?_, hvv⟩
    rw [Simplex.dim]
    omega

/-- The multiplicity of a finite diagram point as the cardinality of a pivot
rectangle determined by key and value thresholds. -/
theorem finite_count_formula (l : List (Simplex × ℚ))
    (hsort : l.Pairwise (fun x y => keyOf x ≤ keyOf y))
    (hlen1 : ∀ t, t < l.length → 1 ≤ (simplexAt l t).length)
    (cap q : ℕ) (u v : ℚ) (huv : u < v) :
    (diagramAt ⟨l, cap⟩ q).count (u, (v : WithTop ℚ)) =
      ((Finset.range (cntValLE l v)).filter (fun k => cntValLT l v ≤ k ∧
        (Rcol l k).Nonempty ∧ cntKeyLT l (toLex (u, q + 1)) ≤ lowOf l k ∧
        lowOf l k < cntKeyLE l (toLex (u, q + 1)))).card := by
  classical
  rw [diagram_finite_count]
  apply congrArg Finset.card
  ext j
  simp only [Finset.mem_filter, Finset.mem_range]
  constructor
  · rintro ⟨hjL, hnz, hd, hvu, hvj, _⟩
    have hvint := (val_interval l hsort v j hjL).mp hvj
    have hlowL : lowOf l j < l.length :=
      lt_trans (lowOf_lt_self l j hjL hnz) hjL
    have hkint := (dim_val_iff_interval l hsort hlen1 q u _ hlowL).mp ⟨hd, hvu⟩
    exact ⟨hvint.2, hvint.1, hnz, hkint.1, hkint.2⟩
  · rintro ⟨hjb2, hb1j, hnz, ha1, ha2⟩
    have hjL : j < l.length := lt_of_lt_of_le hjb2 (cntValLE_le_length l v)
    have hvj : valueAt l j = v := (val_interval l hsort v j hjL).mpr ⟨hb1j, hjb2⟩
    have hlowL : lowOf l j < l.length :=
      lt_trans (lowOf_lt_self l j hjL hnz) hjL
    have hdv := (dim_val_iff_interval l hsort hlen1 q u _ hlowL).mpr ⟨ha1, ha2⟩
    exact ⟨hjL, hnz, hdv.1, hdv.2, hvj, huv⟩

/-- Additive identity expressing the multiplicity of an essential diagram
point through pivot counts and key thresholds. -/
theorem ess_count_identity (l : List (Simplex × ℚ))
    (hsort : l.Pairwise (fun x y => keyOf x ≤ keyOf y))
    (hlen1 : ∀ t, t < l.length → 1 ≤ (simplexAt l t).length)
    (hdd : ∀ j, chainBoundary l (boundaryCol l j) = 0)
    (cap q : ℕ) (u : ℚ) :
    (diagramAt ⟨l, cap⟩ q).count (u, (⊤ : WithTop ℚ))
        + pivCount l (cntKeyLT l (toLex (u, q + 1))) l.length
        + pivCount l 0 (cntKeyLE l (toLex (u, q + 1)))
        + cntKeyLT l (toLex (u, q + 1))
      = cntKeyLE l (toLex (u, q + 1))
        + pivCount l (cntKeyLE l (toLex (u, q + 1))) l.length
        + pivCount l 0 (cntKeyLT l (toLex (u, q + 1))) := by
  classical
  set κ : Lex (ℚ × ℕ) := toLex (u, q + 1) with hκ
  set a1 := cntKeyLT l κ with ha1
  set a2 := cntKeyLE l κ with ha2
  have ha12 : a1 ≤ a2 := cntKeyLT_le_cntKeyLE l κ
  have ha2L : a2 ≤ l.length := cntKeyLE_le_length l κ
  rw [diagram_ess_count]
  have hEset : ((Finset.range l.length).filter (fun i => Rcol l i = ∅ ∧
        (∀ j, j < l.length → ¬((Rcol l j).Nonempty ∧ lowOf l j = i)) ∧
        (simplexAt l i).dim = q ∧ valueAt l i = u))
      = ((Finset.range l.length).filter (fun i => (a1 ≤ i ∧ i < a2) ∧
          Rcol l i = ∅ ∧
          (∀ j, j < l.length → ¬((Rcol l j).Nonempty ∧ lowOf l j = i)))) := by
    apply Finset.filter_congr
    intro i hi
    rw [Finset.mem_range] at hi
    rw [← dim_val_iff_interval l hsort hlen1 q u i hi]
    tauto
  rw [hEset]
  set Eset := (Finset.range l.length).filter (fun i => (a1 ≤ i ∧ i < a2) ∧
      Rcol l i = ∅ ∧
      (∀ j, j < l.length → ¬((Rcol l j).Nonempty ∧ lowOf l j = i))) with hEdef
  set Kset := (Finset.range l.length).filter (fun i => (a1 ≤ i ∧ i < a2) ∧
      Rcol l i = ∅ ∧
      ¬(∀ j, j < l.length → ¬((Rcol l j).Nonempty ∧ lowOf l j = i))) with hKdef
  set Zset := (Finset.range l.length).filter
      (fun i => (a1 ≤ i ∧ i < a2) ∧ Rcol l i = ∅) with hZdef
  set Nset := (Finset.range l.length).filter (fun k => (Rcol l k).Nonempty ∧
      a1 ≤ lowOf l k ∧ lowOf l k < a2) with hNdef
  set Iset := (Finset.range l.length).filter
      (fun i => a1 ≤ i ∧ i < a2) with hIdef
  set NZIset := (Finset.range l.length).filter
      (fun i => (a1 ≤ i ∧ i < a2) ∧ (Rcol l i).Nonempty) with hNZIdef
  -- partition of the zero columns in the interval into essential and killed
  have hE2 : Eset = Zset.filter
      (fun i => ∀ j, j < l.length → ¬((Rcol l j).Nonempty ∧ lowOf l j = i)) := by
    rw [hEdef, hZdef, Finset.filter_filter]
    apply Finset.filter_congr
    intro i _
    tauto
  have hK2 : Kset = Zset.filter
      (fun i => ¬ ∀ j, j < l.length → ¬((Rcol l j).Nonempty ∧ lowOf l j = i)) := by
    rw [hKdef, hZdef, Finset.filter_filter]
    apply Finset.filter_congr
    intro i _
    tauto
  have hEK : Eset.card + Kset.card = Zset.card := by
    rw [hE2, hK2]
    exact Finset.filter_card_add_filter_neg_card_eq_card _
  -- killed creators are in bijection with deaths whose pivot lies in the interval
  have hKN : Nset.card = Kset.card := by
    apply Finset.card_bij (fun j _ => lowOf l j)
    · intro j hj
      rw [hNdef, Finset.mem_filter, Finset.mem_range] at hj
      obtain ⟨hjL, hnz, hla1, hla2⟩ := hj
      rw [hKdef, Finset.mem_filter, Finset.mem_range]
      have hlowL : lowOf l j < l.length :=
        lt_trans (lowOf_lt_self l j hjL hnz) hjL
      refine ⟨hlowL, ⟨hla1, hla2⟩, low_is_creator l hdd j hjL hnz, ?_⟩
      intro hall
      exact hall j hjL ⟨hnz, rfl⟩
    · intro j1 hj1 j2 hj2 heq
      rw [hNdef, Finset.mem_filter, Finset.mem_range] at hj1 hj2
      exact low_injective l j1 j2 hj1.1 hj2.1 hj1.2.1 hj2.2.1 heq
    · intro i hi
      rw [hKdef, Finset.mem_filter, Finset.mem_range] at hi
      obtain ⟨hiL, hint, hzero, hex⟩ := hi
      push_neg at hex
      obtain ⟨j, hjL, hnz, hlow⟩ := hex
      refine ⟨j, ?_, hlow⟩
      rw [hNdef, Finset.mem_filter, Finset.mem_range]
      refine ⟨hjL, hnz, ?_, ?_⟩
      · rw [hlow]
        exact hint.1
      · rw [hlow]
        exact hint.2
  -- deaths with pivot in the interval, counted by the rectangle identity
  have hrect := pivCount_rect l a1 a2 0 l.length ha12 (Nat.zero_le _)
  have hrN : ((Finset.range l.length).filter (fun k => 0 ≤ k ∧
      (Rcol l k).Nonempty ∧ a1 ≤ lowOf l k ∧ lowOf l k < a2)).card
      = Nset.card := by
    rw [hNdef]
    apply congrArg Finset.card
    apply Finset.filter_congr
    intro k _
    simp [Nat.zero_le]
  rw [hrN, pivCount_zero_b, pivCount_zero_b] at hrect
  -- the interval has a2 - a1 positions
  have hIcard : Iset.card + a1 = a2 := by
    have hI2 : Iset = Finset.Ico a1 a2 := by
      rw [hIdef]
      ext i
      simp only [Finset.mem_filter, Finset.mem_range, Finset.mem_Ico]
      omega
    rw [hI2, Nat.card_Ico]
    omega
  -- the interval splits into zero and nonzero columns
  have hZ2 : Zset = Iset.filter (fun i => Rcol l i = ∅) := by
    rw [hZdef, hIdef, Finset.filter_filter]
  have hNZ2 : NZIset = Iset.filter (fun i => ¬ Rcol l i = ∅) := by
    rw [hNZIdef, hIdef, Finset.filter_filter]
    apply Finset.filter_congr
    intro i _
    rw [Finset.nonempty_iff_ne_empty]
  have hZNZ : Zset.card + NZIset.card = Iset.card := by
    rw [hZ2, hNZ2]
    exact Finset.filter_card_add_filter_neg_card_eq_card _
  -- nonzero columns below a threshold are counted by pivCount at row 0
  have hpc0 : ∀ b, pivCount l 0 b =
      ((Finset.range b).filter (fun k => (Rcol l k).Nonempty)).card := by
    intro b
    rw [pivCount]
    apply congrArg Finset.card
    apply Finset.filter_congr
    intro k _
    simp [Nat.zero_le]
  have hNZsplit : NZIset.card + pivCount l 0 a1 = pivCount l 0 a2 := by
    rw [hpc0 a1, hpc0 a2]
    have hsplit := @Finset.filter_card_add_filter_neg_card_eq_card ℕ
      ((Finset.range a2).filter (fun k => (Rcol l k).Nonempty))
      (fun k => a1 ≤ k) (fun k => Nat.decLe a1 k) (fun k => instDecidableNot)
    have e1 : ((Finset.range a2).filter
        (fun k => (Rcol l k).Nonempty)).filter (fun k => a1 ≤ k) = NZIset := by
      rw [hNZIdef, Finset.filter_filter]
      ext k
      simp only [Finset.mem_filter, Finset.mem_range]
      constructor
      · rintro ⟨hk, hnz, hk1⟩
        exact ⟨lt_of_lt_of_le hk ha2L, ⟨hk1, hk⟩, hnz⟩
      · rintro ⟨hkL, ⟨hk1, hk2⟩, hnz⟩
        exact ⟨hk2, hnz, hk1⟩
    have e2 : ((Finset.range a2).filter
        (fun k => (Rcol l k).Nonempty)).filter (fun k => ¬ a1 ≤ k)
        = (Finset.range a1).filter (fun k => (Rcol l k).Nonempty) := by
      rw [Finset.filter_filter]
      ext k
      simp only [Finset.mem_filter, Finset.mem_range]
      constructor
      · rintro ⟨hk2, hnz, hk1⟩
        exact ⟨by omega, hnz⟩
      · rintro ⟨hk1, hnz⟩
        exact ⟨by omega, hnz, by omega⟩
    rw [e1, e2] at hsplit
    omega
  omega

theorem count_beq_bridge (pt : ℚ × WithTop ℚ) (L : List (ℚ × WithTop ℚ)) :
    @List.count _ instBEqOfDecidableEq pt L = List.count pt L := by
  induction L with
  | nil => rfl
  | cons x xs ih =>
    rw [@List.count_cons _ instBEqOfDecidableEq, List.count_cons, ih]
    have h2 : (x == pt) = @decide (x = pt) (instDecidableEqProd x pt) := by
      by_cases hx : x = pt
      · rw [hx]
        simp
      · rw [decide_eq_false hx]
        exact beq_eq_false_iff_ne.mpr hx
    have h1 : (@BEq.beq _ instBEqOfDecidableEq x pt)
        = @decide (x = pt) (instDecidableEqProd x pt) := rfl
    rw [h1, h2]

/-- Diagram point multiplicities agree along a filtration equivalence. -/
theorem FiltEquiv.diagram_count_eq {l l' : List (Simplex × ℚ)}
    {ρ : Equiv.Perm ℕ} (h : FiltEquiv l l' ρ)
    (hdd : ∀ j, chainBoundary l (boundaryCol l j) = 0)
    (hdd' : ∀ j, chainBoundary l' (boundaryCol l' j) = 0)
    (hlen1 : ∀ t, t < l.length → 1 ≤ (simplexAt l t).length)
    (cap q : ℕ) (pt : ℚ × WithTop ℚ) :
    (diagramAt ⟨l', cap⟩ q).count pt = (diagramAt ⟨l, cap⟩ q).count pt := by
  classical
  have hlen1' : ∀ t, t < l'.length → 1 ≤ (simplexAt l' t).length := by
    intro t ht
    rw [h.len] at ht
    rw [h.lengthAt_eq t ht]
    exact hlen1 t ht
  obtain ⟨u, vt⟩ := pt
  cases vt with
  | top =>
    show (diagramAt ⟨l', cap⟩ q).count (u, (⊤ : WithTop ℚ))
        = (diagramAt ⟨l, cap⟩ q).count (u, (⊤ : WithTop ℚ))
    have hI := ess_count_identity l h.sorted hlen1 hdd cap q u
    have hI' := ess_count_identity l' h.sorted' hlen1' hdd' cap q u
    rw [h.cntKeyLT_eq, h.cntKeyLE_eq, h.len] at hI'
    have e1 : pivCount l' (cntKeyLT l (toLex (u, q + 1))) l.length
        = pivCount l (cntKeyLT l (toLex (u, q + 1))) l.length :=
      h.pivCount_eq _ _ (le_refl _) (fun t => h.rho_lt_length t)
        (fun i => by
          have hx := h.rho_lt_cntKeyLT (toLex (u, q + 1)) i
          omega)
    have e2 : pivCount l' (cntKeyLE l (toLex (u, q + 1))) l.length
        = pivCount l (cntKeyLE l (toLex (u, q + 1))) l.length :=
      h.pivCount_eq _ _ (le_refl _) (fun t => h.rho_lt_length t)
        (fun i => by
          have hx := h.rho_lt_cntKeyLE (toLex (u, q + 1)) i
          omega)
    have e3 : pivCount l' 0 (cntKeyLE l (toLex (u, q + 1)))
        = pivCount l 0 (cntKeyLE l (toLex (u, q + 1))) :=
      h.pivCount_eq _ _ (cntKeyLE_le_length l _)
        (fun t => h.rho_lt_cntKeyLE (toLex (u, q + 1)) t)
        (fun i => by omega)
    have e4 : pivCount l' 0 (cntKeyLT l (toLex (u, q + 1)))
        = pivCount l 0 (cntKeyLT l (toLex (u, q + 1))) :=
      h.pivCount_eq _ _
        (le_trans (cntKeyLT_le_cntKeyLE l _) (cntKeyLE_le_length l _))
        (fun t => h.rho_lt_cntKeyLT (toLex (u, q + 1)) t)
        (fun i => by omega)
    rw [e1, e2, e3, e4] at hI'
    omega
  | coe v =>
    show (diagramAt ⟨l', cap⟩ q).count (u, (v : WithTop ℚ))
        = (diagramAt ⟨l, cap⟩ q).count (u, (v : WithTop ℚ))
    by_cases huv : u < v
    · rw [finite_count_formula l h.sorted hlen1 cap q u v huv,
        finite_count_formula l' h.sorted' hlen1' cap q u v huv]
      rw [h.cntValLT_eq, h.cntValLE_eq, h.cntKeyLT_eq, h.cntKeyLE_eq]
      have ha12 : cntKeyLT l (toLex (u, q + 1)) ≤ cntKeyLE l (toLex (u, q + 1)) :=
        cntKeyLT_le_cntKeyLE l _
      have hb12 : cntValLT l v ≤ cntValLE l v := cntValLT_le_cntValLE l v
      have hb2L : cntValLE l v ≤ l.length := cntValLE_le_length l v
      have hr := pivCount_rect l (cntKeyLT l (toLex (u, q + 1)))
        (cntKeyLE l (toLex (u, q + 1))) (cntValLT l v) (cntValLE l v) ha12 hb12
      have hr' := pivCount_rect l' (cntKeyLT l (toLex (u, q + 1)))
        (cntKeyLE l (toLex (u, q + 1))) (cntValLT l v) (cntValLE l v) ha12 hb12
      have e1 : pivCount l' (cntKeyLE l (toLex (u, q + 1))) (cntValLE l v)
          = pivCount l (cntKeyLE l (toLex (u, q + 1))) (cntValLE l v) :=
        h.pivCount_eq _ _ hb2L (fun t => h.rho_lt_cntValLE v t)
          (fun i => by
            have hx := h.rho_lt_cntKeyLE (toLex (u, q + 1)) i
            omega)
      have e2 : pivCount l' (cntKeyLT l (toLex (u, q + 1))) (cntValLT l v)
          = pivCount l (cntKeyLT l (toLex (u, q + 1))) (cntValLT l v) :=
        h.pivCount_eq _ _ (le_trans hb12 hb2L) (fun t => h.rho_lt_cntValLT v t)
          (fun i => by
            have hx := h.rho_lt_cntKeyLT (toLex (u, q + 1)) i
            omega)
      have e3 : pivCount l' (cntKeyLT l (toLex (u, q + 1))) (cntValLE l v)
          = pivCount l (cntKeyLT l (toLex (u, q + 1))) (cntValLE l v) :=
        h.pivCount_eq _ _ hb2L (fun t => h.rho_lt_cntValLE v t)
          (fun i => by
            have hx := h.rho_lt_cntKeyLT (toLex (u, q + 1)) i
            omega)
      have e4 : pivCount l' (cntKeyLE l (toLex (u, q + 1))) (cntValLT l v)
          = pivCount l (cntKeyLE l (toLex (u, q + 1))) (cntValLT l v) :=
        h.pivCount_eq _ _ (le_trans hb12 hb2L) (fun t => h.rho_lt_cntValLT v t)
          (fun i => by
            have hx := h.rho_lt_cntKeyLE (toLex (u, q + 1)) i
            omega)
      omega
    · rw [diagram_finite_count, diagram_finite_count]
      have hz : ∀ m : List (Simplex × ℚ), ((Finset.range m.length).filter
          (fun j => (Rcol m j).Nonempty ∧ (simplexAt m (lowOf m j)).dim = q ∧
            valueAt m (lowOf m j) = u ∧ valueAt m j = v ∧ u < v)) = ∅ := by
        intro m
        apply Finset.filter_false_of_mem
        intro j _ hp
        exact huv hp.2.2.2.2
      rw [hz, hz]

/-- Diagrams of key- and boundary-equivalent filtrations are permutations of
one another. -/
theorem FiltEquiv.diagram_perm {l l' : List (Simplex × ℚ)}
    {ρ : Equiv.Perm ℕ} (h : FiltEquiv l l' ρ)
    (hdd : ∀ j, chainBoundary l (boundaryCol l j) = 0)
    (hdd' : ∀ j, chainBoundary l' (boundaryCol l' j) = 0)
    (hlen1 : ∀ t, t < l.length → 1 ≤ (simplexAt l t).length)
    (cap q : ℕ) :
    (diagramAt ⟨l', cap⟩ q).Perm (diagramAt ⟨l, cap⟩ q) := by
  rw [List.perm_iff_count]
  intro pt
  rw [count_beq_bridge, count_beq_bridge]
  exact h.diagram_count_eq hdd hdd' hlen1 cap q pt

/-! ## Combinatorics of facets of strictly increasing simplices -/

theorem eq_eraseIdx_of_sublist (r s : List ℕ) (hsub : r.Sublist s)
    (hlen : r.length + 1 = s.length) :
    ∃ k, k < s.length ∧ r = s.eraseIdx k := by
  induction hsub with
  | slnil => simp at hlen
  | @cons r' s' a hsub ih =>
    rw [List.length_cons] at hlen
    have hrs : r' = s' := hsub.eq_of_length (by omega)
    exact ⟨0, by simp, by rw [hrs]; rfl⟩
  | @cons₂ r' s' a hsub ih =>
    rw [List.length_cons, List.length_cons] at hlen
    obtain ⟨k, hk, hek⟩ := ih (by omega)
    refine ⟨k + 1, by simp; omega, ?_⟩
    rw [List.eraseIdx_cons_succ, hek]

theorem mem_facets_iff (r s : List ℕ) :
    r ∈ facets s ↔ r.Sublist s ∧ r.length + 1 = s.length := by
  rw [facets, List.mem_map]
  constructor
  · rintro ⟨k, hk, hek⟩
    rw [List.mem_range] at hk
    refine ⟨hek ▸ List.eraseIdx_sublist s k, ?_⟩
    rw [← hek, List.length_eraseIdx, if_pos hk]
    omega
  · rintro ⟨hsub, hlen⟩
    obtain ⟨k, hk, hek⟩ := eq_eraseIdx_of_sublist r s hsub hlen
    exact ⟨k, List.mem_range.mpr hk, hek.symm⟩

theorem sublist_of_subset_sorted (r s : List ℕ)
    (hr : List.Pairwise (· < ·) r) (hs : List.Pairwise (· < ·) s)
    (hsub : ∀ a, a ∈ r → a ∈ s) : r.Sublist s := by
  induction s generalizing r with
  | nil =>
    cases r with
    | nil => exact List.Sublist.refl _
    | cons b r' => exact absurd (hsub b (List.mem_cons_self _ _)) (List.not_mem_nil _)
  | cons a s' ih =>
    cases r with
    | nil => exact List.nil_sublist _
    | cons b r' =>
      rw [List.pairwise_cons] at hr hs
      by_cases hba : b = a
      · subst hba
        apply List.Sublist.cons₂
        apply ih r' hr.2 hs.2
        intro c hc
        have hcs : c ∈ b :: s' := hsub c (List.mem_cons_of_mem b hc)
        rcases List.mem_cons.mp hcs with hca | hcs'
        · exact absurd (hca ▸ hr.1 c hc) (lt_irrefl c)
        · exact hcs'
      · apply List.Sublist.cons
        apply ih (b :: r') (List.pairwise_cons.mpr hr) hs.2
        intro c hc
        have hcs : c ∈ a :: s' := hsub c hc
        rcases List.mem_cons.mp hcs with hca | hcs'
        · exfalso
          rcases List.mem_cons.mp hc with hcb | hcr
          · omega
          · have hbc : b < c := hr.1 c hcr
            have hbs : b ∈ a :: s' := hsub b (List.mem_cons_self _ _)
            rcases List.mem_cons.mp hbs with hba2 | hbs'
            · omega
            · have hab : a < b := hs.1 b hbs'
              omega
        · exact hcs'

theorem strictSorted_eq_of_toFinset_eq (r s : List ℕ)
    (hr : List.Pairwise (· < ·) r) (hs : List.Pairwise (· < ·) s)
    (he : r.toFinset = s.toFinset) : r = s := by
  have hrn : r.Nodup := hr.imp (fun h => Nat.ne_of_lt h)
  have hsn : s.Nodup := hs.imp (fun h => Nat.ne_of_lt h)
  have hperm := List.perm_of_nodup_nodup_toFinset_eq hrn hsn he
  have hanti : IsAntisymm ℕ (· < ·) :=
    ⟨fun a b h1 h2 => absurd h2 (lt_asymm h1)⟩
  exact @List.eq_of_perm_of_sorted ℕ (· < ·) hanti r s hperm hr hs

theorem diff_singleton (r s : List ℕ) (hnd : s.Nodup) (hsub : r.Sublist s)
    (hlen : r.length + 1 = s.length) :
    ∃ a, s.toFinset \ r.toFinset = {a} := by
  have hrd : r.Nodup := hsub.nodup hnd
  have hsubf : r.toFinset ⊆ s.toFinset := by
    intro a ha
    rw [List.mem_toFinset] at ha ⊢
    exact hsub.subset ha
  have hcard : (s.toFinset \ r.toFinset).card = 1 := by
    rw [Finset.card_sdiff hsubf, List.toFinset_card_of_nodup hnd,
      List.toFinset_card_of_nodup hrd]
    omega
  exact Finset.card_eq_one.mp hcard

/-! ## Bounds on the filtration value of a simplex -/

theorem mem_vertexPairs (s : Simplex) (p : ℕ × ℕ) :
    p ∈ vertexPairs s ↔ p.1 ∈ s ∧ p.2 ∈ s := by
  rw [vertexPairs, List.mem_flatMap]
  constructor
  · rintro ⟨i, hi, hp⟩
    rw [List.mem_map] at hp
    obtain ⟨j, hj, hpj⟩ := hp
    rw [← hpj]
    exact ⟨hi, hj⟩
  · rintro ⟨h1, h2⟩
    exact ⟨p.1, h1, List.mem_map.mpr ⟨p.2, h2, by rw [Prod.mk.eta]⟩⟩

theorem foldr_max_nonneg (dm : ℕ → ℕ → ℚ) (L : List (ℕ × ℕ)) :
    0 ≤ L.foldr (fun p acc => max (dm p.1 p.2) acc) 0 := by
  induction L with
  | nil => exact le_refl 0
  | cons p ps ih =>
    rw [List.foldr_cons]
    exact le_trans ih (le_max_right _ _)

theorem le_foldr_max (dm : ℕ → ℕ → ℚ) (L : List (ℕ × ℕ)) (p : ℕ × ℕ)
    (hp : p ∈ L) :
    dm p.1 p.2 ≤ L.foldr (fun p acc => max (dm p.1 p.2) acc) 0 := by
  induction L with
  | nil => cases hp
  | cons r ps ih =>
    rw [List.foldr_cons]
    rcases List.mem_cons.mp hp with hr | hps
    · rw [hr]
      exact le_max_left _ _
    · exact le_trans (ih hps) (le_max_right _ _)

theorem foldr_max_le (dm : ℕ → ℕ → ℚ) (L : List (ℕ × ℕ)) (c : ℚ) (h0 : 0 ≤ c)
    (h : ∀ p ∈ L, dm p.1 p.2 ≤ c) :
    L.foldr (fun p acc => max (dm p.1 p.2) acc) 0 ≤ c := by
  induction L with
  | nil => exact h0
  | cons p ps ih =>
    rw [List.foldr_cons]
    apply max_le (h p (List.mem_cons_self _ _))
    exact ih (fun r hr => h r (List.mem_cons_of_mem _ hr))

theorem simplexValue_nonneg (dm : ℕ → ℕ → ℚ) (s : Simplex) :
    0 ≤ simplexValue dm s := by
  rw [simplexValue]
  exact foldr_max_nonneg dm _

theorem le_simplexValue (dm : ℕ → ℕ → ℚ) (s : Simplex) (i j : ℕ)
    (hi : i ∈ s) (hj : j ∈ s) : dm i j ≤ simplexValue dm s := by
  rw [simplexValue]
  exact le_foldr_max dm _ (i, j) ((mem_vertexPairs s (i, j)).mpr ⟨hi, hj⟩)

theorem simplexValue_le (dm : ℕ → ℕ → ℚ) (s : Simplex) (c : ℚ) (h0 : 0 ≤ c)
    (h : ∀ i ∈ s, ∀ j ∈ s, dm i j ≤ c) : simplexValue dm s ≤ c := by
  rw [simplexValue]
  apply foldr_max_le dm _ c h0
  intro p hp
  obtain ⟨h1, h2⟩ := (mem_vertexPairs s p).mp hp
  exact h p.1 h1 p.2 h2

theorem simplexValue_mono (dm : ℕ → ℕ → ℚ) (r s : Simplex)
    (hsub : r.Sublist s) : simplexValue dm r ≤ simplexValue dm s := by
  apply simplexValue_le dm r _ (simplexValue_nonneg dm s)
  intro i hi j hj
  exact le_simplexValue dm s i j (hsub.subset hi) (hsub.subset hj)

/-! ## Membership and positions in a built filtration -/

theorem mem_buildFiltration_iff (n : ℕ) (dm : ℕ → ℕ → ℚ) (dMax : ℕ)
    (eps : Option ℚ) (s : Simplex) (v : ℚ) :
    (s, v) ∈ (buildFiltration n dm dMax eps).simplices ↔
      (s.Sublist (List.range n) ∧ 1 ≤ s.length ∧ s.length ≤ dMax + 2 ∧
        v = simplexValue dm s ∧ ∀ e, eps = some e → v ≤ e) := by
  cases eps with
  | none =>
    have hrfl : (buildFiltration n dm dMax none).simplices =
        (((List.range n).sublists.filter (fun t => decide (1 ≤ t.length) &&
          decide (t.length ≤ dMax + 2))).map
          (fun t => (t, simplexValue dm t))).insertionSort
          (fun a b => filtLE a b = true) := rfl
    rw [hrfl, (List.perm_insertionSort _ _).mem_iff, List.mem_map]
    constructor
    · rintro ⟨t, ht, hts⟩
      rw [List.mem_filter] at ht
      obtain ⟨htsub, hcond⟩ := ht
      rw [Bool.and_eq_true, decide_eq_true_eq, decide_eq_true_eq] at hcond
      cases hts
      refine ⟨List.mem_sublists.mp htsub, hcond.1, hcond.2, rfl, ?_⟩
      intro e he
      cases he
    · rintro ⟨hsub, h1, h2, hv, _⟩
      refine ⟨s, ?_, ?_⟩
      · rw [List.mem_filter]
        refine ⟨List.mem_sublists.mpr hsub, ?_⟩
        rw [Bool.and_eq_true, decide_eq_true_eq, decide_eq_true_eq]
        exact ⟨h1, h2⟩
      · rw [hv]
  | some e =>
    have hrfl : (buildFiltration n dm dMax (some e)).simplices =
        ((((List.range n).sublists.filter (fun t => decide (1 ≤ t.length) &&
          decide (t.length ≤ dMax + 2))).map
          (fun t => (t, simplexValue dm t))).filter
          (fun a => decide (a.2 ≤ e))).insertionSort
          (fun a b => filtLE a b = true) := rfl
    rw [hrfl, (List.perm_insertionSort _ _).mem_iff, List.mem_filter,
      List.mem_map]
    constructor
    · rintro ⟨⟨t, ht, hts⟩, hle⟩
      rw [List.mem_filter] at ht
      obtain ⟨htsub, hcond⟩ := ht
      rw [Bool.and_eq_true, decide_eq_true_eq, decide_eq_true_eq] at hcond
      cases hts
      rw [decide_eq_true_eq] at hle
      refine ⟨List.mem_sublists.mp htsub, hcond.1, hcond.2, rfl, ?_⟩
      intro e' he'
      cases he'
      exact hle
    · rintro ⟨hsub, h1, h2, hv, heps⟩
      refine ⟨⟨s, ?_, ?_⟩, ?_⟩
      · rw [List.mem_filter]
        refine ⟨List.mem_sublists.mpr hsub, ?_⟩
        rw [Bool.and_eq_true, decide_eq_true_eq, decide_eq_true_eq]
        exact ⟨h1, h2⟩
      · rw [hv]
      · rw [decide_eq_true_eq]
        exact heps e rfl

theorem buildFiltration_nodup (n : ℕ) (dm : ℕ → ℕ → ℚ) (dMax : ℕ)
    (eps : Option ℚ) : (buildFiltration n dm dMax eps).simplices.Nodup := by
  have hm : (((List.range n).sublists.filter (fun t => decide (1 ≤ t.length) &&
      decide (t.length ≤ dMax + 2))).map
      (fun t => (t, simplexValue dm t))).Nodup := by
    apply List.Nodup.map
    · intro a b hab
      exact congrArg Prod.fst hab
    · exact (List.nodup_sublists.mpr (List.nodup_range n)).filter _
  cases eps with
  | none => exact ((List.perm_insertionSort _ _).nodup_iff).mpr hm
  | some e => exact ((List.perm_insertionSort _ _).nodup_iff).mpr (hm.filter _)

theorem entry_at_mem (l : List (Simplex × ℚ)) (i : ℕ) (hi : i < l.length) :
    (simplexAt l i, valueAt l i) ∈ l := by
  rw [simplexAt, valueAt, List.getD_eq_get l ([], 0) hi, Prod.mk.eta]
  exact List.get_mem l i hi

theorem exists_pos_of_mem (l : List (Simplex × ℚ)) (e : Simplex × ℚ)
    (he : e ∈ l) :
    ∃ t, t < l.length ∧ simplexAt l t = e.1 ∧ valueAt l t = e.2 := by
  obtain ⟨⟨t, ht⟩, hget⟩ := List.mem_iff_get.mp he
  refine ⟨t, ht, ?_, ?_⟩
  · rw [simplexAt, List.getD_eq_get l ([], 0) ht, hget]
  · rw [valueAt, List.getD_eq_get l ([], 0) ht, hget]

theorem pos_inj_of_nodup (l : List (Simplex × ℚ)) (hnd : l.Nodup)
    (i j : ℕ) (hi : i < l.length) (hj : j < l.length)
    (hs : simplexAt l i = simplexAt l j) (hv : valueAt l i = valueAt l j) :
    i = j := by
  have h1 : l.get ⟨i, hi⟩ = (simplexAt l i, valueAt l i) := by
    rw [simplexAt, valueAt, List.getD_eq_get l ([], 0) hi]
  have h2 : l.get ⟨j, hj⟩ = (simplexAt l j, valueAt l j) := by
    rw [simplexAt, valueAt, List.getD_eq_get l ([], 0) hj]
  have hget : l.get ⟨i, hi⟩ = l.get ⟨j, hj⟩ := by
    rw [h1, h2, hs, hv]
  have hfin := (List.Nodup.get_inj_iff hnd).mp hget
  exact congrArg Fin.val hfin

theorem entry_props (n : ℕ) (dm : ℕ → ℕ → ℚ) (dMax : ℕ) (eps : Option ℚ)
    (i : ℕ) (hi : i < (buildFiltration n dm dMax eps).simplices.length) :
    (simplexAt (buildFiltration n dm dMax eps).simplices i).Sublist
        (List.range n) ∧
      1 ≤ (simplexAt (buildFiltration n dm dMax eps).simplices i).length ∧
      (simplexAt (buildFiltration n dm dMax eps).simplices i).length ≤
        dMax + 2 ∧
      valueAt (buildFiltration n dm dMax eps).simplices i =
        simplexValue dm (simplexAt (buildFiltration n dm dMax eps).simplices i) ∧
      ∀ e, eps = some e →
        valueAt (buildFiltration n dm dMax eps).simplices i ≤ e :=
  (mem_buildFiltration_iff n dm dMax eps _ _).mp
    (entry_at_mem (buildFiltration n dm dMax eps).simplices i hi)

theorem entry_pairwise (n : ℕ) (dm : ℕ → ℕ → ℚ) (dMax : ℕ) (eps : Option ℚ)
    (i : ℕ) (hi : i < (buildFiltration n dm dMax eps).simplices.length) :
    (simplexAt (buildFiltration n dm dMax eps).simplices i).Pairwise (· < ·) :=
  List.Pairwise.sublist (entry_props n dm dMax eps i hi).1
    (List.pairwise_lt_range n)

theorem simplexAt_inj (n : ℕ) (dm : ℕ → ℕ → ℚ) (dMax : ℕ) (eps : Option ℚ)
    (i j : ℕ) (hi : i < (buildFiltration n dm dMax eps).simplices.length)
    (hj : j < (buildFiltration n dm dMax eps).simplices.length)
    (hs : simplexAt (buildFiltration n dm dMax eps).simplices i =
      simplexAt (buildFiltration n dm dMax eps).simplices j) : i = j := by
  apply pos_inj_of_nodup _ (buildFiltration_nodup n dm dMax eps) i j hi hj hs
  rw [(entry_props n dm dMax eps i hi).2.2.2.1,
    (entry_props n dm dMax eps j hj).2.2.2.1, hs]

theorem pos_lt_of_key_lt (l : List (Simplex × ℚ))
    (hsort : l.Pairwise (fun x y => keyOf x ≤ keyOf y)) (t1 t2 : ℕ)
    (h1 : t1 < l.length) (hk : keyAt l t1 < keyAt l t2) : t1 < t2 := by
  by_contra hge
  have hle := keyAt_mono l hsort t2 t1 (by omega) h1
  exact absurd hk (not_lt.mpr hle)

theorem key_lt_of_facet (n : ℕ) (dm : ℕ → ℕ → ℚ) (dMax : ℕ) (eps : Option ℚ)
    (i t : ℕ) (hi : i < (buildFiltration n dm dMax eps).simplices.length)
    (ht : t < (buildFiltration n dm dMax eps).simplices.length)
    (hf : simplexAt (buildFiltration n dm dMax eps).simplices i ∈
      facets (simplexAt (buildFiltration n dm dMax eps).simplices t)) :
    keyAt (buildFiltration n dm dMax eps).simplices i <
      keyAt (buildFiltration n dm dMax eps).simplices t := by
  obtain ⟨hsub, hlen⟩ := (mem_facets_iff _ _).mp hf
  have hpi := entry_props n dm dMax eps i hi
  have hpt := entry_props n dm dMax eps t ht
  have hvle : valueAt (buildFiltration n dm dMax eps).simplices i ≤
      valueAt (buildFiltration n dm dMax eps).simplices t := by
    rw [hpi.2.2.2.1, hpt.2.2.2.1]
    exact simplexValue_mono dm _ _ hsub
  have hkey1 : keyAt (buildFiltration n dm dMax eps).simplices i =
      toLex (valueAt (buildFiltration n dm dMax eps).simplices i,
        (simplexAt (buildFiltration n dm dMax eps).simplices i).length) := rfl
  have hkey2 : keyAt (buildFiltration n dm dMax eps).simplices t =
      toLex (valueAt (buildFiltration n dm dMax eps).simplices t,
        (simplexAt (buildFiltration n dm dMax eps).simplices t).length) := rfl
  rw [hkey1, hkey2, Prod.Lex.lt_iff]
  rcases lt_or_eq_of_le hvle with hlt | heq
  · exact Or.inl hlt
  · refine Or.inr ⟨heq, ?_⟩
    show (simplexAt (buildFiltration n dm dMax eps).simplices i).length <
      (simplexAt (buildFiltration n dm dMax eps).simplices t).length
    omega

theorem facet_pos (n : ℕ) (dm : ℕ → ℕ → ℚ) (dMax : ℕ) (eps : Option ℚ)
    (t : ℕ) (ht : t < (buildFiltration n dm dMax eps).simplices.length)
    (r : Simplex)
    (hr : r ∈ facets (simplexAt (buildFiltration n dm dMax eps).simplices t))
    (hr1 : 1 ≤ r.length) :
    ∃ i, i < t ∧ i < (buildFiltration n dm dMax eps).simplices.length ∧
      simplexAt (buildFiltration n dm dMax eps).simplices i = r := by
  obtain ⟨hsub, hlen⟩ := (mem_facets_iff _ _).mp hr
  have hpt := entry_props n dm dMax eps t ht
  have hmem : (r, simplexValue dm r) ∈
      (buildFiltration n dm dMax eps).simplices := by
    rw [mem_buildFiltration_iff]
    refine ⟨hsub.trans hpt.1, hr1, by omega, rfl, ?_⟩
    intro e he
    have hte := hpt.2.2.2.2 e he
    calc simplexValue dm r
        ≤ simplexValue dm (simplexAt (buildFiltration n dm dMax eps).simplices t) :=
          simplexValue_mono dm _ _ hsub
      _ = valueAt (buildFiltration n dm dMax eps).simplices t :=
          (hpt.2.2.2.1).symm
      _ ≤ e := hte
  obtain ⟨i, hiL, his, hiv⟩ := exists_pos_of_mem _ _ hmem
  refine ⟨i, ?_, hiL, his⟩
  apply pos_lt_of_key_lt _ (buildFiltration_sorted n dm dMax eps) i t hiL
  apply key_lt_of_facet n dm dMax eps i t hiL ht
  rw [his]
  exact hr

theorem mem_boundaryCol_iff (l : List (Simplex × ℚ)) (i j : ℕ) :
    i ∈ boundaryCol l j ↔
      i < j ∧ simplexAt l i ∈ facets (simplexAt l j) := by
  rw [boundaryCol, Finset.mem_filter, Finset.mem_range]

theorem toFinset_eq_insert_diff (r s : List ℕ) (hsub : r.Sublist s) (b : ℕ)
    (hd : s.toFinset \ r.toFinset = {b}) :
    s.toFinset = insert b r.toFinset := by
  ext x
  rw [Finset.mem_insert]
  constructor
  · intro hx
    by_cases hxr : x ∈ r.toFinset
    · exact Or.inr hxr
    · left
      have hmem : x ∈ s.toFinset \ r.toFinset := Finset.mem_sdiff.mpr ⟨hx, hxr⟩
      rw [hd] at hmem
      exact Finset.mem_singleton.mp hmem
  · rintro (rfl | hxr)
    · have hmem : x ∈ s.toFinset \ r.toFinset := by
        rw [hd]
        exact Finset.mem_singleton_self x
      exact (Finset.mem_sdiff.mp hmem).1
    · rw [List.mem_toFinset] at hxr ⊢
      exact hsub.subset hxr

/-- In a filtration list where every simplex is strictly increasing, every
facet of an entry occurs at an earlier position, and positions are uniquely
labelled, the boundary of a boundary column vanishes: every codimension-two
face lies in exactly two facets. -/
theorem chainBoundary_boundaryCol_eq_zero (l : List (Simplex × ℚ))
    (hpair : ∀ i, i < l.length → (simplexAt l i).Pairwise (· < ·))
    (hlen1 : ∀ i, i < l.length → 1 ≤ (simplexAt l i).length)
    (hinj : ∀ i j, i < l.length → j < l.length →
      simplexAt l i = simplexAt l j → i = j)
    (hfpos : ∀ t, t < l.length → ∀ r, r ∈ facets (simplexAt l t) →
      1 ≤ r.length → ∃ i, i < t ∧ i < l.length ∧ simplexAt l i = r)
    (j : ℕ) : chainBoundary l (boundaryCol l j) = 0 := by
  classical
  funext i
  rw [chainBoundary, Finset.sum_apply, Pi.zero_apply]
  have hb : ∀ t, Bvec l t i = if i ∈ boundaryCol l t then (1 : ZMod 2) else 0 :=
    fun t => rfl
  rw [Finset.sum_congr rfl (fun t _ => hb t), ← Finset.sum_filter]
  by_cases hjL : j < l.length
  case neg =>
    -- beyond the list the boundary column is empty: no entry is the empty simplex
    have hbc : boundaryCol l j = ∅ := by
      rw [boundaryCol]
      apply Finset.filter_false_of_mem
      intro t htr hmem
      rw [Finset.mem_range] at htr
      have hsj : simplexAt l j = ([] : List ℕ) := by
        rw [simplexAt, List.getD_eq_default]
        omega
      rw [hsj] at hmem
      rw [facets] at hmem
      simp at hmem
    rw [hbc, Finset.filter_empty, Finset.sum_empty]
  case pos =>
  have hTmem : ∀ t, t ∈ (boundaryCol l j).filter
        (fun t => i ∈ boundaryCol l t) ↔
      ((t < j ∧ simplexAt l t ∈ facets (simplexAt l j)) ∧
        (i < t ∧ simplexAt l i ∈ facets (simplexAt l t))) := by
    intro t
    rw [Finset.mem_filter, mem_boundaryCol_iff, mem_boundaryCol_iff]
  have hswap : ∀ t ∈ (boundaryCol l j).filter (fun t => i ∈ boundaryCol l t),
      ∃ u, (u ∈ (boundaryCol l j).filter (fun t => i ∈ boundaryCol l t) ∧
          u ≠ t) ∧
        ∀ w ∈ (boundaryCol l j).filter (fun t => i ∈ boundaryCol l t),
          w ≠ t → w = u := by
    intro t ht
    obtain ⟨⟨htj, htf⟩, hit, hif⟩ := (hTmem t).mp ht
    have htL : t < l.length := lt_trans htj hjL
    have hiL : i < l.length := lt_trans hit htL
    obtain ⟨hsubtj, hlentj⟩ := (mem_facets_iff _ _).mp htf
    obtain ⟨hsubit, hlenit⟩ := (mem_facets_iff _ _).mp hif
    have hndj : (simplexAt l j).Nodup :=
      (hpair j hjL).imp (fun h => Nat.ne_of_lt h)
    have hndt : (simplexAt l t).Nodup :=
      (hpair t htL).imp (fun h => Nat.ne_of_lt h)
    obtain ⟨a, hda⟩ := diff_singleton _ _ hndj hsubtj hlentj
    obtain ⟨b, hdb⟩ := diff_singleton _ _ hndt hsubit hlenit
    have hamem : a ∈ (simplexAt l j).toFinset ∧
        a ∉ (simplexAt l t).toFinset := by
      have hmem : a ∈ (simplexAt l j).toFinset \ (simplexAt l t).toFinset := by
        rw [hda]
        exact Finset.mem_singleton_self a
      exact Finset.mem_sdiff.mp hmem
    have hbmem : b ∈ (simplexAt l t).toFinset ∧
        b ∉ (simplexAt l i).toFinset := by
      have hmem : b ∈ (simplexAt l t).toFinset \ (simplexAt l i).toFinset := by
        rw [hdb]
        exact Finset.mem_singleton_self b
      exact Finset.mem_sdiff.mp hmem
    have hait : a ∉ (simplexAt l i).toFinset := by
      intro hmem
      apply hamem.2
      have : a ∈ (simplexAt l i).toFinset := hmem
      rw [List.mem_toFinset] at this ⊢
      exact hsubit.subset this
    have hab : a ≠ b := by
      intro he
      exact hamem.2 (he ▸ hbmem.1)
    -- the other intermediate simplex
    set m : Simplex :=
      (insert a (simplexAt l i).toFinset).sort (· ≤ ·) with hm
    have hmpair : m.Pairwise (· < ·) := Finset.sort_sorted_lt _
    have hmfin : m.toFinset = insert a (simplexAt l i).toFinset := by
      rw [hm]
      exact Finset.sort_toFinset _ _
    have hmlen : m.length = (simplexAt l i).length + 1 := by
      rw [hm, Finset.length_sort, Finset.card_insert_of_not_mem hait,
        List.toFinset_card_of_nodup
          ((hpair i hiL).imp (fun h => Nat.ne_of_lt h))]
    have hmem_m : ∀ x, x ∈ m ↔ (x = a ∨ x ∈ simplexAt l i) := by
      intro x
      rw [← List.mem_toFinset, hmfin, Finset.mem_insert, List.mem_toFinset]
    have hsub_im : (simplexAt l i).Sublist m := by
      apply sublist_of_subset_sorted _ _ (hpair i hiL) hmpair
      intro x hx
      exact (hmem_m x).mpr (Or.inr hx)
    have hsub_mj : m.Sublist (simplexAt l j) := by
      apply sublist_of_subset_sorted _ _ hmpair (hpair j hjL)
      intro x hx
      rcases (hmem_m x).mp hx with rfl | hxi
      · exact List.mem_toFinset.mp hamem.1
      · exact hsubtj.subset (hsubit.subset hxi)
    have hmne : m ≠ simplexAt l t := by
      intro he
      apply hbmem.2
      have hbm : b ∈ m := by rw [he]; exact List.mem_toFinset.mp hbmem.1
      rcases (hmem_m b).mp hbm with hba | hbi
      · exact absurd hba.symm hab
      · exact List.mem_toFinset.mpr hbi
    have hmfacet : m ∈ facets (simplexAt l j) := by
      rw [mem_facets_iff]
      exact ⟨hsub_mj, by omega⟩
    obtain ⟨u, huj, huL, hum⟩ := hfpos j hjL m hmfacet (by omega)
    have hifacetm : simplexAt l i ∈ facets m := by
      rw [mem_facets_iff]
      exact ⟨hsub_im, by omega⟩
    have hiu : i < u := by
      obtain ⟨i2, hi2u, hi2L, hi2s⟩ := hfpos u huL (simplexAt l i)
        (by rw [hum]; exact hifacetm) (hlen1 i hiL)
      have : i2 = i := hinj i2 i hi2L hiL hi2s
      omega
    have huT : u ∈ (boundaryCol l j).filter (fun t => i ∈ boundaryCol l t) := by
      rw [hTmem]
      refine ⟨⟨huj, by rw [hum]; exact hmfacet⟩, hiu, ?_⟩
      rw [hum]
      exact hifacetm
    have hut : u ≠ t := by
      intro he
      apply hmne
      rw [← hum, he]
    refine ⟨u, ⟨huT, hut⟩, ?_⟩
    -- uniqueness: any other intermediate equals u
    intro w hw hwt
    obtain ⟨⟨hwj, hwf⟩, hiw, hiwf⟩ := (hTmem w).mp hw
    have hwL : w < l.length := lt_trans hwj hjL
    obtain ⟨hsubwj, hlenwj⟩ := (mem_facets_iff _ _).mp hwf
    obtain ⟨hsubiw, hleniw⟩ := (mem_facets_iff _ _).mp hiwf
    have hndw : (simplexAt l w).Nodup :=
      (hpair w hwL).imp (fun h => Nat.ne_of_lt h)
    obtain ⟨c, hdc⟩ := diff_singleton _ _ hndw hsubiw hleniw
    have hcw : (simplexAt l w).toFinset =
        insert c (simplexAt l i).toFinset :=
      toFinset_eq_insert_diff _ _ hsubiw c hdc
    have hcmem : c ∈ (simplexAt l w).toFinset ∧
        c ∉ (simplexAt l i).toFinset := by
      have hmem : c ∈ (simplexAt l w).toFinset \ (simplexAt l i).toFinset := by
        rw [hdc]
        exact Finset.mem_singleton_self c
      exact Finset.mem_sdiff.mp hmem
    -- c lies in the two-element difference of s_j over s_i
    have hcj : c ∈ (simplexAt l j).toFinset := by
      rw [List.mem_toFinset] at hcmem ⊢
      exact hsubwj.subset hcmem.1
    have hcab : c = a ∨ c = b := by
      by_cases hct : c ∈ (simplexAt l t).toFinset
      · right
        have hmem : c ∈ (simplexAt l t).toFinset \ (simplexAt l i).toFinset :=
          Finset.mem_sdiff.mpr ⟨hct, hcmem.2⟩
        rw [hdb] at hmem
        exact Finset.mem_singleton.mp hmem
      · left
        have hmem : c ∈ (simplexAt l j).toFinset \ (simplexAt l t).toFinset :=
          Finset.mem_sdiff.mpr ⟨hcj, hct⟩
        rw [hda] at hmem
        exact Finset.mem_singleton.mp hmem
    rcases hcab with rfl | rfl
    · -- w carries the simplex m, hence w = u
      apply hinj w u hwL huL
      rw [hum]
      apply strictSorted_eq_of_toFinset_eq _ _ (hpair w hwL) hmpair
      rw [hcw, hmfin]
    · -- w would carry the simplex of t, contradiction with w ≠ t
      exfalso
      apply hwt
      apply hinj w t hwL htL
      apply strictSorted_eq_of_toFinset_eq _ _ (hpair w hwL) (hpair t htL)
      rw [hcw]
      exact (toFinset_eq_insert_diff _ _ hsubit c hdb).symm
  apply Finset.sum_involution (fun t ht => Classical.choose (hswap t ht))
  · intro t ht
    decide
  · intro t ht _
    exact (Classical.choose_spec (hswap t ht)).1.2
  · intro t ht
    have hu := Classical.choose_spec (hswap t ht)
    have hu2 := Classical.choose_spec (hswap (Classical.choose (hswap t ht))
      hu.1.1)
    exact (hu2.2 t ht (fun he => hu.1.2 he.symm)).symm
  · intro t ht
    exact (Classical.choose_spec (hswap t ht)).1.1

theorem buildFiltration_dd (n : ℕ) (dm : ℕ → ℕ → ℚ) (dMax : ℕ)
    (eps : Option ℚ) (j : ℕ) :
    chainBoundary (buildFiltration n dm dMax eps).simplices
      (boundaryCol (buildFiltration n dm dMax eps).simplices j) = 0 :=
  chainBoundary_boundaryCol_eq_zero _
    (fun i hi => entry_pairwise n dm dMax eps i hi)
    (fun i hi => (entry_props n dm dMax eps i hi).2.1)
    (fun i j hi hj hs => simplexAt_inj n dm dMax eps i j hi hj hs)
    (fun t ht r hr hr1 => facet_pos n dm dMax eps t ht r hr hr1)
    j

/-! ## Relabelling simplices along a vertex permutation -/

def renameSimplex (σ : Equiv.Perm ℕ) (s : Simplex) : Simplex :=
  (s.toFinset.image (fun a => σ a)).sort (· ≤ ·)

theorem renameSimplex_pairwise (σ : Equiv.Perm ℕ) (s : Simplex) :
    (renameSimplex σ s).Pairwise (· < ·) :=
  Finset.sort_sorted_lt _

theorem renameSimplex_toFinset (σ : Equiv.Perm ℕ) (s : Simplex) :
    (renameSimplex σ s).toFinset = s.toFinset.image (fun a => σ a) :=
  Finset.sort_toFinset _ _

theorem mem_renameSimplex (σ : Equiv.Perm ℕ) (s : Simplex) (x : ℕ) :
    x ∈ renameSimplex σ s ↔ σ.symm x ∈ s := by
  rw [← List.mem_toFinset, renameSimplex_toFinset, Finset.mem_image]
  constructor
  · rintro ⟨y, hy, hyx⟩
    rw [← hyx, Equiv.symm_apply_apply]
    exact List.mem_toFinset.mp hy
  · intro hx
    exact ⟨σ.symm x, List.mem_toFinset.mpr hx, Equiv.apply_symm_apply σ x⟩

theorem renameSimplex_length (σ : Equiv.Perm ℕ) (s : Simplex)
    (hnd : s.Nodup) : (renameSimplex σ s).length = s.length := by
  rw [renameSimplex, Finset.length_sort,
    Finset.card_image_of_injective _ σ.injective,
    List.toFinset_card_of_nodup hnd]

theorem renameSimplex_renameSimplex (σ : Equiv.Perm ℕ) (s : Simplex)
    (hs : s.Pairwise (· < ·)) :
    renameSimplex σ.symm (renameSimplex σ s) = s := by
  apply strictSorted_eq_of_toFinset_eq _ _ (renameSimplex_pairwise _ _) hs
  rw [renameSimplex_toFinset, renameSimplex_toFinset, Finset.image_image]
  ext x
  rw [Finset.mem_image]
  constructor
  · rintro ⟨y, hy, hyx⟩
    have : σ.symm (σ y) = x := hyx
    rw [Equiv.symm_apply_apply] at this
    rw [← this]
    exact hy
  · intro hx
    refine ⟨x, hx, ?_⟩
    show σ.symm (σ x) = x
    rw [Equiv.symm_apply_apply]

theorem renameSimplex_sublist (σ : Equiv.Perm ℕ) (r s : Simplex)
    (hsub : r.Sublist s) :
    (renameSimplex σ r).Sublist (renameSimplex σ s) := by
  apply sublist_of_subset_sorted _ _ (renameSimplex_pairwise _ _)
    (renameSimplex_pairwise _ _)
  intro x hx
  rw [mem_renameSimplex] at hx ⊢
  exact hsub.subset hx

theorem renameSimplex_facets (σ : Equiv.Perm ℕ) (r s : Simplex)
    (hr : r.Pairwise (· < ·)) (hs : s.Pairwise (· < ·)) :
    renameSimplex σ r ∈ facets (renameSimplex σ s) ↔ r ∈ facets s := by
  have hrn : r.Nodup := hr.imp (fun h => Nat.ne_of_lt h)
  have hsn : s.Nodup := hs.imp (fun h => Nat.ne_of_lt h)
  rw [mem_facets_iff, mem_facets_iff, renameSimplex_length σ r hrn,
    renameSimplex_length σ s hsn]
  constructor
  · rintro ⟨hsub, hlen⟩
    refine ⟨?_, hlen⟩
    have := renameSimplex_sublist σ.symm _ _ hsub
    rw [renameSimplex_renameSimplex σ r hr,
      renameSimplex_renameSimplex σ s hs] at this
    exact this
  · rintro ⟨hsub, hlen⟩
    exact ⟨renameSimplex_sublist σ _ _ hsub, hlen⟩

theorem renameSimplex_value (σ : Equiv.Perm ℕ) (dm : ℕ → ℕ → ℚ) (s : Simplex) :
    simplexValue (fun i j => dm (σ i) (σ j)) (renameSimplex σ.symm s) =
      simplexValue dm s := by
  apply le_antisymm
  · apply simplexValue_le _ _ _ (simplexValue_nonneg dm s)
    intro i hi j hj
    rw [mem_renameSimplex] at hi hj
    rw [Equiv.symm_symm] at hi hj
    exact le_simplexValue dm s (σ i) (σ j) hi hj
  · apply simplexValue_le _ _ _ (simplexValue_nonneg _ _)
    intro i hi j hj
    have hi' : σ.symm i ∈ renameSimplex σ.symm s := by
      rw [mem_renameSimplex]
      simp only [Equiv.symm_symm, Equiv.apply_symm_apply]
      exact hi
    have hj' : σ.symm j ∈ renameSimplex σ.symm s := by
      rw [mem_renameSimplex]
      simp only [Equiv.symm_symm, Equiv.apply_symm_apply]
      exact hj
    have hle := le_simplexValue (fun i j => dm (σ i) (σ j))
      (renameSimplex σ.symm s) (σ.symm i) (σ.symm j) hi' hj'
    simp only at hle
    rw [Equiv.apply_symm_apply, Equiv.apply_symm_apply] at hle
    exact hle

theorem renameSimplex_renameSimplex' (σ : Equiv.Perm ℕ) (s : Simplex)
    (hs : s.Pairwise (· < ·)) :
    renameSimplex σ (renameSimplex σ.symm s) = s := by
  have h := renameSimplex_renameSimplex σ.symm s hs
  rw [Equiv.symm_symm] at h
  exact h

theorem perm_lt_iff (n : ℕ) (π : Equiv.Perm ℕ) (hπ : ∀ t, t < n → π t < n)
    (x : ℕ) : π x < n ↔ x < n := by
  constructor
  · intro hx
    have himg : (Finset.range n).image (fun t => π t) = Finset.range n := by
      apply Finset.eq_of_subset_of_card_le
      · intro y hy
        rw [Finset.mem_image] at hy
        obtain ⟨t, ht, hty⟩ := hy
        rw [Finset.mem_range] at ht ⊢
        rw [← hty]
        exact hπ t ht
      · rw [Finset.card_image_of_injective _ π.injective]
    have hmem : π x ∈ Finset.range n := Finset.mem_range.mpr hx
    rw [← himg, Finset.mem_image] at hmem
    obtain ⟨t, ht, hte⟩ := hmem
    have htx : t = x := π.injective hte
    rw [← htx]
    exact Finset.mem_range.mp ht
  · exact hπ x

theorem mem_buildFiltration_rename (n : ℕ) (dm : ℕ → ℕ → ℚ) (dMax : ℕ)
    (eps : Option ℚ) (π : Equiv.Perm ℕ) (hπ : ∀ t, t < n → π t < n)
    (s : Simplex) (v : ℚ)
    (hmem : (s, v) ∈ (buildFiltration n dm dMax eps).simplices) :
    (renameSimplex π.symm s, v) ∈
      (buildFiltration n (fun i j => dm (π i) (π j)) dMax eps).simplices := by
  rw [mem_buildFiltration_iff] at hmem ⊢
  obtain ⟨hsub, h1, h2, hv, heps⟩ := hmem
  have hspw : s.Pairwise (· < ·) :=
    List.Pairwise.sublist hsub (List.pairwise_lt_range n)
  have hsnd : s.Nodup := hspw.imp (fun h => Nat.ne_of_lt h)
  have hlen : (renameSimplex π.symm s).length = s.length :=
    renameSimplex_length π.symm s hsnd
  refine ⟨?_, by omega, by omega, ?_, heps⟩
  · apply sublist_of_subset_sorted _ _ (renameSimplex_pairwise _ _)
      (List.pairwise_lt_range n)
    intro x hx
    rw [mem_renameSimplex, Equiv.symm_symm] at hx
    rw [List.mem_range]
    have hπx : π x < n := List.mem_range.mp (hsub.subset hx)
    exact (perm_lt_iff n π hπ x).mp hπx
  · rw [hv]
    exact (renameSimplex_value π dm s).symm

theorem mem_buildFiltration_rename' (n : ℕ) (dm : ℕ → ℕ → ℚ) (dMax : ℕ)
    (eps : Option ℚ) (π : Equiv.Perm ℕ) (hπ : ∀ t, t < n → π t < n)
    (s : Simplex) (v : ℚ)
    (hmem : (s, v) ∈
      (buildFiltration n (fun i j => dm (π i) (π j)) dMax eps).simplices) :
    (renameSimplex π s, v) ∈ (buildFiltration n dm dMax eps).simplices := by
  rw [mem_buildFiltration_iff] at hmem ⊢
  obtain ⟨hsub, h1, h2, hv, heps⟩ := hmem
  have hspw : s.Pairwise (· < ·) :=
    List.Pairwise.sublist hsub (List.pairwise_lt_range n)
  have hsnd : s.Nodup := hspw.imp (fun h => Nat.ne_of_lt h)
  have hlen : (renameSimplex π s).length = s.length := by
    have h := renameSimplex_length π s hsnd
    exact h
  refine ⟨?_, by omega, by omega, ?_, heps⟩
  · apply sublist_of_subset_sorted _ _ (renameSimplex_pairwise _ _)
      (List.pairwise_lt_range n)
    intro x hx
    rw [mem_renameSimplex] at hx
    rw [List.mem_range]
    have hsx : π.symm x < n := List.mem_range.mp (hsub.subset hx)
    have hiff := perm_lt_iff n π hπ (π.symm x)
    rw [Equiv.apply_symm_apply] at hiff
    exact hiff.mpr hsx
  · rw [hv]
    have h := renameSimplex_value π dm (renameSimplex π s)
    rw [renameSimplex_renameSimplex π s hspw] at h
    exact h

/-- Core permutation invariance: relabelling the vertices of the distance
matrix permutes the diagram multiset of every homology dimension. -/
theorem diagramAt_buildFiltration_perm (n : ℕ) (dm : ℕ → ℕ → ℚ) (dMax : ℕ)
    (eps : Option ℚ) (π : Equiv.Perm ℕ) (hπ : ∀ t, t < n → π t < n) (q : ℕ) :
    (diagramAt (buildFiltration n (fun i j => dm (π i) (π j)) dMax eps) q).Perm
      (diagramAt (buildFiltration n dm dMax eps) q) := by
  classical
  show (diagramAt ⟨(buildFiltration n (fun i j => dm (π i) (π j)) dMax eps).simplices, dMax + 1⟩ q).Perm (diagramAt ⟨(buildFiltration n dm dMax eps).simplices, dMax + 1⟩ q)
  have hpw : ∀ i, i < (buildFiltration n dm dMax eps).simplices.length →
      (simplexAt (buildFiltration n dm dMax eps).simplices i).Pairwise (· < ·) :=
    fun i hi => entry_pairwise n dm dMax eps i hi
  have hpw' : ∀ i, i < (buildFiltration n (fun i j => dm (π i) (π j)) dMax eps).simplices.length →
      (simplexAt (buildFiltration n (fun i j => dm (π i) (π j)) dMax eps).simplices i).Pairwise (· < ·) :=
    fun i hi => entry_pairwise n (fun i j => dm (π i) (π j)) dMax eps i hi
  have hex : ∀ t, t < (buildFiltration n dm dMax eps).simplices.length →
      ∃ k, k < (buildFiltration n (fun i j => dm (π i) (π j)) dMax eps).simplices.length ∧
        simplexAt (buildFiltration n (fun i j => dm (π i) (π j)) dMax eps).simplices k = renameSimplex π.symm (simplexAt (buildFiltration n dm dMax eps).simplices t) ∧
        valueAt (buildFiltration n (fun i j => dm (π i) (π j)) dMax eps).simplices k = valueAt (buildFiltration n dm dMax eps).simplices t := by
    intro t ht
    have hmem := entry_at_mem (buildFiltration n dm dMax eps).simplices t ht
    have hmem' := mem_buildFiltration_rename n dm dMax eps π hπ _ _ hmem
    obtain ⟨k, hk, h1, h2⟩ := exists_pos_of_mem _ _ hmem'
    exact ⟨k, hk, h1, h2⟩
  choose f hf using hex
  have hex' : ∀ k, k < (buildFiltration n (fun i j => dm (π i) (π j)) dMax eps).simplices.length →
      ∃ t, t < (buildFiltration n dm dMax eps).simplices.length ∧
        simplexAt (buildFiltration n dm dMax eps).simplices t = renameSimplex π (simplexAt (buildFiltration n (fun i j => dm (π i) (π j)) dMax eps).simplices k) ∧
        valueAt (buildFiltration n dm dMax eps).simplices t = valueAt (buildFiltration n (fun i j => dm (π i) (π j)) dMax eps).simplices k := by
    intro k hk
    have hmem := entry_at_mem (buildFiltration n (fun i j => dm (π i) (π j)) dMax eps).simplices k hk
    have hmem' := mem_buildFiltration_rename' n dm dMax eps π hπ _ _ hmem
    obtain ⟨t, ht, h1, h2⟩ := exists_pos_of_mem _ _ hmem'
    exact ⟨t, ht, h1, h2⟩
  choose g hg using hex'
  have hgf : ∀ t (h : t < (buildFiltration n dm dMax eps).simplices.length), g (f t h) (hf t h).1 = t := by
    intro t h
    apply simplexAt_inj n dm dMax eps _ _ (hg (f t h) (hf t h).1).1 h
    rw [(hg (f t h) (hf t h).1).2.1, (hf t h).2.1]
    exact renameSimplex_renameSimplex' π _ (hpw t h)
  have hfg : ∀ k (h : k < (buildFiltration n (fun i j => dm (π i) (π j)) dMax eps).simplices.length), f (g k h) (hg k h).1 = k := by
    intro k h
    apply simplexAt_inj n (fun i j => dm (π i) (π j)) dMax eps _ _ (hf (g k h) (hg k h).1).1 h
    rw [(hf (g k h) (hg k h).1).2.1, (hg k h).2.1]
    exact renameSimplex_renameSimplex π _ (hpw' k h)
  have hLL : (buildFiltration n (fun i j => dm (π i) (π j)) dMax eps).simplices.length = (buildFiltration n dm dMax eps).simplices.length := by
    apply Nat.le_antisymm
    · have hcard : (Finset.range (buildFiltration n (fun i j => dm (π i) (π j)) dMax eps).simplices.length).card ≤
          (Finset.range (buildFiltration n dm dMax eps).simplices.length).card := by
        apply Finset.card_le_card_of_injOn
          (fun k => if h : k < (buildFiltration n (fun i j => dm (π i) (π j)) dMax eps).simplices.length then g k h else 0)
        · intro k hk
          rw [Finset.mem_range] at hk ⊢
          rw [dif_pos hk]
          exact (hg k hk).1
        · intro k1 hk1 k2 hk2 he
          rw [Finset.mem_coe, Finset.mem_range] at hk1 hk2
          have he1 : (fun k => if h : k < (buildFiltration n (fun i j => dm (π i) (π j)) dMax eps).simplices.length then g k h else 0) k1
              = g k1 hk1 := dif_pos hk1
          have he2 : (fun k => if h : k < (buildFiltration n (fun i j => dm (π i) (π j)) dMax eps).simplices.length then g k h else 0) k2
              = g k2 hk2 := dif_pos hk2
          rw [he1, he2] at he
          have h1 := (hg k1 hk1).2.1
          have h2 := (hg k2 hk2).2.1
          rw [he] at h1
          have hss : renameSimplex π (simplexAt (buildFiltration n (fun i j => dm (π i) (π j)) dMax eps).simplices k1) =
              renameSimplex π (simplexAt (buildFiltration n (fun i j => dm (π i) (π j)) dMax eps).simplices k2) := by
            rw [← h1]
            exact h2
          have hcc := congrArg (renameSimplex π.symm) hss
          rw [renameSimplex_renameSimplex π _ (hpw' k1 hk1),
            renameSimplex_renameSimplex π _ (hpw' k2 hk2)] at hcc
          exact simplexAt_inj n (fun i j => dm (π i) (π j)) dMax eps k1 k2 hk1 hk2 hcc
      rw [Finset.card_range, Finset.card_range] at hcard
      exact hcard
    · have hcard : (Finset.range (buildFiltration n dm dMax eps).simplices.length).card ≤
          (Finset.range (buildFiltration n (fun i j => dm (π i) (π j)) dMax eps).simplices.length).card := by
        apply Finset.card_le_card_of_injOn
          (fun t => if h : t < (buildFiltration n dm dMax eps).simplices.length then f t h else 0)
        · intro t ht
          rw [Finset.mem_range] at ht ⊢
          rw [dif_pos ht]
          exact (hf t ht).1
        · intro t1 ht1 t2 ht2 he
          rw [Finset.mem_coe, Finset.mem_range] at ht1 ht2
          have he1 : (fun t => if h : t < (buildFiltration n dm dMax eps).simplices.length then f t h else 0) t1
              = f t1 ht1 := dif_pos ht1
          have he2 : (fun t => if h : t < (buildFiltration n dm dMax eps).simplices.length then f t h else 0) t2
              = f t2 ht2 := dif_pos ht2
          rw [he1, he2] at he
          have h1 := (hf t1 ht1).2.1
          have h2 := (hf t2 ht2).2.1
          rw [he] at h1
          have hss : renameSimplex π.symm (simplexAt (buildFiltration n dm dMax eps).simplices t1) =
              renameSimplex π.symm (simplexAt (buildFiltration n dm dMax eps).simplices t2) := by
            rw [← h1]
            exact h2
          have hcc := congrArg (renameSimplex π) hss
          rw [renameSimplex_renameSimplex' π _ (hpw t1 ht1),
            renameSimplex_renameSimplex' π _ (hpw t2 ht2)] at hcc
          exact simplexAt_inj n dm dMax eps t1 t2 ht1 ht2 hcc
      rw [Finset.card_range, Finset.card_range] at hcard
      exact hcard
  have hleft : Function.LeftInverse
      (fun k => if h : k < (buildFiltration n (fun i j => dm (π i) (π j)) dMax eps).simplices.length then g k h else k)
      (fun t => if h : t < (buildFiltration n dm dMax eps).simplices.length then f t h else t) := by
    intro t
    rcases Nat.lt_or_ge t ((buildFiltration n dm dMax eps).simplices.length) with h | h
    · have h1 : (fun t => if h3 : t < (buildFiltration n dm dMax eps).simplices.length then f t h3 else t) t
          = f t h := dif_pos h
      have h2 : (fun k => if h3 : k < (buildFiltration n (fun i j => dm (π i) (π j)) dMax eps).simplices.length then g k h3 else k) (f t h)
          = g (f t h) (hf t h).1 := dif_pos (hf t h).1
      rw [h1, h2]
      exact hgf t h
    · have h1 : (fun t => if h3 : t < (buildFiltration n dm dMax eps).simplices.length then f t h3 else t) t
          = t := dif_neg (by omega)
      have h2 : (fun k => if h3 : k < (buildFiltration n (fun i j => dm (π i) (π j)) dMax eps).simplices.length then g k h3 else k) t
          = t := dif_neg (by omega)
      rw [h1, h2]
  have hright : Function.RightInverse
      (fun k => if h : k < (buildFiltration n (fun i j => dm (π i) (π j)) dMax eps).simplices.length then g k h else k)
      (fun t => if h : t < (buildFiltration n dm dMax eps).simplices.length then f t h else t) := by
    intro k
    rcases Nat.lt_or_ge k ((buildFiltration n (fun i j => dm (π i) (π j)) dMax eps).simplices.length) with h | h
    · have h1 : (fun k => if h3 : k < (buildFiltration n (fun i j => dm (π i) (π j)) dMax eps).simplices.length then g k h3 else k) k
          = g k h := dif_pos h
      have h2 : (fun t => if h3 : t < (buildFiltration n dm dMax eps).simplices.length then f t h3 else t) (g k h)
          = f (g k h) (hg k h).1 := dif_pos (hg k h).1
      rw [h1, h2]
      exact hfg k h
    · have h1 : (fun k => if h3 : k < (buildFiltration n (fun i j => dm (π i) (π j)) dMax eps).simplices.length then g k h3 else k) k
          = k := dif_neg (by omega)
      have h2 : (fun t => if h3 : t < (buildFiltration n dm dMax eps).simplices.length then f t h3 else t) k
          = k := dif_neg (by omega)
      rw [h1, h2]
  set ρ : Equiv.Perm ℕ :=
    ⟨(fun t => if h : t < (buildFiltration n dm dMax eps).simplices.length then f t h else t),
      (fun k => if h : k < (buildFiltration n (fun i j => dm (π i) (π j)) dMax eps).simplices.length then g k h else k),
      hleft, hright⟩ with hρdef
  have hρ_pos : ∀ (t : ℕ) (h : t < (buildFiltration n dm dMax eps).simplices.length), ρ t = f t h := by
    intro t h
    rw [hρdef]
    show (if h2 : t < (buildFiltration n dm dMax eps).simplices.length then f t h2 else t) = f t h
    rw [dif_pos h]
  have hρ_neg : ∀ (t : ℕ), (buildFiltration n dm dMax eps).simplices.length ≤ t → ρ t = t := by
    intro t h
    rw [hρdef]
    show (if h2 : t < (buildFiltration n dm dMax eps).simplices.length then f t h2 else t) = t
    rw [dif_neg (by omega)]
  have hFE : FiltEquiv (buildFiltration n dm dMax eps).simplices (buildFiltration n (fun i j => dm (π i) (π j)) dMax eps).simplices ρ := by
    constructor
    · exact hLL
    · intro t ht
      rw [hρ_pos t ht, ← hLL]
      exact (hf t ht).1
    · intro t ht
      exact hρ_neg t ht
    · intro t ht
      rw [hρ_pos t ht]
      have hk1 : keyAt (buildFiltration n (fun i j => dm (π i) (π j)) dMax eps).simplices (f t ht) =
          toLex (valueAt (buildFiltration n (fun i j => dm (π i) (π j)) dMax eps).simplices (f t ht), (simplexAt (buildFiltration n (fun i j => dm (π i) (π j)) dMax eps).simplices (f t ht)).length) := rfl
      have hk2 : keyAt (buildFiltration n dm dMax eps).simplices t =
          toLex (valueAt (buildFiltration n dm dMax eps).simplices t, (simplexAt (buildFiltration n dm dMax eps).simplices t).length) := rfl
      rw [hk1, hk2, (hf t ht).2.2, (hf t ht).2.1,
        renameSimplex_length π.symm _
          ((hpw t ht).imp (fun h => Nat.ne_of_lt h))]
    · intro t ht
      rw [hρ_pos t ht]
      ext y
      rw [mem_boundaryCol_iff, Finset.mem_image]
      constructor
      · rintro ⟨hyt, hface⟩
        have hyL : y < (buildFiltration n (fun i j => dm (π i) (π j)) dMax eps).simplices.length := lt_trans hyt (hf t ht).1
        have hgyL := (hg y hyL).1
        have hback : renameSimplex π.symm (simplexAt (buildFiltration n dm dMax eps).simplices (g y hyL)) =
            simplexAt (buildFiltration n (fun i j => dm (π i) (π j)) dMax eps).simplices y := by
          rw [(hg y hyL).2.1]
          exact renameSimplex_renameSimplex π _ (hpw' y hyL)
        rw [(hf t ht).2.1, ← hback] at hface
        rw [renameSimplex_facets π.symm _ _ (hpw _ hgyL) (hpw t ht)] at hface
        have hglt : g y hyL < t := by
          apply pos_lt_of_key_lt (buildFiltration n dm dMax eps).simplices
            (buildFiltration_sorted n dm dMax eps) _ t hgyL
          exact key_lt_of_facet n dm dMax eps _ t hgyL ht hface
        refine ⟨g y hyL, ?_, ?_⟩
        · rw [mem_boundaryCol_iff]
          exact ⟨hglt, hface⟩
        · rw [hρ_pos _ hgyL]
          exact hfg y hyL
      · rintro ⟨i, hib, hρi⟩
        rw [mem_boundaryCol_iff] at hib
        obtain ⟨hit, hface⟩ := hib
        have hiL : i < (buildFiltration n dm dMax eps).simplices.length := lt_trans hit ht
        rw [hρ_pos i hiL] at hρi
        rw [← hρi]
        have hface' : simplexAt (buildFiltration n (fun i j => dm (π i) (π j)) dMax eps).simplices (f i hiL) ∈
            facets (simplexAt (buildFiltration n (fun i j => dm (π i) (π j)) dMax eps).simplices (f t ht)) := by
          rw [(hf i hiL).2.1, (hf t ht).2.1,
            renameSimplex_facets π.symm _ _ (hpw i hiL) (hpw t ht)]
          exact hface
        refine ⟨?_, hface'⟩
        apply pos_lt_of_key_lt (buildFiltration n (fun i j => dm (π i) (π j)) dMax eps).simplices
          (buildFiltration_sorted n (fun i j => dm (π i) (π j)) dMax eps) _ _ (hf i hiL).1
        exact key_lt_of_facet n (fun i j => dm (π i) (π j)) dMax eps _ _
          (hf i hiL).1 (hf t ht).1 hface'
    · exact buildFiltration_sorted n dm dMax eps
    · exact buildFiltration_sorted n (fun i j => dm (π i) (π j)) dMax eps
  exact FiltEquiv.diagram_perm hFE
    (fun j => buildFiltration_dd n dm dMax eps j)
    (fun j => buildFiltration_dd n (fun i j => dm (π i) (π j)) dMax eps j)
    (fun t ht => (entry_props n dm dMax eps t ht).2.1) (dMax + 1) q

/-- C5: for every point cloud (distance matrix on `n` points), dimension cap,
scale threshold, requested homology dimensions and permutation of the points,
the pipeline run on the relabelled cloud succeeds whenever the original run
does, and produces for each requested homology dimension a diagram that is a
permutation (equal as a multiset of (birth, death) pairs) of the original
diagram. -/
theorem diagrams_permutation_invariant (collapse : Bool) (n : ℕ)
    (dm : ℕ → ℕ → ℚ) (dMax : ℕ) (eps : Option ℚ) (dims : List ℕ)
    (π : Equiv.Perm ℕ) (hπ : ∀ t, t < n → π t < n)
    (res : List (ℕ × List (ℚ × WithTop ℚ)))
    (hres : vietorisRipsPersistence collapse n dm dMax eps dims =
      Except.ok res) :
    ∃ res', vietorisRipsPersistence collapse n (fun i j => dm (π i) (π j))
        dMax eps dims = Except.ok res' ∧
      List.Forall₂ (fun a b => a.1 = b.1 ∧ a.2.Perm b.2) res' res := by
  have hcd : ∀ (m : ℕ → ℕ → ℚ),
      vietorisRipsPersistence collapse n m dMax eps dims =
        computeDiagrams (buildFiltration n m dMax eps) dims := by
    intro m
    cases collapse with
    | false => rfl
    | true =>
      show computeDiagrams (collapseEdges (buildFiltration n m dMax eps))
          dims = _
      obtain ⟨hall, hcap⟩ :=
        collapseEdges_allDiagrams (buildFiltration n m dMax eps)
      rw [computeDiagrams, computeDiagrams, hcap]
      by_cases hcond : (dims.all fun d =>
          decide (d + 1 ≤ (buildFiltration n m dMax eps).dimCap)) = true
      · rw [if_pos hcond, if_pos hcond]
        congr 1
        apply List.map_congr_left
        intro d hd
        rw [List.all_eq_true] at hcond
        have hdc : d + 1 ≤ (buildFiltration n m dMax eps).dimCap := by
          simpa using hcond d hd
        congr 1
        exact diagramAt_of_allDiagrams_eq _ _ hcap hall d (by omega)
      · rw [if_neg hcond, if_neg hcond]
  rw [hcd dm] at hres
  rw [hcd (fun i j => dm (π i) (π j))]
  rw [computeDiagrams] at hres ⊢
  have hcapeq : (buildFiltration n (fun i j => dm (π i) (π j)) dMax
      eps).dimCap = (buildFiltration n dm dMax eps).dimCap := rfl
  rw [hcapeq]
  by_cases hcond : (dims.all fun d =>
      decide (d + 1 ≤ (buildFiltration n dm dMax eps).dimCap)) = true
  · rw [if_pos hcond] at hres
    rw [if_pos hcond]
    have hres' : dims.map
        (fun d => (d, diagramAt (buildFiltration n dm dMax eps) d)) = res := by
      injection hres
    refine ⟨_, rfl, ?_⟩
    rw [← hres']
    rw [List.forall₂_map_left_iff, List.forall₂_map_right_iff,
      List.forall₂_same]
    intro d hd
    exact ⟨rfl, diagramAt_buildFiltration_perm n dm dMax eps π hπ d⟩
  · rw [if_neg hcond] at hres
    cases hres

set_option maxRecDepth 1000000 in
/-- Witness for `diagrams_permutation_invariant`: swapping the first two
points of the equilateral triangle leaves both computed diagrams unchanged as
multisets. -/
theorem diagrams_permutation_invariant_witness :
    (∀ t, t < 3 → (Equiv.swap 0 1) t < 3) ∧
    (vietorisRipsPersistence false 3 exampleDM 1 (some 2) [0, 1] =
      Except.ok [(0, [((0 : ℚ), ((1 : ℚ) : WithTop ℚ)),
        ((0 : ℚ), ((1 : ℚ) : WithTop ℚ)), ((0 : ℚ), (⊤ : WithTop ℚ))]),
        (1, [])]) ∧
    (∃ res', vietorisRipsPersistence false 3
        (fun i j => exampleDM ((Equiv.swap 0 1) i) ((Equiv.swap 0 1) j))
        1 (some 2) [0, 1] = Except.ok res' ∧
      List.Forall₂ (fun a b => a.1 = b.1 ∧ a.2.Perm b.2) res'
        [(0, [((0 : ℚ), ((1 : ℚ) : WithTop ℚ)),
          ((0 : ℚ), ((1 : ℚ) : WithTop ℚ)), ((0 : ℚ), (⊤ : WithTop ℚ))]),
          (1, [])]) :=
  ⟨by decide, by rfl,
    diagrams_permutation_invariant false 3 exampleDM 1 (some 2) [0, 1]
      (Equiv.swap 0 1) (by decide) _ (by rfl)⟩

end GtdaSpec
